import Mathlib

/-! # The agora bytecode VM: `runtime/func.go`

A shallow embedding of the function value and interpreter loop of
`runtime/func.go`.

* Go panics are results: every operation returns `Res`, which is either a
  value with the state it leaves, a `Fault` with the state at the moment of
  the panic (mutations made before a panic stay visible, as in Go), or
  `timeout` when the fuel of the interpreter loop ran out.
* `*Func` is a pointer to a mutable object: a `Val.func` carries an address
  into a `Heap` of `Func` objects, `NewFunc` allocates at the end of the heap.
* `*FuncProto` and `*Ctx` are only read by this file, so a prototype is
  embedded by value and the context is one shared parameter.
* `Val` (other than `*Func`), `Instr`, `Opcode`, `Flag` and `Ctx` are declared
  in files that are not part of the sources; what `func.go` uses of them is
  taken as a parameter (`Prims`, the fields of `Ctx`) or as plain data. The
  limit of the Go runtime on the capacity of a slice is a parameter too.
* `pc` is a Go `int`: arithmetic on it wraps at 64 bits and `int(ix)` is the
  two's-complement reading of the `uint64` index.
-/

namespace Agora

/-- Values a panic of `func.go` can carry: the package's error variables, the
Go runtime errors it can trigger, and its two formatted messages. `other`
stands for a panic raised by a method of one of the primitive value types. -/
inductive Fault where
  | ErrNativeFuncNotFound
  | ErrInvalidConvFuncToInt
  | ErrInvalidConvFuncToFloat
  | ErrInvalidConvFuncToString
  | ErrInvalidOpAddOnFunc
  | ErrInvalidOpSubOnFunc
  | ErrInvalidOpMulOnFunc
  | ErrInvalidOpDivOnFunc
  | ErrInvalidOpPowOnFunc
  | ErrInvalidOpModOnFunc
  | ErrInvalidOpUnmOnFunc
  | indexOutOfRange
  | typeAssertion
  | nilDeref
  | makesliceCap
  | invalidFlagGet
  | invalidFlagSet
  | unknownOpcode
  | other (code : Nat)
  deriving DecidableEq, Repr

/-- Address of a `Func` object (a non-nil `*Func`). -/
abbrev Ref := Nat

/-- The dynamic types a `Val` takes in `func.go` (see the type switches of
`dump`): `Nil`, `Bool`, `Int`, `Float`, `String` and `*Func`. A `float` carries
the bit pattern of its `float64`, a `func` the address of the `Func` object. -/
inductive Val where
  | nil
  | bool (b : Bool)
  | int (i : Int)
  | float (bits : Nat)
  | string (s : String)
  | func (ref : Ref)
  deriving DecidableEq, Repr

/-- Opcodes the `switch` of `callVM` names; `other` is any value that reaches
its `default` branch. -/
inductive Opcode where
  | OP_RET | OP_PUSH | OP_POP
  | OP_ADD | OP_SUB | OP_MUL | OP_DIV | OP_MOD | OP_POW
  | OP_NOT | OP_UNM | OP_CALL | OP_LT | OP_GT
  | OP_TEST | OP_JMPB | OP_JMPF | OP_DUMP
  | other (code : Nat)
  deriving DecidableEq, Repr

/-- Flags the `switch` of `getVal` names; `other` is any value that falls
through it. -/
inductive Flag where
  | FLG_K | FLG_V | FLG_N | FLG_F
  | other (code : Nat)
  deriving DecidableEq, Repr

/-- An instruction as `callVM` decodes it: `Opcode()`, `Flag()` and the
`uint64` `Index()`. -/
structure Instr where
  Opcode : Opcode
  Flag : Flag
  Index : Nat
  deriving DecidableEq, Repr

/-- Debug record embedded in `Var` and `FuncProto`. -/
structure debug where
  Name : String
  File : String
  LineStart : Int
  LineEnd : Int
  deriving DecidableEq, Repr

/-- A variable descriptor. -/
structure Var where
  dbg : debug
  deriving DecidableEq, Repr

/-- A compiled function prototype. -/
structure FuncProto where
  IsNative : Bool
  NativeName : String
  StackSz : Int
  ExpArgs : Int
  KTable : List Val
  VTable : List Var
  Code : List Instr
  dbg : debug
  deriving DecidableEq, Repr

/-- A function object: the prototype it embeds and the state of its
activation. The `ctx` field is the shared context, passed separately. -/
structure Func where
  proto : FuncProto
  pc : Int
  vars : List Val
  stack : List Val
  sp : Int
  deriving DecidableEq, Repr

/-- The store of `Func` objects; a `Ref` is an index into it. -/
abbrev Heap := List Func

/-- Outcome of an operation on a state of type `σ`: a result and the state
after it, a panic and the state at that moment, or fuel exhaustion. -/
inductive Res (σ α : Type) where
  | ok (a : α) (s : σ)
  | fault (e : Fault) (s : σ)
  | timeout
  deriving DecidableEq, Repr

/-- A state-passing computation that may panic. -/
def M (σ α : Type) : Type := σ → Res σ α

/-- Sequencing: the continuation runs on the state the first part leaves, a
panic stops the computation with the state reached so far. -/
def M.bind {σ α β : Type} (x : M σ α) (k : α → M σ β) : M σ β := fun s =>
  match x s with
  | .ok a s1 => k a s1
  | .fault e s1 => .fault e s1
  | .timeout => .timeout

instance {σ : Type} : Monad (M σ) where
  pure a := fun s => .ok a s
  bind := M.bind

/-- Go `panic(e)`. -/
def M.panic {σ α : Type} (e : Fault) : M σ α := fun s => .fault e s

/-- Run a call that returns a value or panics, without touching the state. -/
def M.ofExcept {σ α : Type} (x : Except Fault α) : M σ α := fun s =>
  match x with
  | .ok a => .ok a s
  | .error e => .fault e s

/-- A registered native implementation: it receives the argument list and may
read and write the store (it can call back into `Func` values). -/
abbrev Native := List Val → M Heap Val

/-- What `func.go` reads of the context: the prototype table and the table of
native implementations by name. -/
structure Ctx where
  Protos : List FuncProto
  nTable : String → Option Native

/-- What `func.go` takes from outside the file. The methods of the value types
other than `*Func`, which are declared in other files: each may return or
panic. And `maxCap`, the largest capacity for which `make([]Val, 0, cap)`
returns on the platform: above it the Go runtime panics (`makeslice: cap out
of range`) or runs out of memory. -/
structure Prims where
  maxCap : Nat
  add : Val → Val → Except Fault Val
  sub : Val → Val → Except Fault Val
  mul : Val → Val → Except Fault Val
  div : Val → Val → Except Fault Val
  mod : Val → Val → Except Fault Val
  pow : Val → Val → Except Fault Val
  not : Val → Except Fault Val
  unm : Val → Except Fault Val
  bool : Val → Except Fault Bool
  cmp : Val → Val → Except Fault Int

/-- Wrap an integer into the range of a 64-bit Go `int`. -/
def wrapInt (x : Int) : Int := (x + 2 ^ 63) % 2 ^ 64 - 2 ^ 63

/-- Slice indexing with a Go `int`: `none` is the runtime's index-out-of-range
panic. -/
def index {α : Type} (xs : List α) (i : Int) : Option α :=
  if i < 0 then none else xs[i.toNat]?

/-! ## Methods of `*Func` as a value -/

/-- `Int` is an invalid conversion. -/
def Func.Int (_self : Ref) : Except Fault Int := .error .ErrInvalidConvFuncToInt

/-- `Float` is an invalid conversion; the result type is the `float64` bit
pattern. -/
def Func.Float (_self : Ref) : Except Fault Nat := .error .ErrInvalidConvFuncToFloat

/-- `String` is an invalid conversion. -/
def Func.String (_self : Ref) : Except Fault String := .error .ErrInvalidConvFuncToString

/-- `Bool` returns true. -/
def Func.Bool (_self : Ref) : Except Fault Bool := .ok true

/-- `Cmp`: 0 when `v` is the same pointer, otherwise -1. -/
def Func.Cmp (self : Ref) (v : Val) : Except Fault ℤ :=
  if Val.func self = v then .ok 0 else .ok (-1)

/-- `Add` is an invalid operation. -/
def Func.Add (_self : Ref) (_v : Val) : Except Fault Val := .error .ErrInvalidOpAddOnFunc

/-- `Sub` is an invalid operation. -/
def Func.Sub (_self : Ref) (_v : Val) : Except Fault Val := .error .ErrInvalidOpSubOnFunc

/-- `Mul` is an invalid operation. -/
def Func.Mul (_self : Ref) (_v : Val) : Except Fault Val := .error .ErrInvalidOpMulOnFunc

/-- `Div` is an invalid operation. -/
def Func.Div (_self : Ref) (_v : Val) : Except Fault Val := .error .ErrInvalidOpDivOnFunc

/-- `Mod` is an invalid operation. -/
def Func.Mod (_self : Ref) (_v : Val) : Except Fault Val := .error .ErrInvalidOpModOnFunc

/-- `Pow` is an invalid operation. -/
def Func.Pow (_self : Ref) (_v : Val) : Except Fault Val := .error .ErrInvalidOpPowOnFunc

/-- `Not` switches the boolean value of the func. -/
def Func.Not (self : Ref) : Except Fault Val :=
  match Func.Bool self with
  | .ok b => .ok (.bool (!b))
  | .error e => .error e

/-- `Unm` is an invalid operation. -/
def Func.Unm (_self : Ref) : Except Fault Val := .error .ErrInvalidOpUnmOnFunc

/-! ## Method calls on a `Val`: dispatch on the dynamic type -/

/-- Interface call `x.Add(y)`. -/
def Val.Add (P : Prims) (x y : Val) : Except Fault Val :=
  match x with
  | .func self => Func.Add self y
  | _ => P.add x y

/-- Interface call `x.Sub(y)`. -/
def Val.Sub (P : Prims) (x y : Val) : Except Fault Val :=
  match x with
  | .func self => Func.Sub self y
  | _ => P.sub x y

/-- Interface call `x.Mul(y)`. -/
def Val.Mul (P : Prims) (x y : Val) : Except Fault Val :=
  match x with
  | .func self => Func.Mul self y
  | _ => P.mul x y

/-- Interface call `x.Div(y)`. -/
def Val.Div (P : Prims) (x y : Val) : Except Fault Val :=
  match x with
  | .func self => Func.Div self y
  | _ => P.div x y

/-- Interface call `x.Mod(y)`. -/
def Val.Mod (P : Prims) (x y : Val) : Except Fault Val :=
  match x with
  | .func self => Func.Mod self y
  | _ => P.mod x y

/-- Interface call `x.Pow(y)`. -/
def Val.Pow (P : Prims) (x y : Val) : Except Fault Val :=
  match x with
  | .func self => Func.Pow self y
  | _ => P.pow x y

/-- Interface call `x.Not()`. -/
def Val.Not (P : Prims) (x : Val) : Except Fault Val :=
  match x with
  | .func self => Func.Not self
  | _ => P.not x

/-- Interface call `x.Unm()`. -/
def Val.Unm (P : Prims) (x : Val) : Except Fault Val :=
  match x with
  | .func self => Func.Unm self
  | _ => P.unm x

/-- Interface call `x.Bool()`. -/
def Val.Bool (P : Prims) (x : Val) : Except Fault Bool :=
  match x with
  | .func self => Func.Bool self
  | _ => P.bool x

/-- Interface call `x.Cmp(y)`. -/
def Val.Cmp (P : Prims) (x y : Val) : Except Fault Int :=
  match x with
  | .func self => Func.Cmp self y
  | _ => P.cmp x y

/-! ## Construction and the operand stack -/

/-- The struct literal of `NewFunc`: every variable is `Nil`, the stack is
empty (its capacity is not observable), `pc` and `sp` are 0. -/
def Func.fresh (proto : FuncProto) : Func :=
  { proto := proto
    pc := 0
    vars := List.replicate proto.VTable.length Val.nil
    stack := []
    sp := 0 }

/-- `NewFunc`: allocate a fresh object and return its address. The call
`make([]Val, 0, proto.StackSz)` panics when the capacity is negative or above
what the runtime accepts, before anything is allocated. -/
def NewFunc (P : Prims) (proto : FuncProto) : M Heap Ref := fun h =>
  if proto.StackSz < 0 ∨ (P.maxCap : ℤ) < proto.StackSz then .fault .makesliceCap h
  else .ok h.length (h ++ [Func.fresh proto])

/-- `push`: append at the end of the stack, else overwrite slot `sp` (a panic
when `sp` is not an index), then `sp++`. -/
def Func.push (v : Val) : M Func Unit := fun f =>
  if f.sp = f.stack.length then
    .ok () { f with stack := f.stack ++ [v], sp := f.sp + 1 }
  else
    match index f.stack f.sp with
    | none => .fault .indexOutOfRange f
    | some _ => .ok () { f with stack := f.stack.set f.sp.toNat v, sp := f.sp + 1 }

/-- `pop`: `sp--`, read slot `sp` (a panic when it is not an index, with `sp`
already decremented), overwrite the slot with `Nil`. -/
def Func.pop : M Func Val := fun f =>
  let f1 := { f with sp := f.sp - 1 }
  match index f1.stack f1.sp with
  | none => .fault .indexOutOfRange f1
  | some v => .ok v { f1 with stack := f1.stack.set f1.sp.toNat Val.nil }

/-- `getVal`: the activation is only read; flag `F` allocates a new `Func`
for the prototype at that index of the context. -/
def Func.getVal (P : Prims) (ctx : Ctx) (f : Func) (flg : Flag) (ix : Nat) : M Heap Val :=
  match flg with
  | .FLG_K =>
    match f.proto.KTable[ix]? with
    | some v => pure v
    | none => M.panic .indexOutOfRange
  | .FLG_V =>
    match f.vars[ix]? with
    | some v => pure v
    | none => M.panic .indexOutOfRange
  | .FLG_N => pure Val.nil
  | .FLG_F =>
    match ctx.Protos[ix]? with
    | some proto => do
      let r ← NewFunc P proto
      pure (Val.func r)
    | none => M.panic .indexOutOfRange
  | .other _ => M.panic .invalidFlagGet

/-- `setVal`: only flag `V` is valid. -/
def Func.setVal (flg : Flag) (ix : Nat) (v : Val) : M Func Unit := fun f =>
  match flg with
  | .FLG_V =>
    if ix < f.vars.length then .ok () { f with vars := f.vars.set ix v }
    else .fault .indexOutOfRange f
  | _ => .fault .invalidFlagSet f

/-! ## Access to an object through its pointer -/

/-- Read the object `r` points to. -/
def Heap.read (r : Ref) : M Heap Func := fun h =>
  match h[r]? with
  | some f => .ok f h
  | none => .fault .nilDeref h

/-- Run a method on the object `r` points to and store the object it
leaves, also when the method panics. -/
def Heap.onObj {α : Type} (r : Ref) (m : M Func α) : M Heap α := fun h =>
  match h[r]? with
  | none => .fault .nilDeref h
  | some f =>
    match m f with
    | .ok a f1 => .ok a (h.set r f1)
    | .fault e f1 => .fault e (h.set r f1)
    | .timeout => .timeout

/-! ## The interpreter -/

/-- The argument binding loop of `callVM`, `for j := 0; j < cnt; j++`, with
`k` iterations left. -/
def Func.bindLoop (args : List Val) : Nat → Nat → M Func Unit
  | 0, _ => pure ()
  | k + 1, j => fun f =>
    match args[j]? with
    | none => .fault .indexOutOfRange f
    | some a =>
      if j < f.vars.length then
        Func.bindLoop args k (j + 1) { f with vars := f.vars.set j a }
      else .fault .indexOutOfRange f

/-- The head of `callVM`: `cnt` is the smaller of `len(args)` and `ExpArgs`
(the round trip through `float64` is exact on slice lengths and keeps the
sign of `ExpArgs`), then the binding loop. -/
def Func.bindArgs (args : List Val) : M Func Unit := fun f =>
  let cnt : ℤ := min (args.length : ℤ) f.proto.ExpArgs
  Func.bindLoop args cnt.toNat 0 f

/-- Fetch `Code[pc]` and advance `pc`. -/
def Func.fetch : M Func Instr := fun f =>
  match index f.proto.Code f.pc with
  | none => .fault .indexOutOfRange f
  | some i => .ok i { f with pc := wrapInt (f.pc + 1) }

/-- The body shared by the binary opcodes: pop `y`, pop `x`, push the result
of `op x y`. -/
def Func.binop (op : Val → Val → Except Fault Val) : M Func Unit := do
  let y ← Func.pop
  let x ← Func.pop
  let z ← M.ofExcept (op x y)
  Func.push z

/-- The body of `OP_NOT` and `OP_UNM`: pop `x`, push the result of `op x`. -/
def Func.unop (op : Val → Except Fault Val) : M Func Unit := do
  let x ← Func.pop
  let z ← M.ofExcept (op x)
  Func.push z

/-- The body of `OP_LT` and `OP_GT`: pop `y`, pop `x`, push whether
`x.Cmp(y)` equals `want`. -/
def Func.cmpop (P : Prims) (want : ℤ) : M Func Unit := do
  let y ← Func.pop
  let x ← Func.pop
  let cmp ← M.ofExcept (Val.Cmp P x y)
  Func.push (Val.bool (decide (cmp = want)))

/-- The argument loop of `OP_CALL`, `for j := ix; j > 0; j--`: slot `j-1` of
`args` receives the next popped value. -/
def Func.popArgs : Nat → List Val → M Func (List Val)
  | 0, args => pure args
  | j + 1, args => do
    let v ← Func.pop
    Func.popArgs j (args.set j v)

/-- The body of `OP_TEST`: pop, and skip `ix` instructions when the value is
not truthy. -/
def Func.test (P : Prims) (ix : Nat) : M Func Unit := do
  let v ← Func.pop
  let b ← M.ofExcept (Val.Bool P v)
  if !b then
    fun f => .ok () { f with pc := wrapInt (f.pc + wrapInt ix) }
  else pure ()

/-- The body of `OP_JMPB`: `pc -= int(ix) + 1`. -/
def Func.jmpb (ix : Nat) : M Func Unit := fun f =>
  .ok () { f with pc := wrapInt (f.pc - wrapInt (wrapInt ix + 1)) }

/-- The body of `OP_JMPF`: `pc += int(ix)`. -/
def Func.jmpf (ix : Nat) : M Func Unit := fun f =>
  .ok () { f with pc := wrapInt (f.pc + wrapInt ix) }

/-- The `switch` of the loop of `callVM` on the decoded instruction `i`, for
the object at `r`: `some v` when the iteration returns `v`, `none` when the
loop goes on. `call` is what `fn.Call(args...)` runs. `OP_DUMP` only prints,
and the allocation limit of `make([]Val, ix)` is not modelled. -/
def Func.exec (P : Prims) (ctx : Ctx) (call : Ref → List Val → M Heap Val)
    (r : Ref) (i : Instr) : M Heap (Option Val) :=
  match i.Opcode with
  | .OP_RET => do
    let v ← Heap.onObj r Func.pop
    pure (some v)
  | .OP_PUSH => do
    let f ← Heap.read r
    let v ← Func.getVal P ctx f i.Flag i.Index
    Heap.onObj r (Func.push v)
    pure none
  | .OP_POP => do
    Heap.onObj r (do
      let v ← Func.pop
      Func.setVal i.Flag i.Index v)
    pure none
  | .OP_ADD => do Heap.onObj r (Func.binop (Val.Add P)); pure none
  | .OP_SUB => do Heap.onObj r (Func.binop (Val.Sub P)); pure none
  | .OP_MUL => do Heap.onObj r (Func.binop (Val.Mul P)); pure none
  | .OP_DIV => do Heap.onObj r (Func.binop (Val.Div P)); pure none
  | .OP_MOD => do Heap.onObj r (Func.binop (Val.Mod P)); pure none
  | .OP_POW => do Heap.onObj r (Func.binop (Val.Pow P)); pure none
  | .OP_NOT => do Heap.onObj r (Func.unop (Val.Not P)); pure none
  | .OP_UNM => do Heap.onObj r (Func.unop (Val.Unm P)); pure none
  | .OP_CALL => do
    let x ← Heap.onObj r Func.pop
    match x with
    | .func fn => do
      let args ← Heap.onObj r (Func.popArgs i.Index (List.replicate i.Index Val.nil))
      let v ← call fn args
      Heap.onObj r (Func.push v)
      pure none
    | _ => M.panic .typeAssertion
  | .OP_LT => do Heap.onObj r (Func.cmpop P (-1)); pure none
  | .OP_GT => do Heap.onObj r (Func.cmpop P 1); pure none
  | .OP_TEST => do Heap.onObj r (Func.test P i.Index); pure none
  | .OP_JMPB => do Heap.onObj r (Func.jmpb i.Index); pure none
  | .OP_JMPF => do Heap.onObj r (Func.jmpf i.Index); pure none
  | .OP_DUMP => pure none
  | .other _ => M.panic .unknownOpcode

/-- One iteration of the loop of `callVM` on the object at `r`: fetch and
decode `Code[pc]`, advance `pc`, run the `switch`. -/
def Func.step (P : Prims) (ctx : Ctx) (call : Ref → List Val → M Heap Val)
    (r : Ref) : M Heap (Option Val) := do
  let i ← Heap.onObj r Func.fetch
  Func.exec P ctx call r i

/-- `callVM`: bind the arguments into the variables of the object itself,
then run the loop on it. -/
def Func.callVM (loop : Ref → M Heap Val) (r : Ref) (args : List Val) : M Heap Val := do
  Heap.onObj r (Func.bindArgs args)
  loop r

/-- `Call`: a native prototype is looked up by name in the context and
receives the arguments as they are; any other runs `callVM`. -/
def Func.Call (ctx : Ctx) (loop : Ref → M Heap Val) (r : Ref) (args : List Val) :
    M Heap Val := do
  let f ← Heap.read r
  if f.proto.IsNative then
    match ctx.nTable f.proto.NativeName with
    | none => M.panic .ErrNativeFuncNotFound
    | some nf => nf args
  else
    Func.callVM loop r args

/-- The `for` loop of `callVM` with a bound on the number of iterations along
any chain of nested calls. -/
def Func.loop (P : Prims) (ctx : Ctx) : Nat → Ref → M Heap Val
  | 0 => fun _ _ => .timeout
  | n + 1 => fun r => do
    let res ← Func.step P ctx (Func.Call ctx (Func.loop P ctx n)) r
    match res with
    | some v => pure v
    | none => Func.loop P ctx n r

/-- `Call` on the object at `r`, with fuel for the interpreter loop. -/
def Func.run (P : Prims) (ctx : Ctx) (fuel : Nat) (r : Ref) (args : List Val) :
    M Heap Val :=
  Func.Call ctx (Func.loop P ctx fuel) r args

end Agora

namespace Agora

/-- The panic value of an outcome, when it is a panic. -/
def Res.fault? {σ α : Type} : Res σ α → Option Fault
  | .fault e _ => some e
  | _ => none

/-- The state an outcome leaves, when there is one. -/
def Res.state? {σ α : Type} : Res σ α → Option σ
  | .ok _ s => some s
  | .fault _ s => some s
  | .timeout => none

end Agora

namespace Agora

/-- The calls `push(v1)`, ..., `push(vn)` one after the other. -/
def Func.pushAll : List Val → M Func Unit
  | [] => pure ()
  | v :: vs => do
    Func.push v
    Func.pushAll vs

/-- The call `pop()` made `n` times; the results in the order they were
returned. -/
def Func.popN : Nat → M Func (List Val)
  | 0 => pure []
  | n + 1 => do
    let v ← Func.pop
    let rest ← Func.popN n
    pure (v :: rest)

end Agora

namespace Agora

/-! ## Concrete inputs -/

/-- An empty debug record. -/
def noDebug : debug := { Name := "", File := "", LineStart := 0, LineEnd := 0 }

/-- Build an instruction. -/
def instr (op : Opcode) (flg : Flag) (ix : Nat) : Instr :=
  { Opcode := op, Flag := flg, Index := ix }

/-- A prototype with the given arity, constants, number of variables and
code. -/
def mkProto (expArgs : Int) (ks : List Val) (nvars : Nat) (code : List Instr) : FuncProto :=
  { IsNative := false, NativeName := "", StackSz := 0, ExpArgs := expArgs,
    KTable := ks, VTable := List.replicate nvars { dbg := noDebug },
    Code := code, dbg := noDebug }

/-- An activation whose stack holds one live value and one dead slot. -/
def lifoStart : Func :=
  { proto := mkProto 0 [] 0 [], pc := 0, vars := [],
    stack := [Val.int 1, Val.nil], sp := 1 }

end Agora

namespace Agora

/-- The method each binary opcode applies, as the `switch` of `callVM` pairs
them. -/
def binaryMethod : Opcode → Option (Prims → Val → Val → Except Fault Val)
  | .OP_ADD => some Val.Add
  | .OP_SUB => some Val.Sub
  | .OP_MUL => some Val.Mul
  | .OP_DIV => some Val.Div
  | .OP_MOD => some Val.Mod
  | .OP_POW => some Val.Pow
  | _ => none

/-- Sample methods for the primitive values: integer arithmetic, string
concatenation, natural truthiness and integer comparison; every other
combination panics. The capacity limit is 2^44 values. -/
def samplePrims : Prims :=
  { maxCap := 17592186044416
    add := fun x y =>
      match x, y with
      | .int a, .int b => .ok (.int (a + b))
      | .string a, .string b => .ok (.string (a ++ b))
      | _, _ => .error (.other 0)
    sub := fun x y =>
      match x, y with
      | .int a, .int b => .ok (.int (a - b))
      | _, _ => .error (.other 0)
    mul := fun x y =>
      match x, y with
      | .int a, .int b => .ok (.int (a * b))
      | _, _ => .error (.other 0)
    div := fun _ _ => .error (.other 0)
    mod := fun _ _ => .error (.other 0)
    pow := fun _ _ => .error (.other 0)
    not := fun x =>
      match x with
      | .bool b => .ok (.bool (!b))
      | _ => .error (.other 0)
    unm := fun x =>
      match x with
      | .int a => .ok (.int (-a))
      | _ => .error (.other 0)
    bool := fun x =>
      match x with
      | .bool b => .ok b
      | .nil => .ok false
      | _ => .ok true
    cmp := fun x y =>
      match x, y with
      | .int a, .int b => .ok (if a < b then -1 else if a = b then 0 else 1)
      | _, _ => .error (.other 0) }

/-- A context with no prototype and no native. -/
def emptyCtx : Ctx := { Protos := [], nTable := fun _ => none }

/-- A call hook that is never reached by the instructions under test. -/
def noCall : Ref → List Val → M Heap Val := fun _ _ => M.panic (.other 1)

/-- An activation at a `SUB` with 5 pushed before 3, above one other value. -/
def subStart : Func :=
  { proto := mkProto 0 [] 0 [instr .OP_SUB .FLG_N 0, instr .OP_RET .FLG_N 0],
    pc := 0, vars := [],
    stack := [Val.int 9, Val.int 5, Val.int 3], sp := 3 }

end Agora

namespace Agora

/-- A native prototype of the given name and arity. -/
def nativeProto (name : String) (expArgs : Int) : FuncProto :=
  { IsNative := true, NativeName := name, StackSz := 0, ExpArgs := expArgs,
    KTable := [], VTable := [], Code := [], dbg := noDebug }

/-- A native that subtracts its second argument from its first and panics on
any other argument list. -/
def subNative : Native := fun args =>
  match args with
  | [Val.int a, Val.int b] => pure (Val.int (a - b))
  | _ => M.panic (.other 2)

/-- A native that returns how many arguments it received. -/
def countNative : Native := fun args => pure (Val.int args.length)

/-- A context whose native table registers `sub` and `count`. -/
def nativeCtx : Ctx :=
  { Protos := []
    nTable := fun name =>
      if name = "sub" then some subNative
      else if name = "count" then some countNative
      else none }

/-- An activation at a `CALL 2` with 8 pushed before 9, then the callee, above
one other value. -/
def callStart : Func :=
  { proto := mkProto 0 [] 0 [instr .OP_CALL .FLG_N 2, instr .OP_RET .FLG_N 0],
    pc := 0, vars := [],
    stack := [Val.int 7, Val.int 8, Val.int 9, Val.func 1], sp := 4 }

/-- A store with `callStart` and the native `sub` as object 1. -/
def callHeap : Heap := [callStart, Func.fresh (nativeProto "sub" 2)]

end Agora

namespace Agora

/-- A prototype that expects two arguments and has three variables. -/
def argProto : FuncProto :=
  mkProto 2 [] 3 [instr .OP_PUSH .FLG_V 0, instr .OP_RET .FLG_N 0]

/-- Three arguments, one more than `argProto` expects. -/
def argList : List Val := [Val.int 1, Val.int 2, Val.int 3]

end Agora

namespace Agora

/-- The object a first call `Call(1, 2)` of a fresh `argProto` leaves behind:
`pc` is past the `RET`, the arguments are still in the variables. -/
def afterFirstCall : Func :=
  { proto := argProto, pc := 2, vars := [Val.int 1, Val.int 2, Val.nil],
    stack := [Val.nil], sp := 0 }

/-- A program that stores one `Func` in a variable and calls it twice. -/
def callTwiceProto : FuncProto :=
  mkProto 0 [] 2
    [instr .OP_PUSH .FLG_F 1, instr .OP_POP .FLG_V 0,
     instr .OP_PUSH .FLG_V 0, instr .OP_CALL .FLG_N 0, instr .OP_POP .FLG_V 1,
     instr .OP_PUSH .FLG_V 0, instr .OP_CALL .FLG_N 0, instr .OP_RET .FLG_N 0]

/-- The context of `callTwiceProto`: prototype 1 is `argProto`. -/
def callTwiceCtx : Ctx := { Protos := [callTwiceProto, argProto], nTable := fun _ => none }

end Agora

namespace Agora

/-- The caller object of `callTwiceProto` with the given state. -/
def callTwiceAt (pc : Int) (vars stack : List Val) (sp : Int) : Func :=
  { proto := callTwiceProto, pc := pc, vars := vars, stack := stack, sp := sp }

/-- The callee of `callTwiceProto` once its first call has returned. -/
def calleeReturned : Func :=
  { proto := argProto, pc := 2, vars := [Val.nil, Val.nil, Val.nil],
    stack := [Val.nil], sp := 0 }

end Agora

namespace Agora

/-- A store with `callStart` and, as object 1, a native whose name is not
registered in `nativeCtx`. -/
def missingHeap : Heap := [callStart, Func.fresh (nativeProto "missing" 2)]

/-- A store with one native object, `count`, which expects one argument. -/
def countHeap : Heap := [Func.fresh (nativeProto "count" 1)]

/-- An activation at a `TEST 3` with `false` on top of the stack. -/
def testStart : Func :=
  { proto := mkProto 0 [] 0
      [instr .OP_TEST .FLG_N 3, instr .OP_PUSH .FLG_N 0, instr .OP_PUSH .FLG_N 0,
       instr .OP_PUSH .FLG_N 0, instr .OP_PUSH .FLG_N 0, instr .OP_RET .FLG_N 0],
    pc := 0, vars := [], stack := [Val.bool false], sp := 1 }

/-- An activation at a `JMPB 0` that follows a `PUSH`. -/
def jmpbStart : Func :=
  { proto := mkProto 0 [] 0 [instr .OP_PUSH .FLG_N 0, instr .OP_JMPB .FLG_N 0],
    pc := 1, vars := [], stack := [Val.nil], sp := 1 }

end Agora

namespace Agora

/-- An activation at an `LT` followed by a `GT`, whose two topmost values are
the `Func` at address 1 and, above it, the `Func` at address 2. -/
def cmpStart : Func :=
  { proto := mkProto 0 [] 0 [instr .OP_LT .FLG_N 0, instr .OP_GT .FLG_N 0],
    pc := 0, vars := [],
    stack := [Val.int 9, Val.func 1, Val.func 2], sp := 3 }

end Agora

namespace Agora

/-! ## Invariants of an activation -/

/-- The stack pointer invariant: `0 ≤ sp ≤ len(stack)`. -/
def Func.spOk (f : Func) : Prop := 0 ≤ f.sp ∧ f.sp ≤ (f.stack.length : ℤ)

instance (f : Func) : Decidable f.spOk := by
  unfold Func.spOk
  infer_instance

/-- The dead-slot invariant: every stack slot at an index `i` with
`sp ≤ i < len(stack)` holds `Nil`. -/
def Func.deadNil (f : Func) : Prop :=
  ∀ i : Nat, i < f.stack.length → f.sp ≤ (i : ℤ) → f.stack[i]? = some Val.nil

instance (f : Func) : Decidable f.deadNil := by
  unfold Func.deadNil
  infer_instance

/-- A context whose only prototype is `argProto`. -/
def argCtx : Ctx := { Protos := [argProto], nTable := fun _ => none }

end Agora

namespace Agora

/-- The prototype `argProto` with a negative stack size hint. -/
def negHintProto : FuncProto := { argProto with StackSz := -1 }

/-- A context whose only prototype is `negHintProto`. -/
def negHintCtx : Ctx := { Protos := [negHintProto], nTable := fun _ => none }

end Agora

namespace Agora

/-! ## Outcomes of a computation -/

/-- The computation `m`, run on `s`, does not run out of fuel; when it returns
`a` on `s1` then `Qok a s1`, and when it panics on `s1` then `Qf s1`. -/
def M.yields {σ α : Type} (m : M σ α) (s : σ) (Qok : α → σ → Prop) (Qf : σ → Prop) : Prop :=
  match m s with
  | .ok a s1 => Qok a s1
  | .fault _ s1 => Qf s1
  | .timeout => False

/-- The state `s` is `f0` after at most `k` pops and nothing else: same
prototype, `pc` and variables, a stack of the same length, `sp` lower by at
most `k`. -/
def Func.after (k : ℤ) (f0 s : Func) : Prop :=
  s.proto = f0.proto ∧ s.pc = f0.pc ∧ s.vars = f0.vars ∧
  s.stack.length = f0.stack.length ∧ f0.sp - k ≤ s.sp ∧ s.sp ≤ f0.sp

/-- The state `s` has the prototype and `pc` of `f0` and satisfies the stack
pointer invariant. -/
def Func.settled (f0 s : Func) : Prop :=
  s.proto = f0.proto ∧ s.pc = f0.pc ∧ s.spOk

end Agora

namespace Agora

/-- An activation at an `ADD` with a single value on the stack. -/
def addOneStart : Func :=
  { proto := mkProto 0 [] 0 [instr .OP_ADD .FLG_N 0, instr .OP_RET .FLG_N 0],
    pc := 0, vars := [], stack := [Val.int 5], sp := 1 }

/-- An activation at a `CALL 0` whose top of stack is not a `Func`. -/
def callIntStart : Func :=
  { proto := mkProto 0 [] 0 [instr .OP_CALL .FLG_N 0, instr .OP_RET .FLG_N 0],
    pc := 0, vars := [], stack := [Val.int 5], sp := 1 }

/-- An activation at a `JMPF 5` that is the only instruction. -/
def jmpfStart : Func :=
  { proto := mkProto 0 [] 0 [instr .OP_JMPF .FLG_N 5],
    pc := 0, vars := [], stack := [], sp := 0 }

/-- An activation at a `PUSH N` followed by a `RET`. -/
def pushStart : Func :=
  { proto := mkProto 0 [] 0 [instr .OP_PUSH .FLG_N 0, instr .OP_RET .FLG_N 0],
    pc := 0, vars := [], stack := [], sp := 0 }

end Agora

namespace Agora

/-! ## Executions of the loop -/

/-- The computation `m2` agrees with `m1` wherever `m1` does not run out of
fuel. -/
def M.below {σ α : Type} (m1 m2 : M σ α) : Prop :=
  ∀ s, m1 s = .timeout ∨ m1 s = m2 s

/-- The activation `f` right after a `RET` it has fetched: `pc` advanced, the
top of the stack popped. -/
def Func.returned (f : Func) : Func :=
  { f with pc := wrapInt (f.pc + 1)
           stack := f.stack.set (f.sp - 1).toNat Val.nil
           sp := f.sp - 1 }

/-- The execution of the activation at `r` gets from store `h` to store `h2`
by iterations of the loop of `callVM` that neither fault nor return, each with
some bound on the depth of the calls it makes. -/
inductive Func.Reaches (P : Prims) (ctx : Ctx) (r : Ref) : Heap → Heap → Prop where
  | here (h : Heap) : Func.Reaches P ctx r h h
  | next (n : Nat) (h h1 h2 : Heap)
      (hstep : Func.step P ctx (Func.Call ctx (Func.loop P ctx n)) r h = .ok none h1)
      (hrest : Func.Reaches P ctx r h1 h2) : Func.Reaches P ctx r h h2

end Agora

namespace Agora

/-- The activation `pushStart` after its `PUSH N`: at the `RET` with `Nil` on
top. -/
def pushedStart : Func := { pushStart with pc := 1, stack := [Val.nil], sp := 1 }

end Agora

namespace Agora

/-- A function of one argument that pushes its argument, then a new `Func` for
prototype 1, calls the latter on the former and, after the call, returns
`Nil`. -/
def reenterProto : FuncProto :=
  mkProto 1 [] 1
    [instr .OP_PUSH .FLG_V 0, instr .OP_PUSH .FLG_F 1, instr .OP_CALL .FLG_N 1,
     instr .OP_PUSH .FLG_N 0, instr .OP_RET .FLG_N 0]

/-- A function of one argument that calls its argument with no arguments and
returns the result. -/
def applyProto : FuncProto :=
  mkProto 1 [] 1 [instr .OP_PUSH .FLG_V 0, instr .OP_CALL .FLG_N 0, instr .OP_RET .FLG_N 0]

/-- The context of `reenterProto`: prototype 1 is `applyProto`. -/
def reenterCtx : Ctx := { Protos := [reenterProto, applyProto], nTable := fun _ => none }

/-- An object of `reenterProto` with the given state. -/
def reenterAt (pc : Int) (vars stack : List Val) (sp : Int) : Func :=
  { proto := reenterProto, pc := pc, vars := vars, stack := stack, sp := sp }

/-- An object of `applyProto` with the given state. -/
def applyAt (pc : Int) (vars stack : List Val) (sp : Int) : Func :=
  { proto := applyProto, pc := pc, vars := vars, stack := stack, sp := sp }

end Agora

namespace Agora

/-! ## The state a faulting instruction leaves -/

/-- The number of pops an instruction other than `CALL` has attempted when it
faults after its fetch: one for `RET`, `POP`, `NOT`, `UNM` and `TEST`; for a
binary opcode, `LT` and `GT` one when slot `sp - 1` is not a slot of the stack
and two otherwise; none for the other opcodes. -/
def Func.popsTried (i : Instr) (f : Func) : ℤ :=
  match i.Opcode with
  | .OP_RET | .OP_POP | .OP_NOT | .OP_UNM | .OP_TEST => 1
  | .OP_ADD | .OP_SUB | .OP_MUL | .OP_DIV | .OP_MOD | .OP_POW | .OP_LT | .OP_GT =>
    if (index f.stack (f.sp - 1)).isNone then 1 else 2
  | _ => 0

/-- The state `s` is `f0` after `k` attempted pops and nothing else: same
prototype, `pc` and variables, `sp` lower by `k`, and a stack that differs
from that of `f0` only in the slots from the new `sp` up to the old one, which
hold `Nil`. -/
def Func.popped (k : ℤ) (f0 s : Func) : Prop :=
  s.proto = f0.proto ∧ s.pc = f0.pc ∧ s.vars = f0.vars ∧ s.sp = f0.sp - k ∧
  s.stack.length = f0.stack.length ∧
  ∀ n : Nat, n < f0.stack.length →
    s.stack[n]? = if s.sp ≤ (n : ℤ) ∧ (n : ℤ) < f0.sp then some Val.nil else f0.stack[n]?

end Agora

/-! # Theorems -/

namespace Agora

/-! ## Sequencing lemmas -/

theorem M.bind_ok {σ α β : Type} (x : M σ α) (k : α → M σ β) (s s1 : σ) (a : α)
    (hx : x s = .ok a s1) : (x >>= k) s = k a s1 := by
  show M.bind x k s = k a s1
  simp [M.bind, hx]

theorem M.bind_fault {σ α β : Type} (x : M σ α) (k : α → M σ β) (s s1 : σ) (e : Fault)
    (hx : x s = .fault e s1) : (x >>= k) s = .fault e s1 := by
  show M.bind x k s = .fault e s1
  simp [M.bind, hx]

theorem M.pure_apply {σ α : Type} (a : α) (s : σ) : (pure a : M σ α) s = .ok a s := rfl

/-! ## The operand stack -/

theorem index_natCast {α : Type} (xs : List α) (k : Nat) : index xs (k : ℤ) = xs[k]? := by
  simp [index]

/-- A push on a stack split at `sp` overwrites the first slot above `sp`, or
appends when there is none. -/
theorem Func.push_split (f : Func) (pre rest : List Val) (v : Val)
    (hst : f.stack = pre ++ rest) (hsp : f.sp = (pre.length : ℤ)) :
    Func.push v f = .ok () { f with stack := pre ++ v :: rest.tail, sp := (pre.length : ℤ) + 1 } := by
  unfold Func.push
  cases rest with
  | nil =>
    simp [hst, hsp]
  | cons a rest =>
    have hne : ¬ ((pre.length : ℤ) = ((pre ++ a :: rest).length : ℤ)) := by
      simp; omega
    simp only [hst, hsp, hne, if_false, index_natCast, Int.toNat_ofNat]
    simp

/-- A pop on a stack split right above its top value returns that value and
leaves `Nil` in its slot. -/
theorem Func.pop_split (f : Func) (pre post : List Val) (v : Val)
    (hst : f.stack = pre ++ v :: post) (hsp : f.sp = (pre.length : ℤ) + 1) :
    Func.pop f = .ok v { f with stack := pre ++ Val.nil :: post, sp := (pre.length : ℤ) } := by
  have hget : (pre ++ v :: post)[pre.length]? = some v := by
    rw [List.getElem?_append_right (le_refl _)]
    simp
  unfold Func.pop
  simp only [hst, hsp, add_sub_cancel_right, index_natCast, Int.toNat_ofNat, hget]
  simp

end Agora

namespace Agora

/-- Pushing `vs` on a stack split at `sp` overwrites the slots above `sp` in
order and appends past the end. -/
theorem Func.pushAll_split (vs : List Val) :
    ∀ (f : Func) (pre rest : List Val), f.stack = pre ++ rest → f.sp = (pre.length : ℤ) →
      Func.pushAll vs f = .ok ()
        { f with stack := pre ++ vs ++ rest.drop vs.length,
                 sp := (pre.length : ℤ) + vs.length } := by
  induction vs with
  | nil =>
    intro f pre rest hst hsp
    simp only [Func.pushAll, M.pure_apply, List.append_nil, List.length_nil, List.drop_zero,
      Nat.cast_zero, add_zero]
    rw [← hst, ← hsp]
  | cons v vs ih =>
    intro f pre rest hst hsp
    simp only [Func.pushAll]
    rw [M.bind_ok _ _ _ _ _ (Func.push_split f pre rest v hst hsp)]
    rw [ih _ (pre ++ [v]) rest.tail (by simp) (by simp)]
    simp [List.drop_tail]
    omega

/-- Popping as many values as lie between the split point and `sp` returns
them last first and leaves `Nil` in each of their slots. -/
theorem Func.popN_split (vs : List Val) :
    ∀ (f : Func) (pre post : List Val), f.stack = pre ++ vs ++ post →
      f.sp = (pre.length : ℤ) + vs.length →
      Func.popN vs.length f = .ok vs.reverse
        { f with stack := pre ++ List.replicate vs.length Val.nil ++ post,
                 sp := (pre.length : ℤ) } := by
  induction vs using List.reverseRecOn with
  | nil =>
    intro f pre post hst hsp
    simp only [List.length_nil, Func.popN, M.pure_apply, List.reverse_nil, List.replicate_zero,
      List.append_nil]
    simp only [List.append_nil, List.length_nil, Nat.cast_zero, add_zero] at hst hsp
    rw [← hst, ← hsp]
  | append_singleton vs v ih =>
    intro f pre post hst hsp
    have hpop := Func.pop_split f (pre ++ vs) post v (by simp [hst])
      (by simp [hsp]; omega)
    simp only [List.length_append, List.length_singleton, Func.popN]
    rw [M.bind_ok _ _ _ _ _ hpop]
    rw [M.bind_ok _ _ _ _ _ (ih _ pre (Val.nil :: post) (by simp) (by simp))]
    simp [M.pure_apply, List.replicate_succ']

end Agora

namespace Agora

/-- C1. Stack LIFO law: on an activation with `0 ≤ sp ≤ len(stack)`, the calls
`push(v1)`, ..., `push(vn)` all succeed, the `n` calls of `pop()` that follow
return `vn`, ..., `v1` in that order, `sp` is back at its starting value, each
of the `n` popped slots holds `Nil`, and the slots below are untouched. -/
theorem Func.push_pop_lifo (f : Func) (vs : List Val)
    (h0 : 0 ≤ f.sp) (h1 : f.sp ≤ (f.stack.length : ℤ)) :
    ∃ f1 f2 : Func,
      Func.pushAll vs f = .ok () f1 ∧
      Func.popN vs.length f1 = .ok vs.reverse f2 ∧
      f2.sp = f.sp ∧
      (∀ i : Nat, f.sp ≤ (i : ℤ) → (i : ℤ) < f.sp + vs.length →
        f2.stack[i]? = some Val.nil) ∧
      (∀ i : Nat, (i : ℤ) < f.sp → f2.stack[i]? = f.stack[i]?) := by
  obtain ⟨k, hk⟩ := Int.eq_ofNat_of_zero_le h0
  have hkl : k ≤ f.stack.length := by omega
  have hst : f.stack = f.stack.take k ++ f.stack.drop k := (List.take_append_drop k f.stack).symm
  have hlen : (f.stack.take k).length = k := by simp [hkl]
  have hsp : f.sp = ((f.stack.take k).length : ℤ) := by rw [hlen, hk]
  have hpush := Func.pushAll_split vs f _ _ hst hsp
  have hpop := Func.popN_split vs
    { f with stack := f.stack.take k ++ vs ++ (f.stack.drop k).drop vs.length,
             sp := ((f.stack.take k).length : ℤ) + vs.length }
    (f.stack.take k) ((f.stack.drop k).drop vs.length) rfl rfl
  refine ⟨_, _, hpush, hpop, ?_, ?_, ?_⟩
  · simp [hk, hkl]
  · intro i hi1 hi2
    have hi1' : k ≤ i := by omega
    have hi2' : i < k + vs.length := by omega
    show (List.take k f.stack ++ List.replicate vs.length Val.nil ++
      List.drop vs.length (List.drop k f.stack))[i]? = some Val.nil
    rw [List.getElem?_append_left (by simp [hkl]; omega),
      List.getElem?_append_right (by simp [hkl]; omega)]
    simp [hkl, List.getElem?_replicate]
    omega
  · intro i hi
    have hi' : i < k := by omega
    show (List.take k f.stack ++ List.replicate vs.length Val.nil ++
      List.drop vs.length (List.drop k f.stack))[i]? = f.stack[i]?
    rw [List.append_assoc, List.getElem?_append_left (by simp [hkl]; omega)]
    simp [List.getElem?_take, hi']

end Agora

namespace Agora

/-- Witness of C1: three pushes over one live value and one dead slot. -/
theorem Func.push_pop_lifo_witness :
    (0 : ℤ) ≤ lifoStart.sp ∧ lifoStart.sp ≤ (lifoStart.stack.length : ℤ) ∧
    ∃ f1 f2 : Func,
      Func.pushAll [Val.int 2, Val.int 3, Val.int 4] lifoStart = .ok () f1 ∧
      Func.popN 3 f1 = .ok [Val.int 4, Val.int 3, Val.int 2] f2 ∧
      f2.sp = lifoStart.sp ∧
      (∀ i : Nat, lifoStart.sp ≤ (i : ℤ) → (i : ℤ) < lifoStart.sp + (3 : Nat) →
        f2.stack[i]? = some Val.nil) ∧
      (∀ i : Nat, (i : ℤ) < lifoStart.sp → f2.stack[i]? = lifoStart.stack[i]?) :=
  ⟨by decide, by decide,
    Func.push_pop_lifo lifoStart [Val.int 2, Val.int 3, Val.int 4] (by decide) (by decide)⟩

end Agora

namespace Agora

/-! ## Objects in the store -/

theorem Heap.onObj_ok {α : Type} (h : Heap) (r : Ref) (m : M Func α) (f f1 : Func) (a : α)
    (hf : h[r]? = some f) (hm : m f = .ok a f1) :
    Heap.onObj r m h = .ok a (h.set r f1) := by
  simp [Heap.onObj, hf, hm]

theorem Heap.onObj_fault {α : Type} (h : Heap) (r : Ref) (m : M Func α) (f f1 : Func)
    (e : Fault) (hf : h[r]? = some f) (hm : m f = .fault e f1) :
    Heap.onObj r m h = .fault e (h.set r f1) := by
  simp [Heap.onObj, hf, hm]

theorem Heap.read_ok (h : Heap) (r : Ref) (f : Func) (hf : h[r]? = some f) :
    Heap.read r h = .ok f h := by
  simp [Heap.read, hf]

theorem Heap.get_set (h : Heap) (r : Ref) (f f1 : Func) (hf : h[r]? = some f) :
    (h.set r f1)[r]? = some f1 := by
  have hlt : r < h.length := by
    by_contra hge
    rw [List.getElem?_eq_none (not_lt.mp hge)] at hf
    exact absurd hf (by simp)
  simp [List.getElem?_set_self, hlt]

theorem M.ofExcept_ok {σ α : Type} (x : Except Fault α) (a : α) (s : σ) (hx : x = .ok a) :
    (M.ofExcept x : M σ α) s = .ok a s := by
  simp [M.ofExcept, hx]

theorem M.ofExcept_error {σ α : Type} (x : Except Fault α) (e : Fault) (s : σ)
    (hx : x = .error e) : (M.ofExcept x : M σ α) s = .fault e s := by
  simp [M.ofExcept, hx]

theorem Func.fetch_ok (f : Func) (i : Instr) (hi : index f.proto.Code f.pc = some i) :
    Func.fetch f = .ok i { f with pc := wrapInt (f.pc + 1) } := by
  simp [Func.fetch, hi]

/-- The body of a binary opcode on a stack whose two topmost values are `x`
and, above it, `y`, when the method returns. -/
theorem Func.binop_ok (op : Val → Val → Except Fault Val) (f : Func) (pre post : List Val)
    (x y z : Val) (hst : f.stack = pre ++ x :: y :: post)
    (hsp : f.sp = (pre.length : ℤ) + 2) (hz : op x y = .ok z) :
    Func.binop op f = .ok ()
      { f with stack := pre ++ z :: Val.nil :: post, sp := (pre.length : ℤ) + 1 } := by
  have h1 := Func.pop_split f (pre ++ [x]) post y (by simp [hst]) (by simp [hsp]; omega)
  have h2 := Func.pop_split
    { f with stack := pre ++ [x] ++ Val.nil :: post, sp := ((pre ++ [x]).length : ℤ) }
    pre (Val.nil :: post) x (by simp) (by simp)
  have h3 := Func.push_split
    { f with stack := pre ++ Val.nil :: Val.nil :: post, sp := (pre.length : ℤ) }
    pre (Val.nil :: Val.nil :: post) z rfl rfl
  unfold Func.binop
  rw [M.bind_ok _ _ _ _ _ h1, M.bind_ok _ _ _ _ _ h2]
  rw [M.bind_ok _ _ _ _ _ (M.ofExcept_ok _ _ _ hz)]
  rw [h3]
  simp

/-- The body of a binary opcode when the method panics: both operands are
already popped. -/
theorem Func.binop_fault (op : Val → Val → Except Fault Val) (f : Func) (pre post : List Val)
    (x y : Val) (e : Fault) (hst : f.stack = pre ++ x :: y :: post)
    (hsp : f.sp = (pre.length : ℤ) + 2) (hz : op x y = .error e) :
    Func.binop op f = .fault e
      { f with stack := pre ++ Val.nil :: Val.nil :: post, sp := (pre.length : ℤ) } := by
  have h1 := Func.pop_split f (pre ++ [x]) post y (by simp [hst]) (by simp [hsp]; omega)
  have h2 := Func.pop_split
    { f with stack := pre ++ [x] ++ Val.nil :: post, sp := ((pre ++ [x]).length : ℤ) }
    pre (Val.nil :: post) x (by simp) (by simp)
  unfold Func.binop
  rw [M.bind_ok _ _ _ _ _ h1, M.bind_ok _ _ _ _ _ h2]
  rw [M.bind_fault _ _ _ _ _ (M.ofExcept_error _ _ _ hz)]

/-- A step whose instruction is a binary opcode runs the shared body with the
method paired with the opcode. -/
theorem Func.step_binary (P : Prims) (ctx : Ctx) (call : Ref → List Val → M Heap Val)
    (h : Heap) (r : Ref) (f : Func) (i : Instr)
    (fn : Prims → Val → Val → Except Fault Val)
    (hf : h[r]? = some f) (hi : index f.proto.Code f.pc = some i)
    (hop : binaryMethod i.Opcode = some fn) :
    Func.step P ctx call r h =
      (do Heap.onObj r (Func.binop (fn P)); pure none : M Heap (Option Val))
        (h.set r { f with pc := wrapInt (f.pc + 1) }) := by
  unfold Func.step
  rw [M.bind_ok _ _ _ _ _ (Heap.onObj_ok h r _ f _ i hf (Func.fetch_ok f i hi))]
  unfold Func.exec
  cases hopc : i.Opcode <;> simp [hopc, binaryMethod] at hop <;> subst hop <;> rfl

end Agora

namespace Agora

/-- C2. Operand order law: when the instruction at `pc` is one of `ADD`, `SUB`,
`MUL`, `DIV`, `MOD`, `POW` and the two topmost stack values are `x` (pushed
first) and `y` (on top), one interpreter step applies the opcode's method as
`x.op(y)`: when it returns `z` the step leaves `z` in the slot of `x`, `sp` one
lower than before and the slots below `x` as they were; when it panics the
step panics with the same value. -/
theorem Func.step_binary_operands (P : Prims) (ctx : Ctx)
    (call : Ref → List Val → M Heap Val) (h : Heap) (r : Ref) (f : Func) (i : Instr)
    (fn : Prims → Val → Val → Except Fault Val) (pre post : List Val) (x y : Val)
    (hf : h[r]? = some f) (hi : index f.proto.Code f.pc = some i)
    (hop : binaryMethod i.Opcode = some fn)
    (hst : f.stack = pre ++ x :: y :: post) (hsp : f.sp = (pre.length : ℤ) + 2) :
    Func.step P ctx call r h =
      match fn P x y with
      | .ok z => .ok none (h.set r
          { f with pc := wrapInt (f.pc + 1)
                   stack := pre ++ z :: Val.nil :: post
                   sp := f.sp - 1 })
      | .error e => .fault e (h.set r
          { f with pc := wrapInt (f.pc + 1)
                   stack := pre ++ Val.nil :: Val.nil :: post
                   sp := f.sp - 2 }) := by
  rw [Func.step_binary P ctx call h r f i fn hf hi hop]
  have hf1 := Heap.get_set h r f { f with pc := wrapInt (f.pc + 1) } hf
  have hsp1 : f.sp - 1 = (pre.length : ℤ) + 1 := by omega
  have hsp2 : f.sp - 2 = (pre.length : ℤ) := by omega
  cases hz : fn P x y with
  | ok z =>
    have hb := Func.binop_ok (fn P) { f with pc := wrapInt (f.pc + 1) } pre post x y z hst hsp hz
    rw [M.bind_ok _ _ _ _ _ (Heap.onObj_ok _ r _ _ _ _ hf1 hb)]
    simp [M.pure_apply, hsp1]
  | error e =>
    have hb := Func.binop_fault (fn P) { f with pc := wrapInt (f.pc + 1) } pre post x y e
      hst hsp hz
    rw [M.bind_fault _ _ _ _ _ (Heap.onObj_fault _ r _ _ _ _ hf1 hb)]
    simp [hsp2]

/-- Witness of C2: `SUB` with 5 pushed before 3 leaves 2, not -2. -/
theorem Func.step_binary_operands_witness :
    Func.step samplePrims emptyCtx noCall 0 [subStart] =
      .ok none [{ subStart with pc := 1, stack := [Val.int 9, Val.int 2, Val.nil], sp := 2 }] :=
  Func.step_binary_operands samplePrims emptyCtx noCall [subStart] 0 subStart
    (instr .OP_SUB .FLG_N 0) Val.Sub [Val.int 9] [] (Val.int 5) (Val.int 3)
    rfl rfl rfl rfl rfl

end Agora

namespace Agora

theorem drop_set_self {α : Type} (acc : List α) (k : Nat) (a : α) (hk : k < acc.length) :
    (acc.set k a).drop k = a :: acc.drop (k + 1) := by
  rw [List.drop_set]
  simp only [lt_self_iff_false, if_false, Nat.sub_self]
  rw [List.drop_eq_getElem_cons hk, List.set_cons_zero]

/-- The argument loop of `OP_CALL` on a stack whose topmost values are `args`,
first pushed first: the slots of the result below `args.length` receive `args`
in push order, and each popped slot is left `Nil`. -/
theorem Func.popArgs_split (args : List Val) :
    ∀ (f : Func) (pre post acc : List Val), f.stack = pre ++ args ++ post →
      f.sp = (pre.length : ℤ) + args.length → args.length ≤ acc.length →
      Func.popArgs args.length acc f = .ok (args ++ acc.drop args.length)
        { f with stack := pre ++ List.replicate args.length Val.nil ++ post,
                 sp := (pre.length : ℤ) } := by
  induction args using List.reverseRecOn with
  | nil =>
    intro f pre post acc hst hsp _
    simp only [List.length_nil, Func.popArgs, M.pure_apply, List.replicate_zero,
      List.append_nil, List.drop_zero, List.nil_append]
    simp only [List.append_nil, List.length_nil, Nat.cast_zero, add_zero] at hst hsp
    rw [← hst, ← hsp]
  | append_singleton as a ih =>
    intro f pre post acc hst hsp hacc
    simp only [List.length_append, List.length_singleton] at hacc
    have hpop := Func.pop_split f (pre ++ as) post a (by simp [hst])
      (by simp [hsp]; omega)
    simp only [List.length_append, List.length_singleton, Func.popArgs]
    rw [M.bind_ok _ _ _ _ _ hpop]
    rw [ih _ pre (Val.nil :: post) (acc.set as.length a) (by simp) (by simp)
      (by simp; omega)]
    rw [drop_set_self acc as.length a (by omega)]
    simp [List.replicate_succ']

/-- A step whose instruction is `OP_CALL` with a `Func` on top of the stack:
pop it, pop the arguments, call, push the result. -/
theorem Func.step_call_unfold (P : Prims) (ctx : Ctx) (call : Ref → List Val → M Heap Val)
    (h : Heap) (r : Ref) (f : Func) (i : Instr) (c : Ref) (pre rest : List Val)
    (hf : h[r]? = some f) (hi : index f.proto.Code f.pc = some i)
    (hop : i.Opcode = .OP_CALL)
    (hst : f.stack = pre ++ Val.func c :: rest) (hsp : f.sp = (pre.length : ℤ) + 1) :
    Func.step P ctx call r h =
      (do
        let args ← Heap.onObj r (Func.popArgs i.Index (List.replicate i.Index Val.nil))
        let v ← call c args
        Heap.onObj r (Func.push v)
        pure none : M Heap (Option Val))
        (h.set r { f with pc := wrapInt (f.pc + 1)
                          stack := pre ++ Val.nil :: rest
                          sp := (pre.length : ℤ) }) := by
  have hf1 := Heap.get_set h r f { f with pc := wrapInt (f.pc + 1) } hf
  have hpop := Func.pop_split { f with pc := wrapInt (f.pc + 1) } pre rest (Val.func c) hst hsp
  unfold Func.step
  rw [M.bind_ok _ _ _ _ _ (Heap.onObj_ok h r _ f _ i hf (Func.fetch_ok f i hi))]
  unfold Func.exec
  simp only [hop]
  rw [M.bind_ok _ _ _ _ _ (Heap.onObj_ok _ r _ _ _ _ hf1 hpop)]
  simp

end Agora

namespace Agora

/-- A step whose instruction is `OP_CALL` with index `args.length`, on a stack
that holds `args` with the callee on top: what is left to run once the callee
and the arguments are popped. -/
theorem Func.step_call_popped (P : Prims) (ctx : Ctx) (call : Ref → List Val → M Heap Val)
    (h : Heap) (r : Ref) (f : Func) (i : Instr) (c : Ref) (pre post args : List Val)
    (hf : h[r]? = some f) (hi : index f.proto.Code f.pc = some i)
    (hop : i.Opcode = .OP_CALL) (hn : i.Index = args.length)
    (hst : f.stack = pre ++ args ++ Val.func c :: post)
    (hsp : f.sp = (pre.length : ℤ) + args.length + 1) :
    Func.step P ctx call r h =
      (do
        let v ← call c args
        Heap.onObj r (Func.push v)
        pure none : M Heap (Option Val))
        (h.set r { f with pc := wrapInt (f.pc + 1)
                          stack := pre ++ List.replicate args.length Val.nil ++ Val.nil :: post
                          sp := (pre.length : ℤ) }) := by
  rw [Func.step_call_unfold P ctx _ h r f i c (pre ++ args) post hf hi hop hst
    (by simp [hsp])]
  have hf1 := Heap.get_set h r f
    { f with pc := wrapInt (f.pc + 1)
             stack := pre ++ args ++ Val.nil :: post
             sp := ((pre ++ args).length : ℤ) } hf
  have hargs := Func.popArgs_split args
    { f with pc := wrapInt (f.pc + 1)
             stack := pre ++ args ++ Val.nil :: post
             sp := ((pre ++ args).length : ℤ) }
    pre (Val.nil :: post) (List.replicate args.length Val.nil) rfl (by simp) (by simp)
  rw [hn, M.bind_ok _ _ _ _ _ (Heap.onObj_ok _ r _ _ _ _ hf1 hargs)]
  simp

/-- C3. CALL argument order: when the instruction at `pc` is `CALL` with index
`n` and the stack holds `args` (`n` values, first pushed first) with the
callee `c`, a `Func`, on top, one interpreter step runs `c.Call` on exactly
`args`, in push order, with the callee and the arguments popped, and then
pushes the one value the call returns on the caller. -/
theorem Func.step_call_args (P : Prims) (ctx : Ctx) (loop : Ref → M Heap Val)
    (h : Heap) (r : Ref) (f : Func) (i : Instr) (c : Ref) (pre post args : List Val)
    (hf : h[r]? = some f) (hi : index f.proto.Code f.pc = some i)
    (hop : i.Opcode = .OP_CALL) (hn : i.Index = args.length)
    (hst : f.stack = pre ++ args ++ Val.func c :: post)
    (hsp : f.sp = (pre.length : ℤ) + args.length + 1) :
    Func.step P ctx (Func.Call ctx loop) r h =
      (do
        let v ← Func.Call ctx loop c args
        Heap.onObj r (Func.push v)
        pure none : M Heap (Option Val))
        (h.set r { f with pc := wrapInt (f.pc + 1)
                          stack := pre ++ List.replicate args.length Val.nil ++ Val.nil :: post
                          sp := (pre.length : ℤ) }) :=
  Func.step_call_popped P ctx (Func.Call ctx loop) h r f i c pre post args hf hi hop hn hst hsp

/-- Witness of C3: `CALL 2` of the native `sub` with 8 pushed before 9 pushes
8 - 9. -/
theorem Func.step_call_args_witness :
    Func.step samplePrims nativeCtx (Func.Call nativeCtx (Func.loop samplePrims nativeCtx 3))
        0 callHeap =
      .ok none
        [{ callStart with pc := 1, stack := [Val.int 7, Val.int (-1), Val.nil, Val.nil], sp := 2 },
         Func.fresh (nativeProto "sub" 2)] :=
  (Func.step_call_args samplePrims nativeCtx (Func.loop samplePrims nativeCtx 3) callHeap 0
    callStart (instr .OP_CALL .FLG_N 2) 1 [Val.int 7] [] [Val.int 8, Val.int 9]
    rfl rfl rfl rfl rfl rfl).trans (by decide)

end Agora

namespace Agora

/-! ## Argument binding -/

theorem take_append_get_cons {α : Type} (args : List α) (j : Nat) (tail : List α)
    (hj : j < args.length) :
    args.take j ++ args[j] :: tail = args.take (j + 1) ++ tail := by
  rw [← List.take_concat_get args j hj, List.concat_eq_append, List.append_assoc,
    List.singleton_append]

/-- The binding loop with `k` iterations left, started at slot `j` with the
slots below `j` already bound and at least `k` slots left. -/
theorem Func.bindLoop_ok (args : List Val) (k : Nat) :
    ∀ (j : Nat) (f : Func) (tail : List Val), f.vars = args.take j ++ tail →
      j + k ≤ args.length → k ≤ tail.length →
      Func.bindLoop args k j f = .ok () { f with vars := args.take (j + k) ++ tail.drop k } := by
  induction k with
  | zero =>
    intro j f tail hv _ _
    simp only [Func.bindLoop, M.pure_apply, add_zero, List.drop_zero]
    rw [← hv]
  | succ k ih =>
    intro j f tail hv hj hk
    have hjlt : j < args.length := by omega
    have hget : args[j]? = some args[j] := List.getElem?_eq_getElem hjlt
    have hlen : (args.take j).length = j := by simp; omega
    have hjv : j < f.vars.length := by rw [hv]; simp; omega
    cases tail with
    | nil => simp at hk
    | cons t tail =>
      have hset : f.vars.set j args[j] = args.take (j + 1) ++ tail := by
        rw [hv, List.set_append_right _ _ (by omega), hlen, Nat.sub_self, List.set_cons_zero]
        exact take_append_get_cons args j tail hjlt
      simp only [Func.bindLoop, hget, hjv, if_true]
      rw [ih (j + 1) _ tail hset (by omega) (by simpa using hk)]
      simp [add_assoc, add_comm 1 k]

/-- The binding loop when fewer than `k` slots are left: it panics after
filling the slots there are. -/
theorem Func.bindLoop_fault (args : List Val) (k : Nat) :
    ∀ (j : Nat) (f : Func) (tail : List Val), f.vars = args.take j ++ tail →
      j + k ≤ args.length → tail.length < k →
      Func.bindLoop args k j f =
        .fault .indexOutOfRange { f with vars := args.take (j + tail.length) } := by
  induction k with
  | zero =>
    intro j f tail _ _ hk
    simp at hk
  | succ k ih =>
    intro j f tail hv hj hk
    have hjlt : j < args.length := by omega
    have hget : args[j]? = some args[j] := List.getElem?_eq_getElem hjlt
    have hlen : (args.take j).length = j := by simp; omega
    cases tail with
    | nil =>
      have hjv : ¬ j < f.vars.length := by rw [hv]; simp [hlen]
      simp only [Func.bindLoop, hget, hjv, if_false, List.length_nil, add_zero]
      simp only [List.append_nil] at hv
      rw [← hv]
    | cons t tail =>
      have hjv : j < f.vars.length := by rw [hv]; simp; omega
      have hset : f.vars.set j args[j] = args.take (j + 1) ++ tail := by
        rw [hv, List.set_append_right _ _ (by omega), hlen, Nat.sub_self, List.set_cons_zero]
        exact take_append_get_cons args j tail hjlt
      simp only [Func.bindLoop, hget, hjv, if_true]
      rw [ih (j + 1) _ tail hset (by omega) (by simpa using hk)]
      simp [add_assoc, add_comm 1 tail.length]

end Agora

namespace Agora

/-- The head of `callVM` on a freshly constructed object whose variable table
has room for every bound argument. -/
theorem Func.bindArgs_fresh_ok (proto : FuncProto) (args : List Val)
    (hroom : (min (args.length : ℤ) proto.ExpArgs).toNat ≤ proto.VTable.length) :
    Func.bindArgs args (Func.fresh proto) = .ok ()
      { Func.fresh proto with
        vars := args.take (min (args.length : ℤ) proto.ExpArgs).toNat ++
          List.replicate
            (proto.VTable.length - (min (args.length : ℤ) proto.ExpArgs).toNat) Val.nil } := by
  have hcnt : (min (args.length : ℤ) proto.ExpArgs).toNat ≤ args.length := by omega
  have h := Func.bindLoop_ok args (min (args.length : ℤ) proto.ExpArgs).toNat 0
    (Func.fresh proto) (List.replicate proto.VTable.length Val.nil)
    (by simp [Func.fresh]) (by omega) (by simpa using hroom)
  simp only [Func.bindArgs]
  rw [show (Func.fresh proto).proto.ExpArgs = proto.ExpArgs from rfl, h]
  simp

/-- The head of `callVM` on a freshly constructed object whose variable table
is shorter than the number of arguments to bind. -/
theorem Func.bindArgs_fresh_fault (proto : FuncProto) (args : List Val)
    (hroom : proto.VTable.length < (min (args.length : ℤ) proto.ExpArgs).toNat) :
    Func.bindArgs args (Func.fresh proto) = .fault .indexOutOfRange
      { Func.fresh proto with vars := args.take proto.VTable.length } := by
  have hcnt : (min (args.length : ℤ) proto.ExpArgs).toNat ≤ args.length := by omega
  have h := Func.bindLoop_fault args (min (args.length : ℤ) proto.ExpArgs).toNat 0
    (Func.fresh proto) (List.replicate proto.VTable.length Val.nil)
    (by simp [Func.fresh]) (by omega) (by simpa using hroom)
  simp only [Func.bindArgs]
  rw [show (Func.fresh proto).proto.ExpArgs = proto.ExpArgs from rfl, h]
  simp

/-- C4. Calling convention: `callVM` on a freshly constructed `Func` with
expected argument count `e` enters its loop with `vars[j] = args[j]` for every
`j < min(len(args), e)` and `vars[j] = Nil` for every other slot, whenever the
variable table has a slot for each of these `min(len(args), e)` arguments:
arguments at positions `≥ e` are dropped and unfilled slots stay `Nil`. When
the table is shorter, `callVM` panics in the binding loop and never reaches an
instruction. -/
theorem Func.callVM_binds_args (loop : Ref → M Heap Val) (h : Heap) (r : Ref)
    (proto : FuncProto) (args : List Val) (hf : h[r]? = some (Func.fresh proto)) :
    (min (args.length : ℤ) proto.ExpArgs ≤ (proto.VTable.length : ℤ) →
      ∃ f1 : Func,
        Func.callVM loop r args h = loop r (h.set r f1) ∧
        f1.proto = proto ∧ f1.pc = 0 ∧ f1.sp = 0 ∧ f1.stack = [] ∧
        f1.vars.length = proto.VTable.length ∧
        (∀ j : Nat, (j : ℤ) < min (args.length : ℤ) proto.ExpArgs →
          f1.vars[j]? = args[j]?) ∧
        (∀ j : Nat, ¬ (j : ℤ) < min (args.length : ℤ) proto.ExpArgs →
          j < proto.VTable.length → f1.vars[j]? = some Val.nil)) ∧
    ((proto.VTable.length : ℤ) < min (args.length : ℤ) proto.ExpArgs →
      Func.callVM loop r args h = .fault .indexOutOfRange
        (h.set r { Func.fresh proto with vars := args.take proto.VTable.length })) := by
  constructor
  · intro hroom
    have hroom' : (min (args.length : ℤ) proto.ExpArgs).toNat ≤ proto.VTable.length := by omega
    have hcnt : (min (args.length : ℤ) proto.ExpArgs).toNat ≤ args.length := by omega
    have hb := Func.bindArgs_fresh_ok proto args hroom'
    refine ⟨{ Func.fresh proto with
        vars := args.take (min (args.length : ℤ) proto.ExpArgs).toNat ++
          List.replicate
            (proto.VTable.length - (min (args.length : ℤ) proto.ExpArgs).toNat) Val.nil },
      ?_, rfl, rfl, rfl, rfl, ?_, ?_, ?_⟩
    · unfold Func.callVM
      rw [M.bind_ok _ _ _ _ _ (Heap.onObj_ok h r _ _ _ _ hf hb)]
    · simp only [List.length_append, List.length_take, List.length_replicate]
      omega
    · intro j hj
      have hj' : j < (min (args.length : ℤ) proto.ExpArgs).toNat := by omega
      show (List.take _ args ++ List.replicate _ Val.nil)[j]? = args[j]?
      rw [List.getElem?_append_left (by simp; omega), List.getElem?_take, if_pos hj']
    · intro j hj hjl
      have hj' : (min (args.length : ℤ) proto.ExpArgs).toNat ≤ j := by omega
      show (List.take _ args ++ List.replicate _ Val.nil)[j]? = some Val.nil
      rw [List.getElem?_append_right (by simp; omega), List.getElem?_replicate, if_pos]
      simp only [List.length_take]
      omega
  · intro hroom
    have hroom' : proto.VTable.length < (min (args.length : ℤ) proto.ExpArgs).toNat := by omega
    have hb := Func.bindArgs_fresh_fault proto args hroom'
    unfold Func.callVM
    rw [M.bind_fault _ _ _ _ _ (Heap.onObj_fault h r _ _ _ _ hf hb)]

end Agora

namespace Agora

/-- Witness of C4: three arguments to a fresh `Func` that expects two and has
three variables: two are bound, the third is dropped, the last slot is `Nil`. -/
theorem Func.callVM_binds_args_witness :
    [Func.fresh argProto][0]? = some (Func.fresh argProto) ∧
    min ((argList.length : ℕ) : ℤ) argProto.ExpArgs ≤ (argProto.VTable.length : ℤ) ∧
    ∃ f1 : Func,
      Func.callVM (Func.loop samplePrims emptyCtx 2) 0 argList [Func.fresh argProto] =
        Func.loop samplePrims emptyCtx 2 0 ([Func.fresh argProto].set 0 f1) ∧
      f1.proto = argProto ∧ f1.pc = 0 ∧ f1.sp = 0 ∧ f1.stack = [] ∧
      f1.vars.length = argProto.VTable.length ∧
      (∀ j : Nat, (j : ℤ) < min ((argList.length : ℕ) : ℤ) argProto.ExpArgs →
        f1.vars[j]? = argList[j]?) ∧
      (∀ j : Nat, ¬ (j : ℤ) < min ((argList.length : ℕ) : ℤ) argProto.ExpArgs →
        j < argProto.VTable.length → f1.vars[j]? = some Val.nil) :=
  ⟨rfl, by decide,
    (Func.callVM_binds_args (Func.loop samplePrims emptyCtx 2) [Func.fresh argProto] 0
      argProto argList rfl).1 (by decide)⟩

end Agora

namespace Agora

/-! ## Unfolding the loop -/

theorem Func.loop_continue (P : Prims) (ctx : Ctx) (n : Nat) (r : Ref) (h h1 : Heap)
    (hs : Func.step P ctx (Func.Call ctx (Func.loop P ctx n)) r h = .ok none h1) :
    Func.loop P ctx (n + 1) r h = Func.loop P ctx n r h1 := by
  show (Func.step P ctx (Func.Call ctx (Func.loop P ctx n)) r >>= _) h = _
  rw [M.bind_ok _ _ _ _ _ hs]

theorem Func.loop_return (P : Prims) (ctx : Ctx) (n : Nat) (r : Ref) (h h1 : Heap) (v : Val)
    (hs : Func.step P ctx (Func.Call ctx (Func.loop P ctx n)) r h = .ok (some v) h1) :
    Func.loop P ctx (n + 1) r h = .ok v h1 := by
  show (Func.step P ctx (Func.Call ctx (Func.loop P ctx n)) r >>= _) h = _
  rw [M.bind_ok _ _ _ _ _ hs]
  rfl

theorem Func.loop_fault (P : Prims) (ctx : Ctx) (n : Nat) (r : Ref) (h h1 : Heap) (e : Fault)
    (hs : Func.step P ctx (Func.Call ctx (Func.loop P ctx n)) r h = .fault e h1) :
    Func.loop P ctx (n + 1) r h = .fault e h1 := by
  show (Func.step P ctx (Func.Call ctx (Func.loop P ctx n)) r >>= _) h = _
  rw [M.bind_fault _ _ _ _ _ hs]

/-- `Call` on an object that is not native: bind the arguments, enter the
loop. -/
theorem Func.Call_vm (ctx : Ctx) (loop : Ref → M Heap Val) (r : Ref) (args : List Val)
    (h : Heap) (f f1 : Func) (hf : h[r]? = some f) (hvm : f.proto.IsNative = false)
    (hb : Func.bindArgs args f = .ok () f1) :
    Func.Call ctx loop r args h = loop r (h.set r f1) := by
  unfold Func.Call
  rw [M.bind_ok _ _ _ _ _ (Heap.read_ok h r f hf)]
  simp only [hvm, Bool.false_eq_true, if_false]
  unfold Func.callVM
  rw [M.bind_ok _ _ _ _ _ (Heap.onObj_ok h r _ f f1 () hf hb)]

theorem Func.run_vm (P : Prims) (ctx : Ctx) (n : Nat) (r : Ref) (args : List Val)
    (h : Heap) (f f1 : Func) (hf : h[r]? = some f) (hvm : f.proto.IsNative = false)
    (hb : Func.bindArgs args f = .ok () f1) :
    Func.run P ctx n r args h = Func.loop P ctx n r (h.set r f1) :=
  Func.Call_vm ctx _ r args h f f1 hf hvm hb

/-- A `CALL` step whose call returns: the value is pushed on the caller as the
call left it. -/
theorem Func.step_call_ok (P : Prims) (ctx : Ctx) (call : Ref → List Val → M Heap Val)
    (h h2 h3 : Heap) (r : Ref) (f f2 f3 : Func) (i : Instr) (c : Ref)
    (pre post args : List Val) (v : Val)
    (hf : h[r]? = some f) (hi : index f.proto.Code f.pc = some i)
    (hop : i.Opcode = .OP_CALL) (hn : i.Index = args.length)
    (hst : f.stack = pre ++ args ++ Val.func c :: post)
    (hsp : f.sp = (pre.length : ℤ) + args.length + 1)
    (hcall : call c args
      (h.set r { f with pc := wrapInt (f.pc + 1)
                        stack := pre ++ List.replicate args.length Val.nil ++ Val.nil :: post
                        sp := (pre.length : ℤ) }) = .ok v h2)
    (hf2 : h2[r]? = some f2) (hpush : Func.push v f2 = .ok () f3)
    (hset : h2.set r f3 = h3) :
    Func.step P ctx call r h = .ok none h3 := by
  subst hset
  rw [Func.step_call_popped P ctx call h r f i c pre post args hf hi hop hn hst hsp]
  rw [M.bind_ok _ _ _ _ _ hcall, M.bind_ok _ _ _ _ _ (Heap.onObj_ok h2 r _ f2 f3 () hf2 hpush)]
  rfl

/-- A `CALL` step whose call panics: the step panics with the same value, on
the store the call left. -/
theorem Func.step_call_fault (P : Prims) (ctx : Ctx) (call : Ref → List Val → M Heap Val)
    (h h2 : Heap) (r : Ref) (f : Func) (i : Instr) (c : Ref)
    (pre post args : List Val) (e : Fault)
    (hf : h[r]? = some f) (hi : index f.proto.Code f.pc = some i)
    (hop : i.Opcode = .OP_CALL) (hn : i.Index = args.length)
    (hst : f.stack = pre ++ args ++ Val.func c :: post)
    (hsp : f.sp = (pre.length : ℤ) + args.length + 1)
    (hcall : call c args
      (h.set r { f with pc := wrapInt (f.pc + 1)
                        stack := pre ++ List.replicate args.length Val.nil ++ Val.nil :: post
                        sp := (pre.length : ℤ) }) = .fault e h2) :
    Func.step P ctx call r h = .fault e h2 := by
  rw [Func.step_call_popped P ctx call h r f i c pre post args hf hi hop hn hst hsp]
  rw [M.bind_fault _ _ _ _ _ hcall]

/-- A program that stores a `Func` in a variable and calls it twice panics in
the second call, on the fetch at the `pc` the first call left. -/
theorem callTwice_faults :
    Func.run samplePrims callTwiceCtx 8 0 [] [Func.fresh callTwiceProto] =
      .fault .indexOutOfRange
        [callTwiceAt 7 [Val.func 1, Val.nil] [Val.nil] 0, calleeReturned] := by
  rw [Func.run_vm samplePrims callTwiceCtx 8 0 [] _ (Func.fresh callTwiceProto)
    (callTwiceAt 0 [Val.nil, Val.nil] [] 0) rfl rfl (by decide)]
  rw [Func.loop_continue _ _ 7 0 _
    [callTwiceAt 1 [Val.nil, Val.nil] [Val.func 1] 1, Func.fresh argProto] (by decide)]
  rw [Func.loop_continue _ _ 6 0 _
    [callTwiceAt 2 [Val.func 1, Val.nil] [Val.nil] 0, Func.fresh argProto] (by decide)]
  rw [Func.loop_continue _ _ 5 0 _
    [callTwiceAt 3 [Val.func 1, Val.nil] [Val.func 1] 1, Func.fresh argProto] (by decide)]
  have hcall1 : Func.Call callTwiceCtx (Func.loop samplePrims callTwiceCtx 4) 1 []
      [callTwiceAt 4 [Val.func 1, Val.nil] [Val.nil] 0, Func.fresh argProto] =
      .ok Val.nil [callTwiceAt 4 [Val.func 1, Val.nil] [Val.nil] 0, calleeReturned] := by
    rw [Func.Call_vm callTwiceCtx _ 1 [] _ (Func.fresh argProto) (Func.fresh argProto)
      rfl rfl (by decide)]
    rw [Func.loop_continue _ _ 3 1 _
      [callTwiceAt 4 [Val.func 1, Val.nil] [Val.nil] 0,
       { Func.fresh argProto with pc := 1, stack := [Val.nil], sp := 1 }] (by decide)]
    exact Func.loop_return _ _ 2 1 _ _ _ (by decide)
  rw [Func.loop_continue _ _ 4 0 _
    [callTwiceAt 4 [Val.func 1, Val.nil] [Val.nil] 1, calleeReturned]
    (Func.step_call_ok _ _ _
      [callTwiceAt 3 [Val.func 1, Val.nil] [Val.func 1] 1, Func.fresh argProto]
      [callTwiceAt 4 [Val.func 1, Val.nil] [Val.nil] 0, calleeReturned]
      _ 0 (callTwiceAt 3 [Val.func 1, Val.nil] [Val.func 1] 1)
      (callTwiceAt 4 [Val.func 1, Val.nil] [Val.nil] 0)
      (callTwiceAt 4 [Val.func 1, Val.nil] [Val.nil] 1)
      (instr .OP_CALL .FLG_N 0) 1 [] [] [] Val.nil rfl rfl rfl rfl rfl rfl hcall1 rfl
      (by decide) rfl)]
  rw [Func.loop_continue _ _ 3 0 _
    [callTwiceAt 5 [Val.func 1, Val.nil] [Val.nil] 0, calleeReturned] (by decide)]
  rw [Func.loop_continue _ _ 2 0 _
    [callTwiceAt 6 [Val.func 1, Val.nil] [Val.func 1] 1, calleeReturned] (by decide)]
  have hcall2 : Func.Call callTwiceCtx (Func.loop samplePrims callTwiceCtx 1) 1 []
      [callTwiceAt 7 [Val.func 1, Val.nil] [Val.nil] 0, calleeReturned] =
      .fault .indexOutOfRange
        [callTwiceAt 7 [Val.func 1, Val.nil] [Val.nil] 0, calleeReturned] := by
    rw [Func.Call_vm callTwiceCtx _ 1 [] _ calleeReturned calleeReturned rfl rfl (by decide)]
    exact Func.loop_fault _ _ 0 1 _ _ _ (by decide)
  exact Func.loop_fault _ _ 1 0 _ _ _
    (Func.step_call_fault _ _ _
      [callTwiceAt 6 [Val.func 1, Val.nil] [Val.func 1] 1, calleeReturned]
      _ 0 (callTwiceAt 6 [Val.func 1, Val.nil] [Val.func 1] 1)
      (instr .OP_CALL .FLG_N 0) 1 [] [] [] _ rfl rfl rfl rfl rfl rfl hcall2)

/-- C5, evaluated. A first call of a fresh `Func` returns and leaves the object
with `pc = 2` and its arguments in the variables; a second call of the same
`Func` value enters the loop on that state (`pc = 2`, slot 0 still 1 although
no argument is passed) and panics on the fetch past the end of the code. A
program that stores a `Func` in a variable and calls it twice panics the same
way. -/
theorem Func.second_call_sees_first :
    Func.run samplePrims emptyCtx 5 0 [Val.int 1, Val.int 2] [Func.fresh argProto] =
      .ok (Val.int 1) [afterFirstCall] ∧
    Func.callVM (Func.loop samplePrims emptyCtx 5) 0 [] [afterFirstCall] =
      Func.loop samplePrims emptyCtx 5 0 [afterFirstCall] ∧
    afterFirstCall.pc = 2 ∧ afterFirstCall.vars[0]? = some (Val.int 1) ∧
    Func.run samplePrims emptyCtx 5 0 [] [afterFirstCall] =
      .fault .indexOutOfRange [afterFirstCall] ∧
    (Func.run samplePrims callTwiceCtx 8 0 [] [Func.fresh callTwiceProto]).fault? =
      some .indexOutOfRange := by
  refine ⟨by decide, by decide, by decide, by decide, by decide, ?_⟩
  rw [callTwice_faults]
  rfl

end Agora

namespace Agora

/-! ## Native callees -/

/-- Storing a new state in the caller does not change the prototype any
pointer leads to. -/
theorem Heap.proto_set (h : Heap) (r c : Ref) (f f1 g : Func) (hf : h[r]? = some f)
    (hg : h[c]? = some g) (hp : f1.proto = f.proto) :
    ∃ g1, (h.set r f1)[c]? = some g1 ∧ g1.proto = g.proto := by
  by_cases hrc : r = c
  · subst hrc
    rw [hf] at hg
    cases hg
    exact ⟨f1, Heap.get_set h r f f1 hf, hp⟩
  · exact ⟨g, by rw [List.getElem?_set_ne hrc]; exact hg, rfl⟩

/-- `Call` on a native whose name has no entry in the native table panics
and leaves the store as it found it. -/
theorem Func.Call_unregistered (ctx : Ctx) (loop : Ref → M Heap Val) (r : Ref)
    (args : List Val) (h : Heap) (f : Func) (hf : h[r]? = some f)
    (hnat : f.proto.IsNative = true) (hnone : ctx.nTable f.proto.NativeName = none) :
    Func.Call ctx loop r args h = .fault .ErrNativeFuncNotFound h := by
  unfold Func.Call
  rw [M.bind_ok _ _ _ _ _ (Heap.read_ok h r f hf)]
  simp only [hnat, if_true, hnone]
  rfl

/-- C6, as the code has it. `CALL(n)` on a native callee whose name has no
entry in the native table fails with `ErrNativeFuncNotFound`. `Call` itself
changes nothing, but the instruction has popped the callee and the `n`
arguments before the lookup: after the failure the caller's `sp` is its value
before the instruction minus `n + 1`, and the popped slots hold `Nil`. -/
theorem Func.step_call_unregistered (P : Prims) (ctx : Ctx) (loop : Ref → M Heap Val)
    (h : Heap) (r : Ref) (f g : Func) (i : Instr) (c : Ref) (pre post args : List Val)
    (hf : h[r]? = some f) (hi : index f.proto.Code f.pc = some i)
    (hop : i.Opcode = .OP_CALL) (hn : i.Index = args.length)
    (hst : f.stack = pre ++ args ++ Val.func c :: post)
    (hsp : f.sp = (pre.length : ℤ) + args.length + 1)
    (hg : h[c]? = some g) (hnat : g.proto.IsNative = true)
    (hnone : ctx.nTable g.proto.NativeName = none) :
    Func.step P ctx (Func.Call ctx loop) r h =
      .fault .ErrNativeFuncNotFound
        (h.set r { f with pc := wrapInt (f.pc + 1)
                          stack := pre ++ List.replicate args.length Val.nil ++ Val.nil :: post
                          sp := f.sp - ((args.length : ℤ) + 1) }) := by
  have hsp1 : f.sp - ((args.length : ℤ) + 1) = (pre.length : ℤ) := by omega
  rw [hsp1]
  obtain ⟨g1, hg1, hp1⟩ := Heap.proto_set h r c f
    { f with pc := wrapInt (f.pc + 1)
             stack := pre ++ List.replicate args.length Val.nil ++ Val.nil :: post
             sp := (pre.length : ℤ) } g hf hg rfl
  exact Func.step_call_fault P ctx _ h _ r f i c pre post args _ hf hi hop hn hst hsp
    (Func.Call_unregistered ctx loop c args _ g1 hg1 (by rw [hp1]; exact hnat)
      (by rw [hp1]; exact hnone))

/-- Witness of the amended C6: `CALL 2` of an unregistered native from `sp = 4`
fails with `sp = 1`. -/
theorem Func.step_call_unregistered_witness :
    Func.step samplePrims nativeCtx (Func.Call nativeCtx (Func.loop samplePrims nativeCtx 3))
        0 missingHeap =
      .fault .ErrNativeFuncNotFound
        [{ callStart with pc := 1, stack := [Val.int 7, Val.nil, Val.nil, Val.nil], sp := 1 },
         Func.fresh (nativeProto "missing" 2)] :=
  Func.step_call_unregistered samplePrims nativeCtx (Func.loop samplePrims nativeCtx 3)
    missingHeap 0 callStart (Func.fresh (nativeProto "missing" 2)) (instr .OP_CALL .FLG_N 2) 1
    [Val.int 7] [] [Val.int 8, Val.int 9] rfl rfl rfl rfl rfl rfl rfl rfl rfl

/-- C6 as stated fails: after `CALL 2` of an unregistered native the step has
failed with `ErrNativeFuncNotFound`, yet the caller's `sp`, 4 before the
instruction, is not 4 after the failure. -/
theorem Func.unregistered_call_moves_sp :
    ¬ ∃ (h1 : Heap) (f1 : Func),
      Func.step samplePrims nativeCtx
          (Func.Call nativeCtx (Func.loop samplePrims nativeCtx 3)) 0 missingHeap =
        .fault .ErrNativeFuncNotFound h1 ∧
      h1[0]? = some f1 ∧ f1.sp = callStart.sp := by
  rintro ⟨h1, f1, hstep, hf1, hsp⟩
  have hcode : Func.step samplePrims nativeCtx
      (Func.Call nativeCtx (Func.loop samplePrims nativeCtx 3)) 0 missingHeap =
      .fault .ErrNativeFuncNotFound
        [{ callStart with pc := 1, stack := [Val.int 7, Val.nil, Val.nil, Val.nil], sp := 1 },
         Func.fresh (nativeProto "missing" 2)] := by decide
  rw [hcode] at hstep
  cases hstep
  simp at hf1
  subst hf1
  exact absurd hsp (by decide)

/-- C7. Native bridging: `Call` on a native `Func` whose name is registered to
`nf` is `nf` applied to the argument list as it is, whatever its length and
whatever the prototype's expected argument count, on the store as it is: the
result, the store and a panic are those of `nf`, and `Call` writes nothing to
the `Func` of its own. -/
theorem Func.Call_native (ctx : Ctx) (loop : Ref → M Heap Val) (r : Ref) (args : List Val)
    (h : Heap) (f : Func) (nf : Native) (hf : h[r]? = some f)
    (hnat : f.proto.IsNative = true) (hreg : ctx.nTable f.proto.NativeName = some nf) :
    Func.Call ctx loop r args h = nf args h := by
  unfold Func.Call
  rw [M.bind_ok _ _ _ _ _ (Heap.read_ok h r f hf)]
  simp only [hnat, if_true, hreg]

/-- Witness of C7: the native `count`, which expects one argument, receives
all three and the store is unchanged. -/
theorem Func.Call_native_witness :
    Func.Call nativeCtx (Func.loop samplePrims nativeCtx 3) 0
        [Val.int 5, Val.nil, Val.bool true] countHeap =
      .ok (Val.int 3) countHeap :=
  Func.Call_native nativeCtx (Func.loop samplePrims nativeCtx 3) 0
    [Val.int 5, Val.nil, Val.bool true] countHeap (Func.fresh (nativeProto "count" 1))
    countNative rfl rfl rfl

end Agora

namespace Agora

/-! ## Program counter arithmetic -/

/-- Wrapping leaves a value in the range of a 64-bit `int` as it is. -/
theorem wrapInt_of_range (x : ℤ) (hlo : -(2 ^ 63) ≤ x) (hhi : x < 2 ^ 63) : wrapInt x = x := by
  unfold wrapInt
  omega

/-- An index that reads a slot is not negative. -/
theorem index_nonneg {α : Type} (xs : List α) (i : ℤ) (a : α) (h : index xs i = some a) :
    0 ≤ i := by
  unfold index at h
  by_contra hneg
  simp [not_le.mp hneg] at h

/-- A step whose instruction is `TEST`, `JMPB` or `JMPF`: it runs the body of
the opcode on the object, after the fetch. -/
theorem Func.step_local (P : Prims) (ctx : Ctx) (call : Ref → List Val → M Heap Val)
    (h : Heap) (r : Ref) (f f1 : Func) (i : Instr) (m : M Func Unit)
    (hf : h[r]? = some f) (hi : index f.proto.Code f.pc = some i)
    (hm : (i.Opcode = .OP_TEST ∧ m = Func.test P i.Index) ∨
      (i.Opcode = .OP_JMPB ∧ m = Func.jmpb i.Index) ∨
      (i.Opcode = .OP_JMPF ∧ m = Func.jmpf i.Index))
    (hrun : m { f with pc := wrapInt (f.pc + 1) } = .ok () f1) :
    Func.step P ctx call r h = .ok none (h.set r f1) := by
  have hf1 := Heap.get_set h r f { f with pc := wrapInt (f.pc + 1) } hf
  unfold Func.step
  rw [M.bind_ok _ _ _ _ _ (Heap.onObj_ok h r _ f _ i hf (Func.fetch_ok f i hi))]
  unfold Func.exec
  rcases hm with ⟨hop, rfl⟩ | ⟨hop, rfl⟩ | ⟨hop, rfl⟩ <;> simp only [hop] <;>
    rw [M.bind_ok _ _ _ _ _ (Heap.onObj_ok _ r _ _ _ _ hf1 hrun)] <;> simp [M.pure_apply]

/-- The body of `TEST` on a stack with `v` on top, when `v.Bool()` returns
`b`. -/
theorem test_body_ok (P : Prims) (ix : Nat) (f : Func) (pre post : List Val) (v : Val)
    (b : Bool) (hst : f.stack = pre ++ v :: post) (hsp : f.sp = (pre.length : ℤ) + 1)
    (hb : Val.Bool P v = .ok b) :
    Func.test P ix f = .ok ()
      { f with pc := if b then f.pc else wrapInt (f.pc + wrapInt ix)
               stack := pre ++ Val.nil :: post
               sp := (pre.length : ℤ) } := by
  unfold Func.test
  rw [M.bind_ok _ _ _ _ _ (Func.pop_split f pre post v hst hsp)]
  rw [M.bind_ok _ _ _ _ _ (M.ofExcept_ok _ _ _ hb)]
  cases b <;> simp [M.pure_apply]

/-- C8. TEST skip-on-false: when the instruction at position `p` is `TEST` with
index `k`, the value on top of the stack has truthiness `b`, and `p + 1 + k`
is in the range of a Go `int`, one step pops the value and leaves
`pc = p + 1 + k` when `b` is false and `pc = p + 1` when `b` is true; with `b`
false and `k = 3` the program counter has advanced by 4. -/
theorem step_test_skips (P : Prims) (ctx : Ctx) (call : Ref → List Val → M Heap Val)
    (h : Heap) (r : Ref) (f : Func) (i : Instr) (pre post : List Val) (v : Val) (b : Bool)
    (hf : h[r]? = some f) (hi : index f.proto.Code f.pc = some i)
    (hop : i.Opcode = .OP_TEST)
    (hst : f.stack = pre ++ v :: post) (hsp : f.sp = (pre.length : ℤ) + 1)
    (hb : Val.Bool P v = .ok b) (hrange : f.pc + 1 + (i.Index : ℤ) < 2 ^ 63) :
    ∃ f1 : Func,
      Func.step P ctx call r h = .ok none (h.set r f1) ∧
      f1.pc = (if b then f.pc + 1 else f.pc + 1 + (i.Index : ℤ)) ∧
      f1.sp = f.sp - 1 ∧ f1.stack = pre ++ Val.nil :: post ∧
      f1.vars = f.vars ∧ f1.proto = f.proto ∧
      (b = false → i.Index = 3 → f1.pc - f.pc = 4) := by
  have hp0 : 0 ≤ f.pc := index_nonneg _ _ _ hi
  have hk0 : (0 : ℤ) ≤ (i.Index : ℤ) := Int.ofNat_nonneg _
  have hw1 : wrapInt (f.pc + 1) = f.pc + 1 := wrapInt_of_range _ (by omega) (by omega)
  have hwk : wrapInt (i.Index : ℤ) = (i.Index : ℤ) := wrapInt_of_range _ (by omega) (by omega)
  have hw2 : wrapInt (f.pc + 1 + (i.Index : ℤ)) = f.pc + 1 + (i.Index : ℤ) :=
    wrapInt_of_range _ (by omega) (by omega)
  have ht := test_body_ok P i.Index { f with pc := wrapInt (f.pc + 1) } pre post v b hst hsp hb
  refine ⟨_, Func.step_local P ctx call h r f _ i _ hf hi (Or.inl ⟨hop, rfl⟩) ht,
    ?_, ?_, rfl, rfl, rfl, ?_⟩
  · show (if b = true then wrapInt (f.pc + 1) else wrapInt (wrapInt (f.pc + 1) + wrapInt _)) = _
    rw [hw1, hwk, hw2]
  · show (pre.length : ℤ) = f.sp - 1
    omega
  · intro hbf hk3
    show (if b = true then wrapInt (f.pc + 1) else wrapInt (wrapInt (f.pc + 1) + wrapInt _))
      - f.pc = 4
    rw [hw1, hwk, hw2, hbf, hk3]
    simp only [Bool.false_eq_true, if_false, Nat.cast_ofNat]
    omega

/-- Witness of C8: `TEST 3` at position 0 with `false` on top leaves `pc = 4`. -/
theorem step_test_skips_witness :
    ∃ f1 : Func,
      Func.step samplePrims emptyCtx noCall 0 [testStart] = .ok none ([testStart].set 0 f1) ∧
      f1.pc = (if false = true then testStart.pc + 1 else testStart.pc + 1 + ((3 : ℕ) : ℤ)) ∧
      f1.sp = testStart.sp - 1 ∧ f1.stack = [] ++ Val.nil :: [] ∧
      f1.vars = testStart.vars ∧ f1.proto = testStart.proto ∧
      (false = false → (3 : ℕ) = 3 → f1.pc - testStart.pc = 4) :=
  step_test_skips samplePrims emptyCtx noCall [testStart] 0 testStart (instr .OP_TEST .FLG_N 3)
    [] [] (Val.bool false) false rfl rfl rfl rfl rfl rfl (by decide)

end Agora

namespace Agora

/-- C9, as the code has it. When the instruction at position `p` is `JMPB` with
index `k` (`p + 1` and `k + 1` in the range of a Go `int`), one step leaves
`pc = p - k` and nothing else changes: with index 0 the program counter is `p`
again, so the next instruction fetched is the `JMPB` itself, and it is index 1
that leads to the instruction right before the jump. -/
theorem step_jmpb_target (P : Prims) (ctx : Ctx) (call : Ref → List Val → M Heap Val)
    (h : Heap) (r : Ref) (f : Func) (i : Instr)
    (hf : h[r]? = some f) (hi : index f.proto.Code f.pc = some i)
    (hop : i.Opcode = .OP_JMPB)
    (hrange : f.pc + 1 < 2 ^ 63) (hk : (i.Index : ℤ) + 1 < 2 ^ 63) :
    Func.step P ctx call r h = .ok none (h.set r { f with pc := f.pc - (i.Index : ℤ) }) ∧
    (i.Index = 0 → f.pc - (i.Index : ℤ) = f.pc ∧
      index f.proto.Code (f.pc - (i.Index : ℤ)) = some i) ∧
    (i.Index = 1 → f.pc - (i.Index : ℤ) = f.pc - 1) := by
  have hp0 : 0 ≤ f.pc := index_nonneg _ _ _ hi
  have hk0 : (0 : ℤ) ≤ (i.Index : ℤ) := Int.ofNat_nonneg _
  have hw1 : wrapInt (f.pc + 1) = f.pc + 1 := wrapInt_of_range _ (by omega) (by omega)
  have hwk : wrapInt (i.Index : ℤ) = (i.Index : ℤ) := wrapInt_of_range _ (by omega) (by omega)
  have hwk1 : wrapInt ((i.Index : ℤ) + 1) = (i.Index : ℤ) + 1 :=
    wrapInt_of_range _ (by omega) (by omega)
  have hw2 : wrapInt (f.pc + 1 - ((i.Index : ℤ) + 1)) = f.pc - (i.Index : ℤ) := by
    rw [wrapInt_of_range _ (by omega) (by omega)]
    omega
  have hrun : Func.jmpb i.Index { f with pc := wrapInt (f.pc + 1) } =
      .ok () { f with pc := f.pc - (i.Index : ℤ) } := by
    simp only [Func.jmpb]
    rw [hw1, hwk, hwk1, hw2]
  refine ⟨Func.step_local P ctx call h r f _ i _ hf hi (Or.inr (Or.inl ⟨hop, rfl⟩)) hrun,
    ?_, ?_⟩
  · intro h0
    have hpc : f.pc - (i.Index : ℤ) = f.pc := by rw [h0]; simp
    exact ⟨hpc, by rw [hpc]; exact hi⟩
  · intro h1
    rw [h1]
    simp

/-- Witness of the amended C9: `JMPB 0` at position 1 leaves `pc = 1`. -/
theorem step_jmpb_target_witness :
    Func.step samplePrims emptyCtx noCall 0 [jmpbStart] = .ok none [jmpbStart] :=
  (step_jmpb_target samplePrims emptyCtx noCall [jmpbStart] 0 jmpbStart
    (instr .OP_JMPB .FLG_N 0) rfl rfl rfl (by decide) (by decide)).1

/-- C9 as stated fails: after `JMPB 0` at position 1, which follows a `PUSH`,
the program counter is not 0. -/
theorem step_jmpb_zero_not_preceding :
    ¬ ∃ (h1 : Heap) (f1 : Func),
      Func.step samplePrims emptyCtx noCall 0 [jmpbStart] = .ok none h1 ∧
      h1[0]? = some f1 ∧ f1.pc = jmpbStart.pc - 1 := by
  rintro ⟨h1, f1, hstep, hf1, hpc⟩
  have hcode : Func.step samplePrims emptyCtx noCall 0 [jmpbStart] = .ok none [jmpbStart] := by
    decide
  rw [hcode] at hstep
  cases hstep
  simp at hf1
  subst hf1
  exact absurd hpc (by decide)

/-- C10. For every `Func` value, `Int()`, `Float()` and `String()` fail with
`ErrInvalidConvFuncToInt`, `ErrInvalidConvFuncToFloat` and
`ErrInvalidConvFuncToString`; none of them returns a value. -/
theorem Func.conversions_fail (self : Ref) :
    Func.Int self = .error .ErrInvalidConvFuncToInt ∧
    Func.Float self = .error .ErrInvalidConvFuncToFloat ∧
    Func.String self = .error .ErrInvalidConvFuncToString ∧
    (∀ v, Func.Int self ≠ .ok v) ∧ (∀ v, Func.Float self ≠ .ok v) ∧
    (∀ v, Func.String self ≠ .ok v) := by
  refine ⟨rfl, rfl, rfl, ?_, ?_, ?_⟩ <;> intro v hv <;> cases hv

end Agora

namespace Agora

/-! ## A `Func` as an operand -/

/-- C11. For every `Func` value and every value `v`, `Add`, `Sub`, `Mul`, `Div`,
`Mod`, `Pow` and `Unm` fail with the error of that operator, also when they
are reached through the `Val` interface, whereas `Not` returns `Bool(false)`
because `Bool` returns true. -/
theorem func_arith_fails (P : Prims) (self : Ref) (v : Val) :
    Func.Add self v = .error .ErrInvalidOpAddOnFunc ∧
    Func.Sub self v = .error .ErrInvalidOpSubOnFunc ∧
    Func.Mul self v = .error .ErrInvalidOpMulOnFunc ∧
    Func.Div self v = .error .ErrInvalidOpDivOnFunc ∧
    Func.Mod self v = .error .ErrInvalidOpModOnFunc ∧
    Func.Pow self v = .error .ErrInvalidOpPowOnFunc ∧
    Func.Unm self = .error .ErrInvalidOpUnmOnFunc ∧
    Func.Bool self = .ok true ∧
    Func.Not self = .ok (Val.bool false) ∧
    Val.Add P (Val.func self) v = .error .ErrInvalidOpAddOnFunc ∧
    Val.Sub P (Val.func self) v = .error .ErrInvalidOpSubOnFunc ∧
    Val.Mul P (Val.func self) v = .error .ErrInvalidOpMulOnFunc ∧
    Val.Div P (Val.func self) v = .error .ErrInvalidOpDivOnFunc ∧
    Val.Mod P (Val.func self) v = .error .ErrInvalidOpModOnFunc ∧
    Val.Pow P (Val.func self) v = .error .ErrInvalidOpPowOnFunc ∧
    Val.Unm P (Val.func self) = .error .ErrInvalidOpUnmOnFunc ∧
    Val.Not P (Val.func self) = .ok (Val.bool false) :=
  ⟨rfl, rfl, rfl, rfl, rfl, rfl, rfl, rfl, rfl, rfl, rfl, rfl, rfl, rfl, rfl, rfl, rfl⟩

/-- The body of `LT` and `GT` on a stack whose two topmost values are `x` and,
above it, `y`, when `x.Cmp(y)` returns `c`. -/
theorem cmpop_ok (P : Prims) (want : ℤ) (f : Func) (pre post : List Val) (x y : Val) (c : ℤ)
    (hst : f.stack = pre ++ x :: y :: post) (hsp : f.sp = (pre.length : ℤ) + 2)
    (hc : Val.Cmp P x y = .ok c) :
    Func.cmpop P want f = .ok ()
      { f with stack := pre ++ Val.bool (decide (c = want)) :: Val.nil :: post
               sp := (pre.length : ℤ) + 1 } := by
  have h1 := Func.pop_split f (pre ++ [x]) post y (by simp [hst]) (by simp [hsp]; omega)
  have h2 := Func.pop_split
    { f with stack := pre ++ [x] ++ Val.nil :: post, sp := ((pre ++ [x]).length : ℤ) }
    pre (Val.nil :: post) x (by simp) (by simp)
  have h3 := Func.push_split
    { f with stack := pre ++ Val.nil :: Val.nil :: post, sp := (pre.length : ℤ) }
    pre (Val.nil :: Val.nil :: post) (Val.bool (decide (c = want))) rfl rfl
  unfold Func.cmpop
  rw [M.bind_ok _ _ _ _ _ h1, M.bind_ok _ _ _ _ _ h2]
  rw [M.bind_ok _ _ _ _ _ (M.ofExcept_ok _ _ _ hc)]
  rw [h3]
  simp

/-- A step whose instruction is `LT` or `GT` runs the comparison body, after
the fetch. -/
theorem step_cmp (P : Prims) (ctx : Ctx) (call : Ref → List Val → M Heap Val)
    (h : Heap) (r : Ref) (f f1 : Func) (i : Instr) (want : ℤ)
    (hf : h[r]? = some f) (hi : index f.proto.Code f.pc = some i)
    (hop : (i.Opcode = .OP_LT ∧ want = -1) ∨ (i.Opcode = .OP_GT ∧ want = 1))
    (hrun : Func.cmpop P want { f with pc := wrapInt (f.pc + 1) } = .ok () f1) :
    Func.step P ctx call r h = .ok none (h.set r f1) := by
  have hf1 := Heap.get_set h r f { f with pc := wrapInt (f.pc + 1) } hf
  unfold Func.step
  rw [M.bind_ok _ _ _ _ _ (Heap.onObj_ok h r _ f _ i hf (Func.fetch_ok f i hi))]
  unfold Func.exec
  rcases hop with ⟨hop, rfl⟩ | ⟨hop, rfl⟩ <;> simp only [hop] <;>
    rw [M.bind_ok _ _ _ _ _ (Heap.onObj_ok _ r _ _ _ _ hf1 hrun)] <;> simp [M.pure_apply]

/-- C12. `Cmp` on a `Func` is 0 when the other value is the same reference and
-1 otherwise, never 1. Hence a `GT` step whose left operand is a `Func` pushes
`Bool(false)`, and an `LT` step whose left operand is a `Func` pushes
`Bool(true)` exactly when the right operand is not that same reference. -/
theorem func_cmp_identity (P : Prims) (ctx : Ctx) (call : Ref → List Val → M Heap Val)
    (h : Heap) (r : Ref) (f : Func) (i : Instr) (c : Ref) (pre post : List Val) (y : Val)
    (hf : h[r]? = some f) (hi : index f.proto.Code f.pc = some i)
    (hst : f.stack = pre ++ Val.func c :: y :: post) (hsp : f.sp = (pre.length : ℤ) + 2) :
    Func.Cmp c y = .ok (if y = Val.func c then 0 else -1) ∧
    Func.Cmp c y ≠ .ok 1 ∧
    (i.Opcode = .OP_GT →
      Func.step P ctx call r h = .ok none (h.set r
        { f with pc := wrapInt (f.pc + 1)
                 stack := pre ++ Val.bool false :: Val.nil :: post
                 sp := f.sp - 1 })) ∧
    (i.Opcode = .OP_LT →
      Func.step P ctx call r h = .ok none (h.set r
        { f with pc := wrapInt (f.pc + 1)
                 stack := pre ++ Val.bool (decide (y ≠ Val.func c)) :: Val.nil :: post
                 sp := f.sp - 1 })) := by
  have hsp1 : f.sp - 1 = (pre.length : ℤ) + 1 := by omega
  have hcmp : Func.Cmp c y = .ok (if y = Val.func c then 0 else -1) := by
    unfold Func.Cmp
    by_cases hy : y = Val.func c
    · simp [hy]
    · have hy2 : ¬ Val.func c = y := fun e => hy e.symm
      simp [hy, hy2]
  have hne : Func.Cmp c y ≠ .ok 1 := by
    rw [hcmp]
    by_cases hy : y = Val.func c <;> simp [hy]
  have hval : Val.Cmp P (Val.func c) y = .ok (if y = Val.func c then 0 else -1) := hcmp
  refine ⟨hcmp, hne, ?_, ?_⟩
  · intro hop
    have hb := cmpop_ok P 1 { f with pc := wrapInt (f.pc + 1) } pre post (Val.func c) y _
      hst hsp hval
    rw [step_cmp P ctx call h r f _ i 1 hf hi (Or.inr ⟨hop, rfl⟩) hb, hsp1]
    by_cases hy : y = Val.func c <;> simp [hy]
  · intro hop
    have hb := cmpop_ok P (-1) { f with pc := wrapInt (f.pc + 1) } pre post (Val.func c) y _
      hst hsp hval
    rw [step_cmp P ctx call h r f _ i (-1) hf hi (Or.inl ⟨hop, rfl⟩) hb, hsp1]
    by_cases hy : y = Val.func c <;> simp [hy]

/-- Witness of C12: `LT` with the `Func` at 1 below the `Func` at 2 pushes
`Bool(true)`. -/
theorem func_cmp_identity_witness :
    Func.step samplePrims emptyCtx noCall 0 [cmpStart] =
      .ok none [{ cmpStart with pc := 1
                                stack := [Val.int 9, Val.bool true, Val.nil]
                                sp := 2 }] :=
  (func_cmp_identity samplePrims emptyCtx noCall [cmpStart] 0 cmpStart
    (instr .OP_LT .FLG_N 0) 1 [Val.int 9] [] (Val.func 2) rfl rfl rfl rfl).2.2.2 rfl

end Agora

namespace Agora

/-! ## Invariants of the operand stack -/

/-- What `push` returns on each state: an append at the end, an overwrite of
slot `sp`, or a panic that leaves the state alone. -/
theorem push_cases (f : Func) (v : Val) :
    (f.sp = (f.stack.length : ℤ) ∧
      Func.push v f = .ok () { f with stack := f.stack ++ [v], sp := f.sp + 1 }) ∨
    (0 ≤ f.sp ∧ f.sp < (f.stack.length : ℤ) ∧
      Func.push v f = .ok () { f with stack := f.stack.set f.sp.toNat v, sp := f.sp + 1 }) ∨
    (f.sp ≠ (f.stack.length : ℤ) ∧ ¬ (0 ≤ f.sp ∧ f.sp < (f.stack.length : ℤ)) ∧
      Func.push v f = .fault .indexOutOfRange f) := by
  by_cases heq : f.sp = (f.stack.length : ℤ)
  · exact Or.inl ⟨heq, by simp [Func.push, heq]⟩
  · by_cases hneg : f.sp < 0
    · refine Or.inr (Or.inr ⟨heq, by omega, ?_⟩)
      simp [Func.push, heq, index, hneg]
    · by_cases hlt : f.sp.toNat < f.stack.length
      · refine Or.inr (Or.inl ⟨by omega, by omega, ?_⟩)
        simp [Func.push, heq, index, hneg, List.getElem?_eq_getElem hlt]
      · refine Or.inr (Or.inr ⟨heq, by omega, ?_⟩)
        simp [Func.push, heq, index, hneg, List.getElem?_eq_none (not_lt.mp hlt)]

/-- What `pop` returns on each state: the value of slot `sp - 1`, which is
left `Nil`, or a panic with `sp` already lowered. -/
theorem pop_cases (f : Func) :
    (∃ v, 0 ≤ f.sp - 1 ∧ f.sp - 1 < (f.stack.length : ℤ) ∧
      f.stack[(f.sp - 1).toNat]? = some v ∧
      Func.pop f = .ok v
        { f with stack := f.stack.set (f.sp - 1).toNat Val.nil, sp := f.sp - 1 }) ∨
    (¬ (0 ≤ f.sp - 1 ∧ f.sp - 1 < (f.stack.length : ℤ)) ∧
      Func.pop f = .fault .indexOutOfRange { f with sp := f.sp - 1 }) := by
  by_cases hneg : f.sp - 1 < 0
  · refine Or.inr ⟨by omega, ?_⟩
    simp [Func.pop, index, hneg]
  · by_cases hlt : (f.sp - 1).toNat < f.stack.length
    · have hg := List.getElem?_eq_getElem hlt
      refine Or.inl ⟨f.stack[(f.sp - 1).toNat], by omega, by omega, hg, ?_⟩
      simp only [Func.pop, index, hneg, if_false, hg]
    · have hg : f.stack[(f.sp - 1).toNat]? = none := List.getElem?_eq_none (not_lt.mp hlt)
      refine Or.inr ⟨by omega, ?_⟩
      simp only [Func.pop, index, hneg, if_false, hg]

/-- C19. Dead-slot invariant: "every stack slot at an index `i` with
`sp ≤ i < len(stack)` holds `Nil`" is true of the activation `NewFunc` builds;
`push` and `pop` keep it on the state they leave, whether they return or
panic; and under `0 ≤ sp ≤ len(stack)` the push returns, as does the pop when
`sp > 0`. -/
theorem dead_slots_nil :
    (∀ p : FuncProto, (Func.fresh p).deadNil) ∧
    (∀ (f : Func) (v : Val), f.deadNil →
      ∀ f1 : Func, (Func.push v f).state? = some f1 → f1.deadNil) ∧
    (∀ f : Func, f.deadNil →
      ∀ f1 : Func, (Func.pop f).state? = some f1 → f1.deadNil) ∧
    (∀ (f : Func) (v : Val), f.deadNil → f.spOk →
      ∃ f1 : Func, Func.push v f = .ok () f1 ∧ f1.deadNil) ∧
    (∀ f : Func, f.deadNil → f.spOk → 0 < f.sp →
      ∃ (v : Val) (f1 : Func), Func.pop f = .ok v f1 ∧ f1.deadNil) := by
  have hpush : ∀ (f : Func) (v : Val), f.deadNil →
      ∀ f1 : Func, (Func.push v f).state? = some f1 → f1.deadNil := by
    intro f v hd f1 hst
    rcases push_cases f v with ⟨heq, hp⟩ | ⟨h0, hlt, hp⟩ | ⟨_, _, hp⟩
    · rw [hp] at hst
      cases hst
      intro i hi hsp
      simp only [List.length_append, List.length_singleton] at hi
      simp only at hsp
      omega
    · rw [hp] at hst
      cases hst
      intro i hi hsp
      simp only [List.length_set] at hi
      simp only at hsp
      show (f.stack.set f.sp.toNat v)[i]? = some Val.nil
      rw [List.getElem?_set_ne (by omega)]
      exact hd i hi (by omega)
    · rw [hp] at hst
      cases hst
      exact hd
  have hpop : ∀ f : Func, f.deadNil →
      ∀ f1 : Func, (Func.pop f).state? = some f1 → f1.deadNil := by
    intro f hd f1 hst
    rcases pop_cases f with ⟨v, h0, hlt, _, hp⟩ | ⟨hout, hp⟩
    · rw [hp] at hst
      cases hst
      intro i hi hsp
      simp only [List.length_set] at hi
      simp only at hsp
      show (f.stack.set (f.sp - 1).toNat Val.nil)[i]? = some Val.nil
      by_cases hi1 : (f.sp - 1).toNat = i
      · rw [hi1, List.getElem?_set_self hi]
      · rw [List.getElem?_set_ne hi1]
        exact hd i hi (by omega)
    · rw [hp] at hst
      cases hst
      intro i hi hsp
      simp only at hi hsp
      exact hd i hi (by omega)
  refine ⟨?_, hpush, hpop, ?_, ?_⟩
  · intro p i hi _
    simp [Func.fresh] at hi
  · intro f v hd hok
    rcases push_cases f v with ⟨_, hp⟩ | ⟨_, _, hp⟩ | ⟨hne, hout, _⟩
    · exact ⟨_, hp, hpush f v hd _ (by rw [hp]; rfl)⟩
    · exact ⟨_, hp, hpush f v hd _ (by rw [hp]; rfl)⟩
    · exact absurd hok.2 (by have := hok.1; omega)
  · intro f hd hok hpos
    rcases pop_cases f with ⟨v, _, _, _, hp⟩ | ⟨hout, _⟩
    · exact ⟨v, _, hp, hpop f hd _ (by rw [hp]; rfl)⟩
    · exact absurd hok.2 (by omega)

/-- Witness of C19: a push and a pop on an activation with one live value and
one dead slot. -/
theorem dead_slots_nil_witness :
    lifoStart.deadNil ∧ lifoStart.spOk ∧ 0 < lifoStart.sp ∧
    (∃ f1 : Func, Func.push (Val.int 2) lifoStart = .ok () f1 ∧ f1.deadNil) ∧
    (∃ (v : Val) (f1 : Func), Func.pop lifoStart = .ok v f1 ∧ f1.deadNil) :=
  ⟨by decide, by decide, by decide,
    dead_slots_nil.2.2.2.1 lifoStart (Val.int 2) (by decide) (by decide),
    dead_slots_nil.2.2.2.2 lifoStart (by decide) (by decide) (by decide)⟩

end Agora

namespace Agora

/-- C20. Argument binding is in bounds only for well-formed prototypes: on an
activation whose variables are those of its prototype's table, the binding
loop of `callVM` returns if and only if `min(len(args), ExpArgs)` is at most
`len(VTable)`, and otherwise panics on the first slot that does not exist;
when `ExpArgs ≤ len(VTable)` it returns for every argument list; and when
`ExpArgs` is zero or negative it binds nothing. -/
theorem bindArgs_in_bounds (f : Func) (args : List Val)
    (hlen : f.vars.length = f.proto.VTable.length) :
    ((∃ f1 : Func, Func.bindArgs args f = .ok () f1) ↔
      min (args.length : ℤ) f.proto.ExpArgs ≤ (f.proto.VTable.length : ℤ)) ∧
    ((f.proto.VTable.length : ℤ) < min (args.length : ℤ) f.proto.ExpArgs →
      Func.bindArgs args f = .fault .indexOutOfRange
        { f with vars := args.take f.proto.VTable.length }) ∧
    (f.proto.ExpArgs ≤ (f.proto.VTable.length : ℤ) →
      ∃ f1 : Func, Func.bindArgs args f = .ok () f1) ∧
    (f.proto.ExpArgs ≤ 0 → Func.bindArgs args f = .ok () f) := by
  have hcnt : (min (args.length : ℤ) f.proto.ExpArgs).toNat ≤ args.length := by omega
  have hok : min (args.length : ℤ) f.proto.ExpArgs ≤ (f.proto.VTable.length : ℤ) →
      Func.bindArgs args f = .ok ()
        { f with vars := args.take (min (args.length : ℤ) f.proto.ExpArgs).toNat ++
            f.vars.drop (min (args.length : ℤ) f.proto.ExpArgs).toNat } := by
    intro hroom
    have h := Func.bindLoop_ok args (min (args.length : ℤ) f.proto.ExpArgs).toNat 0 f f.vars
      (by simp) (by omega) (by omega)
    simp only [Func.bindArgs]
    rw [h]
    simp
  have hfault : (f.proto.VTable.length : ℤ) < min (args.length : ℤ) f.proto.ExpArgs →
      Func.bindArgs args f = .fault .indexOutOfRange
        { f with vars := args.take f.proto.VTable.length } := by
    intro hroom
    have h := Func.bindLoop_fault args (min (args.length : ℤ) f.proto.ExpArgs).toNat 0 f f.vars
      (by simp) (by omega) (by omega)
    simp only [Func.bindArgs]
    rw [h]
    simp [hlen]
  refine ⟨⟨?_, fun hroom => ⟨_, hok hroom⟩⟩, hfault, fun hexp => ⟨_, hok (by omega)⟩, ?_⟩
  · rintro ⟨f1, hf1⟩
    by_contra hroom
    rw [hfault (by omega)] at hf1
    cases hf1
  · intro hexp
    have hz : (min (args.length : ℤ) f.proto.ExpArgs).toNat = 0 := by omega
    rw [hok (by omega), hz]
    simp

/-- Witness of C20: three arguments to a fresh `argProto`, which expects two
and has three variables. -/
theorem bindArgs_in_bounds_witness :
    (Func.fresh argProto).vars.length = (Func.fresh argProto).proto.VTable.length ∧
    ∃ f1 : Func, Func.bindArgs argList (Func.fresh argProto) = .ok () f1 :=
  ⟨by decide, (bindArgs_in_bounds (Func.fresh argProto) argList (by decide)).2.2.1 (by decide)⟩

end Agora

namespace Agora

/-! ## Reasoning about outcomes -/

theorem M.yields_bind {σ α β : Type} (x : M σ α) (k : α → M σ β) (s : σ)
    (Q1 : α → σ → Prop) (Q2 : β → σ → Prop) (Qf : σ → Prop)
    (hx : M.yields x s Q1 Qf) (hk : ∀ a s1, Q1 a s1 → M.yields (k a) s1 Q2 Qf) :
    M.yields (x >>= k) s Q2 Qf := by
  show M.yields (M.bind x k) s Q2 Qf
  unfold M.yields M.bind
  unfold M.yields at hx
  cases hxs : x s with
  | ok a s1 =>
    rw [hxs] at hx
    exact hk a s1 hx
  | fault e s1 =>
    rw [hxs] at hx
    exact hx
  | timeout =>
    rw [hxs] at hx
    exact hx.elim

theorem M.yields_mono {σ α : Type} (m : M σ α) (s : σ) (Q1 Q2 : α → σ → Prop)
    (F1 F2 : σ → Prop) (hm : M.yields m s Q1 F1)
    (hq : ∀ a s1, Q1 a s1 → Q2 a s1) (hf : ∀ s1, F1 s1 → F2 s1) :
    M.yields m s Q2 F2 := by
  unfold M.yields at hm ⊢
  cases hms : m s with
  | ok a s1 => rw [hms] at hm; exact hq a s1 hm
  | fault e s1 => rw [hms] at hm; exact hf s1 hm
  | timeout => rw [hms] at hm; exact hm

theorem M.yields_pure {σ α : Type} (a : α) (s : σ) (Q : α → σ → Prop) (Qf : σ → Prop)
    (h : Q a s) : M.yields (pure a : M σ α) s Q Qf := h

theorem M.yields_panic {σ α : Type} (e : Fault) (s : σ) (Q : α → σ → Prop) (Qf : σ → Prop)
    (h : Qf s) : M.yields (M.panic e : M σ α) s Q Qf := h

theorem M.yields_ofExcept {σ α : Type} (x : Except Fault α) (s : σ) (Q : α → σ → Prop)
    (Qf : σ → Prop) (hq : ∀ a, Q a s) (hf : Qf s) :
    M.yields (M.ofExcept x : M σ α) s Q Qf := by
  unfold M.yields M.ofExcept
  cases x with
  | ok a => exact hq a
  | error e => exact hf

theorem M.yields_ok {σ α : Type} (m : M σ α) (s s1 : σ) (a : α) (Q : α → σ → Prop)
    (Qf : σ → Prop) (hm : M.yields m s Q Qf) (hr : m s = .ok a s1) : Q a s1 := by
  unfold M.yields at hm
  rw [hr] at hm
  exact hm

theorem M.yields_fault {σ α : Type} (m : M σ α) (s s1 : σ) (e : Fault) (Q : α → σ → Prop)
    (Qf : σ → Prop) (hm : M.yields m s Q Qf) (hr : m s = .fault e s1) : Qf s1 := by
  unfold M.yields at hm
  rw [hr] at hm
  exact hm

theorem M.yields_ne_timeout {σ α : Type} (m : M σ α) (s : σ) (Q : α → σ → Prop)
    (Qf : σ → Prop) (hm : M.yields m s Q Qf) : m s ≠ .timeout := by
  intro hr
  unfold M.yields at hm
  rw [hr] at hm
  exact hm

theorem Func.after_refl (f : Func) : Func.after 0 f f :=
  ⟨rfl, rfl, rfl, rfl, by omega, le_refl _⟩

theorem Func.after_mono (j k : ℤ) (f0 s : Func) (hjk : j ≤ k) (h : Func.after j f0 s) :
    Func.after k f0 s :=
  ⟨h.1, h.2.1, h.2.2.1, h.2.2.2.1, by have := h.2.2.2.2.1; omega, h.2.2.2.2.2⟩

/-- A pop after `k` pops: one more pop, and when it returns the stack pointer
invariant holds. -/
theorem pop_yields (k : ℤ) (f0 s : Func) (hs : Func.after k f0 s) :
    M.yields Func.pop s (fun _ s1 => Func.after (k + 1) f0 s1 ∧ s1.spOk)
      (Func.after (k + 1) f0) := by
  obtain ⟨h1, h2, h3, h4, h5, h6⟩ := hs
  unfold M.yields
  rcases pop_cases s with ⟨v, h0, hlt, _, hp⟩ | ⟨_, hp⟩
  · rw [hp]
    refine ⟨⟨h1, h2, h3, by simp [h4], ?_, ?_⟩, ?_, ?_⟩
    · show f0.sp - (k + 1) ≤ s.sp - 1
      omega
    · show s.sp - 1 ≤ f0.sp
      omega
    · exact h0
    · show s.sp - 1 ≤ ((s.stack.set (s.sp - 1).toNat Val.nil).length : ℤ)
      simp only [List.length_set]
      omega
  · rw [hp]
    refine ⟨h1, h2, h3, h4, ?_, ?_⟩
    · show f0.sp - (k + 1) ≤ s.sp - 1
      omega
    · show s.sp - 1 ≤ f0.sp
      omega

/-- A push after `k` pops: when it returns the stack pointer invariant holds,
when it panics nothing has changed. -/
theorem push_yields (k : ℤ) (f0 s : Func) (v : Val) (hs : Func.after k f0 s) :
    M.yields (Func.push v) s (fun _ s1 => Func.settled f0 s1) (Func.after k f0) := by
  obtain ⟨h1, h2, h3, h4, h5, h6⟩ := hs
  unfold M.yields
  rcases push_cases s v with ⟨heq, hp⟩ | ⟨h0, hlt, hp⟩ | ⟨_, _, hp⟩
  · rw [hp]
    refine ⟨h1, h2, ?_, ?_⟩
    · show 0 ≤ s.sp + 1
      omega
    · show s.sp + 1 ≤ ((s.stack ++ [v]).length : ℤ)
      simp only [List.length_append, List.length_singleton]
      omega
  · rw [hp]
    refine ⟨h1, h2, ?_, ?_⟩
    · show 0 ≤ s.sp + 1
      omega
    · show s.sp + 1 ≤ ((s.stack.set s.sp.toNat v).length : ℤ)
      simp only [List.length_set]
      omega
  · rw [hp]
    exact ⟨h1, h2, h3, h4, h5, h6⟩

/-- `setVal` after `k` pops on a state that satisfies the stack pointer
invariant: it touches neither the stack nor `sp`, and nothing when it
panics. -/
theorem setVal_yields (k : ℤ) (f0 s : Func) (flg : Flag) (ix : Nat) (v : Val)
    (hs : Func.after k f0 s) (hok : s.spOk) :
    M.yields (Func.setVal flg ix v) s (fun _ s1 => Func.settled f0 s1) (Func.after k f0) := by
  unfold M.yields Func.setVal
  cases flg with
  | FLG_V =>
    by_cases hix : ix < s.vars.length
    · simp only [hix, if_true]
      exact ⟨hs.1, hs.2.1, hok⟩
    · simp only [hix, if_false]
      exact hs
  | FLG_K => exact hs
  | FLG_N => exact hs
  | FLG_F => exact hs
  | other n => exact hs

end Agora

namespace Agora

/-! ## Addressing modes -/

theorem NewFunc_ok (P : Prims) (p : FuncProto) (h : Heap) (h0 : 0 ≤ p.StackSz)
    (h1 : p.StackSz ≤ (P.maxCap : ℤ)) :
    NewFunc P p h = .ok h.length (h ++ [Func.fresh p]) := by
  have hn : ¬ (p.StackSz < 0 ∨ (P.maxCap : ℤ) < p.StackSz) := by omega
  simp only [NewFunc, hn, if_false]

theorem NewFunc_fault (P : Prims) (p : FuncProto) (h : Heap)
    (hbad : p.StackSz < 0 ∨ (P.maxCap : ℤ) < p.StackSz) :
    NewFunc P p h = .fault .makesliceCap h := by
  simp only [NewFunc, hbad, if_true]

/-- `getVal` returns or panics, and the store it leaves still holds every
object it held, unchanged. -/
theorem getVal_yields (P : Prims) (ctx : Ctx) (f : Func) (flg : Flag) (ix : Nat) (h : Heap) :
    M.yields (Func.getVal P ctx f flg ix) h
      (fun _ h1 => ∀ (r : Ref) (f0 : Func), h[r]? = some f0 → h1[r]? = some f0)
      (fun h1 => ∀ (r : Ref) (f0 : Func), h[r]? = some f0 → h1[r]? = some f0) := by
  have hsame : ∀ (r : Ref) (f0 : Func), h[r]? = some f0 → h[r]? = some f0 := fun _ _ hr => hr
  cases flg with
  | FLG_K =>
    simp only [Func.getVal]
    cases hk : f.proto.KTable[ix]? <;> exact hsame
  | FLG_V =>
    simp only [Func.getVal]
    cases hk : f.vars[ix]? <;> exact hsame
  | FLG_N => exact hsame
  | FLG_F =>
    simp only [Func.getVal]
    cases hk : ctx.Protos[ix]? with
    | none => exact hsame
    | some p =>
      show M.yields (NewFunc P p >>= fun r => (pure (Val.func r) : M Heap Val)) h _ _
      unfold M.yields
      by_cases hbad : p.StackSz < 0 ∨ (P.maxCap : ℤ) < p.StackSz
      · rw [M.bind_fault _ _ _ _ _ (NewFunc_fault P p h hbad)]
        exact hsame
      · rw [M.bind_ok _ _ _ _ _ (NewFunc_ok P p h (by omega) (by omega))]
        intro r f0 hr
        have hlt : r < h.length := by
          by_contra hge
          rw [List.getElem?_eq_none (not_lt.mp hge)] at hr
          exact absurd hr (by simp)
        show (h ++ [Func.fresh p])[r]? = some f0
        rw [List.getElem?_append_left hlt]
        exact hr
  | other n => exact hsame

/-- C17, as the code has it. Addressing modes of `getVal`: flag `N` yields
`Nil` for every index and leaves the store alone. Flag `F` with an index in
the prototype table yields the address of a new object, appended to the
store, bound to that prototype with `pc = 0`, `sp = 0`, an empty stack and
every variable `Nil`, when the prototype's stack size hint is a capacity that
`make` accepts (`0 ≤ StackSz ≤ maxCap`); with a negative or too large hint
`getVal` panics in `NewFunc` and the store is as it was. For both flags the
outcome is the same whatever the enclosing activation is, and for every flag
the objects already in the store, the enclosing activation among them, are
unchanged. -/
theorem getVal_modes (P : Prims) (ctx : Ctx) (f : Func) (ix : Nat) (h : Heap) :
    Func.getVal P ctx f .FLG_N ix h = .ok Val.nil h ∧
    (∀ p : FuncProto, ctx.Protos[ix]? = some p → 0 ≤ p.StackSz →
      p.StackSz ≤ (P.maxCap : ℤ) →
      Func.getVal P ctx f .FLG_F ix h = .ok (Val.func h.length) (h ++ [Func.fresh p]) ∧
      h[h.length]? = none ∧
      (h ++ [Func.fresh p])[h.length]? = some (Func.fresh p) ∧
      (Func.fresh p).proto = p ∧ (Func.fresh p).pc = 0 ∧ (Func.fresh p).sp = 0 ∧
      (Func.fresh p).stack = [] ∧ (Func.fresh p).vars.length = p.VTable.length ∧
      (∀ j : Nat, j < p.VTable.length → (Func.fresh p).vars[j]? = some Val.nil)) ∧
    (∀ p : FuncProto, ctx.Protos[ix]? = some p →
      p.StackSz < 0 ∨ (P.maxCap : ℤ) < p.StackSz →
      Func.getVal P ctx f .FLG_F ix h = .fault .makesliceCap h) ∧
    (∀ f2 : Func, Func.getVal P ctx f .FLG_F ix h = Func.getVal P ctx f2 .FLG_F ix h ∧
      Func.getVal P ctx f .FLG_N ix h = Func.getVal P ctx f2 .FLG_N ix h) ∧
    (∀ (flg : Flag) (h1 : Heap), (Func.getVal P ctx f flg ix h).state? = some h1 →
      ∀ (r : Ref) (f0 : Func), h[r]? = some f0 → h1[r]? = some f0) ∧
    (∀ flg : Flag, Func.getVal P ctx f flg ix h ≠ .timeout) := by
  refine ⟨rfl, ?_, ?_, fun f2 => ⟨rfl, rfl⟩, ?_, ?_⟩
  · intro p hp hsz hmax
    refine ⟨?_, by simp, by simp, rfl, rfl, rfl, rfl, by simp [Func.fresh], ?_⟩
    · simp only [Func.getVal, hp]
      show (NewFunc P p >>= fun r => pure (Val.func r)) h = _
      rw [M.bind_ok _ _ _ _ _ (NewFunc_ok P p h hsz hmax)]
      rfl
    · intro j hj
      simp [Func.fresh, List.getElem?_replicate, hj]
  · intro p hp hbad
    simp only [Func.getVal, hp]
    show (NewFunc P p >>= fun r => (pure (Val.func r) : M Heap Val)) h = _
    rw [M.bind_fault _ _ _ _ _ (NewFunc_fault P p h hbad)]
  · intro flg h1 hst r f0 hr
    have hy := getVal_yields P ctx f flg ix h
    unfold M.yields at hy
    cases hres : Func.getVal P ctx f flg ix h with
    | ok v h2 =>
      rw [hres] at hy hst
      cases hst
      exact hy r f0 hr
    | fault e h2 =>
      rw [hres] at hy hst
      cases hst
      exact hy r f0 hr
    | timeout =>
      rw [hres] at hst
      cases hst
  · intro flg
    exact M.yields_ne_timeout _ _ _ _ (getVal_yields P ctx f flg ix h)

/-- Witness of the amended C17: flag `F` with index 0 in a context whose
prototype 0 is `argProto`, read from an activation with a live stack. -/
theorem getVal_modes_witness :
    argCtx.Protos[0]? = some argProto ∧ 0 ≤ argProto.StackSz ∧
    argProto.StackSz ≤ (samplePrims.maxCap : ℤ) ∧
    Func.getVal samplePrims argCtx lifoStart .FLG_F 0 [lifoStart] =
      .ok (Val.func 1) [lifoStart, Func.fresh argProto] :=
  ⟨rfl, by decide, by decide,
    ((getVal_modes samplePrims argCtx lifoStart 0 [lifoStart]).2.1 argProto rfl
      (by decide) (by decide)).1⟩

/-- C17 as stated fails: with flag `F` and index 0, which is in the prototype
table, `getVal` returns no `Func` when the prototype's stack size hint is -1;
it panics. -/
theorem getVal_negative_hint_panics :
    negHintCtx.Protos[0]? = some negHintProto ∧
    (¬ ∃ (v : Val) (h1 : Heap),
      Func.getVal samplePrims negHintCtx lifoStart .FLG_F 0 [lifoStart] = .ok v h1) ∧
    Func.getVal samplePrims negHintCtx lifoStart .FLG_F 0 [lifoStart] =
      .fault .makesliceCap [lifoStart] := by
  have hcode : Func.getVal samplePrims negHintCtx lifoStart .FLG_F 0 [lifoStart] =
      .fault .makesliceCap [lifoStart] := by decide
  refine ⟨rfl, ?_, hcode⟩
  rintro ⟨v, h1, hok⟩
  rw [hcode] at hok
  cases hok

end Agora

namespace Agora

/-! ## Effects of the opcode bodies on the activation -/

theorem binop_yields (op : Val → Val → Except Fault Val) (f0 : Func) :
    M.yields (Func.binop op) f0 (fun _ s1 => Func.settled f0 s1) (Func.after 2 f0) := by
  unfold Func.binop
  refine M.yields_bind _ _ _ _ _ _
    (M.yields_mono _ _ _ _ _ _ (pop_yields 0 f0 f0 (Func.after_refl f0))
      (fun _ _ h => h) (fun _ h => Func.after_mono _ 2 _ _ (by omega) h)) ?_
  intro y s1 hs1
  refine M.yields_bind _ _ _ _ _ _ (pop_yields (0 + 1) f0 s1 hs1.1) ?_
  intro x s2 hs2
  have hs2' : Func.after 2 f0 s2 := hs2.1
  refine M.yields_bind _ _ _ (fun _ s3 => Func.after 2 f0 s3) _ _
    (M.yields_ofExcept _ _ _ _ (fun _ => hs2') hs2') ?_
  intro z s3 hs3
  exact push_yields 2 f0 s3 z hs3

theorem unop_yields (op : Val → Except Fault Val) (f0 : Func) :
    M.yields (Func.unop op) f0 (fun _ s1 => Func.settled f0 s1) (Func.after 2 f0) := by
  unfold Func.unop
  refine M.yields_bind _ _ _ _ _ _
    (M.yields_mono _ _ _ _ _ _ (pop_yields 0 f0 f0 (Func.after_refl f0))
      (fun _ _ h => h) (fun _ h => Func.after_mono _ 2 _ _ (by omega) h)) ?_
  intro x s1 hs1
  have hs1' : Func.after 2 f0 s1 := Func.after_mono _ 2 _ _ (by omega) hs1.1
  refine M.yields_bind _ _ _ (fun _ s3 => Func.after 2 f0 s3) _ _
    (M.yields_ofExcept _ _ _ _ (fun _ => hs1') hs1') ?_
  intro z s3 hs3
  exact push_yields 2 f0 s3 z hs3

theorem cmpop_yields (P : Prims) (want : ℤ) (f0 : Func) :
    M.yields (Func.cmpop P want) f0 (fun _ s1 => Func.settled f0 s1) (Func.after 2 f0) := by
  unfold Func.cmpop
  refine M.yields_bind _ _ _ _ _ _
    (M.yields_mono _ _ _ _ _ _ (pop_yields 0 f0 f0 (Func.after_refl f0))
      (fun _ _ h => h) (fun _ h => Func.after_mono _ 2 _ _ (by omega) h)) ?_
  intro y s1 hs1
  refine M.yields_bind _ _ _ _ _ _ (pop_yields (0 + 1) f0 s1 hs1.1) ?_
  intro x s2 hs2
  have hs2' : Func.after 2 f0 s2 := hs2.1
  refine M.yields_bind _ _ _ (fun _ s3 => Func.after 2 f0 s3) _ _
    (M.yields_ofExcept _ _ _ _ (fun _ => hs2') hs2') ?_
  intro z s3 hs3
  exact push_yields 2 f0 s3 _ hs3

/-- The body of `OP_POP`: a pop, then `setVal`. -/
theorem popset_yields (flg : Flag) (ix : Nat) (f0 : Func) :
    M.yields (Func.pop >>= fun v => Func.setVal flg ix v) f0
      (fun _ s1 => Func.settled f0 s1) (Func.after 2 f0) := by
  refine M.yields_bind _ _ _ _ _ _
    (M.yields_mono _ _ _ _ _ _ (pop_yields 0 f0 f0 (Func.after_refl f0))
      (fun _ _ h => h) (fun _ h => Func.after_mono _ 2 _ _ (by omega) h)) ?_
  intro v s1 hs1
  exact setVal_yields 2 f0 s1 flg ix v (Func.after_mono _ 2 _ _ (by omega) hs1.1) hs1.2

/-- The body of `OP_TEST`: a pop, then at most a change of `pc`. -/
theorem test_yields (P : Prims) (ix : Nat) (f0 : Func) :
    M.yields (Func.test P ix) f0 (fun _ s1 => s1.proto = f0.proto ∧ s1.spOk)
      (Func.after 2 f0) := by
  unfold Func.test
  refine M.yields_bind _ _ _ _ _ _
    (M.yields_mono _ _ _ _ _ _ (pop_yields 0 f0 f0 (Func.after_refl f0))
      (fun _ _ h => h) (fun _ h => Func.after_mono _ 2 _ _ (by omega) h)) ?_
  intro v s1 hs1
  have hs1' : Func.after 2 f0 s1 ∧ s1.spOk :=
    ⟨Func.after_mono _ 2 _ _ (by omega) hs1.1, hs1.2⟩
  refine M.yields_bind _ _ _ (fun _ s3 => Func.after 2 f0 s3 ∧ s3.spOk) _ _
    (M.yields_ofExcept _ _ _ _ (fun _ => hs1') hs1'.1) ?_
  intro b s3 hs3
  cases b with
  | true => exact ⟨hs3.1.1, hs3.2⟩
  | false => exact ⟨hs3.1.1, hs3.2⟩

/-- Running a method on the object at `r`: the store it leaves is the old one
with the object replaced. -/
theorem Heap.onObj_yields {α : Type} (h : Heap) (r : Ref) (m : M Func α) (f : Func)
    (Q : α → Func → Prop) (Qf : Func → Prop) (hf : h[r]? = some f)
    (hm : M.yields m f Q Qf) :
    M.yields (Heap.onObj r m) h
      (fun a h1 => ∃ f1, h1 = h.set r f1 ∧ h1[r]? = some f1 ∧ Q a f1)
      (fun h1 => ∃ f1, h1 = h.set r f1 ∧ h1[r]? = some f1 ∧ Qf f1) := by
  unfold M.yields at hm ⊢
  unfold Heap.onObj
  simp only [hf]
  cases hmf : m f with
  | ok a f1 =>
    rw [hmf] at hm
    exact ⟨f1, rfl, Heap.get_set h r f f1 hf, hm⟩
  | fault e f1 =>
    rw [hmf] at hm
    exact ⟨f1, rfl, Heap.get_set h r f f1 hf, hm⟩
  | timeout =>
    rw [hmf] at hm
    exact hm

end Agora

namespace Agora

/-! ## Effects of one step on the activation -/

/-- The shape shared by the opcodes that only run a body on the object. -/
theorem local_effect (h0 : Heap) (r : Ref) (f0 : Func) (m : M Func Unit) (Q : Func → Prop)
    (hf : h0[r]? = some f0) (hm : M.yields m f0 (fun _ s1 => Q s1) (Func.after 2 f0)) :
    M.yields (Heap.onObj r m >>= fun _ => (pure none : M Heap (Option Val))) h0
      (fun res h1 => res = none ∧ ∃ f1, h1[r]? = some f1 ∧ Q f1)
      (fun h1 => ∃ f1, h1[r]? = some f1 ∧ Func.after 2 f0 f1) := by
  refine M.yields_bind _ _ _ _ _ _
    (M.yields_mono _ _ _ _ _ _ (Heap.onObj_yields h0 r m f0 _ _ hf hm)
      (fun _ _ h => h) (fun _ h => ?_)) ?_
  · obtain ⟨f1, _, hget, hq⟩ := h
    exact ⟨f1, hget, hq⟩
  · intro _ h1 hq
    obtain ⟨f1, _, hget, hq⟩ := hq
    exact ⟨rfl, f1, hget, hq⟩

/-- What the `switch` of the loop does to the activation, for every opcode
but `CALL`: only `RET` returns a value; the prototype stays; the stack pointer
invariant is kept when the step returns; `pc` is moved by `TEST`, `JMPB` and
`JMPF` alone; and when the step panics the activation is as before but for
the pops made so far, at most two. The step does not run out of fuel. -/
theorem exec_effect (P : Prims) (ctx : Ctx) (call : Ref → List Val → M Heap Val)
    (h0 : Heap) (r : Ref) (f0 : Func) (i : Instr) (hf : h0[r]? = some f0)
    (hnc : i.Opcode ≠ .OP_CALL) :
    M.yields (Func.exec P ctx call r i) h0
      (fun res h1 => ∃ f1, h1[r]? = some f1 ∧ f1.proto = f0.proto ∧
        (f0.spOk → f1.spOk) ∧
        (i.Opcode ≠ .OP_TEST → i.Opcode ≠ .OP_JMPB → i.Opcode ≠ .OP_JMPF → f1.pc = f0.pc) ∧
        (∀ v, res = some v → i.Opcode = .OP_RET))
      (fun h1 => ∃ f1, h1[r]? = some f1 ∧ Func.after 2 f0 f1) := by
  have hsettled : ∀ (o : Opcode) (m : M Func Unit),
      M.yields m f0 (fun _ s1 => Func.settled f0 s1) (Func.after 2 f0) →
      M.yields (Heap.onObj r m >>= fun _ => (pure none : M Heap (Option Val))) h0
        (fun res h1 => ∃ f1, h1[r]? = some f1 ∧ f1.proto = f0.proto ∧
          (f0.spOk → f1.spOk) ∧
          (o ≠ .OP_TEST → o ≠ .OP_JMPB → o ≠ .OP_JMPF → f1.pc = f0.pc) ∧
          (∀ v, res = some v → o = .OP_RET))
        (fun h1 => ∃ f1, h1[r]? = some f1 ∧ Func.after 2 f0 f1) := by
    intro o m hm
    refine M.yields_mono _ _ _ _ _ _ (local_effect h0 r f0 m _ hf hm) ?_ (fun _ h => h)
    rintro res h1 ⟨hres, f1, hget, hp, hpc, hok⟩
    exact ⟨f1, hget, hp, fun _ => hok, fun _ _ _ => hpc,
      fun v hv => by rw [hres] at hv; cases hv⟩
  have hjump : ∀ (o : Opcode) (m : M Func Unit), o = .OP_TEST ∨ o = .OP_JMPB ∨
      o = .OP_JMPF →
      M.yields m f0 (fun _ s1 => s1.proto = f0.proto ∧ (f0.spOk → s1.spOk))
        (Func.after 2 f0) →
      M.yields (Heap.onObj r m >>= fun _ => (pure none : M Heap (Option Val))) h0
        (fun res h1 => ∃ f1, h1[r]? = some f1 ∧ f1.proto = f0.proto ∧
          (f0.spOk → f1.spOk) ∧
          (o ≠ .OP_TEST → o ≠ .OP_JMPB → o ≠ .OP_JMPF → f1.pc = f0.pc) ∧
          (∀ v, res = some v → o = .OP_RET))
        (fun h1 => ∃ f1, h1[r]? = some f1 ∧ Func.after 2 f0 f1) := by
    intro o m hop hm
    refine M.yields_mono _ _ _ _ _ _ (local_effect h0 r f0 m _ hf hm) ?_ (fun _ h => h)
    rintro res h1 ⟨hres, f1, hget, hp, hok⟩
    refine ⟨f1, hget, hp, hok, fun h1 h2 h3 => ?_, fun v hv => by rw [hres] at hv; cases hv⟩
    rcases hop with hop | hop | hop
    · exact absurd hop h1
    · exact absurd hop h2
    · exact absurd hop h3
  unfold Func.exec
  cases hop : i.Opcode with
  | OP_RET =>
    refine M.yields_bind _ _ _ _ _ _
      (M.yields_mono _ _ _ _ _ _
        (Heap.onObj_yields h0 r _ f0 _ _ hf (pop_yields 0 f0 f0 (Func.after_refl f0)))
        (fun _ _ hq => hq) (fun h1 hq => ?_)) ?_
    · obtain ⟨f1, _, hget, ha⟩ := hq
      exact ⟨f1, hget, Func.after_mono _ 2 _ _ (by omega) ha⟩
    · rintro v h1 ⟨f1, _, hget, ha, hok⟩
      exact ⟨f1, hget, ha.1, fun _ => hok, fun _ _ _ => ha.2.1, fun _ _ => rfl⟩
  | OP_PUSH =>
    refine M.yields_bind _ _ _ (fun f h1 => f = f0 ∧ h1 = h0) _ _ ?_ ?_
    · unfold M.yields
      rw [Heap.read_ok h0 r f0 hf]
      exact ⟨rfl, rfl⟩
    · rintro f h1 ⟨rfl, rfl⟩
      refine M.yields_bind _ _ _ (fun _ h2 => h2[r]? = some f) _ _
        (M.yields_mono _ _ _ _ _ _ (getVal_yields P ctx f i.Flag i.Index h1)
          (fun _ _ hk => hk r f hf)
          (fun _ hk => ⟨f, hk r f hf, Func.after_mono _ 2 _ _ (by omega) (Func.after_refl f)⟩))
        ?_
      intro v h2 hf2
      refine M.yields_mono _ _ _ _ _ _
        (local_effect h2 r f (Func.push v) _ hf2
          (M.yields_mono _ _ _ _ _ _ (push_yields 0 f f v (Func.after_refl f))
            (fun _ _ hq => hq) (fun _ hq => Func.after_mono _ 2 _ _ (by omega) hq)))
        ?_ (fun _ hq => hq)
      rintro res h3 ⟨hres, f1, hget, hp, hpc, hok⟩
      exact ⟨f1, hget, hp, fun _ => hok, fun _ _ _ => hpc,
        fun v hv => by rw [hres] at hv; cases hv⟩
  | OP_POP => exact hsettled _ _ (popset_yields i.Flag i.Index f0)
  | OP_ADD => exact hsettled _ _ (binop_yields _ f0)
  | OP_SUB => exact hsettled _ _ (binop_yields _ f0)
  | OP_MUL => exact hsettled _ _ (binop_yields _ f0)
  | OP_DIV => exact hsettled _ _ (binop_yields _ f0)
  | OP_MOD => exact hsettled _ _ (binop_yields _ f0)
  | OP_POW => exact hsettled _ _ (binop_yields _ f0)
  | OP_NOT => exact hsettled _ _ (unop_yields _ f0)
  | OP_UNM => exact hsettled _ _ (unop_yields _ f0)
  | OP_CALL => exact absurd hop hnc
  | OP_LT => exact hsettled _ _ (cmpop_yields P _ f0)
  | OP_GT => exact hsettled _ _ (cmpop_yields P _ f0)
  | OP_TEST =>
    exact hjump _ _ (Or.inl rfl) (M.yields_mono _ _ _ _ _ _ (test_yields P i.Index f0)
      (fun _ _ hq => ⟨hq.1, fun _ => hq.2⟩) (fun _ hq => hq))
  | OP_JMPB => exact hjump _ (Func.jmpb i.Index) (Or.inr (Or.inl rfl)) ⟨rfl, fun hok => hok⟩
  | OP_JMPF => exact hjump _ (Func.jmpf i.Index) (Or.inr (Or.inr rfl)) ⟨rfl, fun hok => hok⟩
  | OP_DUMP =>
    exact ⟨f0, hf, rfl, fun hok => hok, fun _ _ _ => rfl, fun v hv => by cases hv⟩
  | other n =>
    exact ⟨f0, hf, Func.after_mono _ 2 _ _ (by omega) (Func.after_refl f0)⟩

end Agora

namespace Agora

theorem M.bind_inv_ok {σ α β : Type} (x : M σ α) (k : α → M σ β) (s s2 : σ) (b : β)
    (h : (x >>= k) s = .ok b s2) : ∃ a s1, x s = .ok a s1 ∧ k a s1 = .ok b s2 := by
  change M.bind x k s = .ok b s2 at h
  unfold M.bind at h
  cases hx : x s with
  | ok a s1 => rw [hx] at h; exact ⟨a, s1, rfl, h⟩
  | fault e s1 => rw [hx] at h; cases h
  | timeout => rw [hx] at h; cases h

theorem Heap.onObj_inv_ok {α : Type} (h h1 : Heap) (r : Ref) (m : M Func α) (a : α)
    (hr : Heap.onObj r m h = .ok a h1) :
    ∃ f f1, h[r]? = some f ∧ m f = .ok a f1 ∧ h1 = h.set r f1 ∧ h1[r]? = some f1 := by
  unfold Heap.onObj at hr
  cases hf : h[r]? with
  | none => rw [hf] at hr; cases hr
  | some f =>
    rw [hf] at hr
    simp only [] at hr
    cases hm : m f with
    | ok a1 f1 =>
      rw [hm] at hr
      cases hr
      exact ⟨f, f1, rfl, hm, rfl, Heap.get_set h r f f1 hf⟩
    | fault e f1 => rw [hm] at hr; cases hr
    | timeout => rw [hm] at hr; cases hr

/-- What one step does to the activation when the instruction at `pc` is not
a `CALL`; see `exec_effect`. A fetch that panics leaves the activation as it
was. -/
theorem step_effect (P : Prims) (ctx : Ctx) (call : Ref → List Val → M Heap Val)
    (h : Heap) (r : Ref) (f : Func) (hf : h[r]? = some f)
    (hnc : ∀ i, index f.proto.Code f.pc = some i → i.Opcode ≠ .OP_CALL) :
    M.yields (Func.step P ctx call r) h
      (fun res h1 => ∃ i f1, index f.proto.Code f.pc = some i ∧ h1[r]? = some f1 ∧
        f1.proto = f.proto ∧ (f.spOk → f1.spOk) ∧
        (i.Opcode ≠ .OP_TEST → i.Opcode ≠ .OP_JMPB → i.Opcode ≠ .OP_JMPF →
          f1.pc = wrapInt (f.pc + 1)) ∧
        (∀ v, res = some v → i.Opcode = .OP_RET))
      (fun h1 => ∃ f1, h1[r]? = some f1 ∧ f1.proto = f.proto ∧ f1.vars = f.vars ∧
        f1.stack.length = f.stack.length ∧ f.sp - 2 ≤ f1.sp ∧ f1.sp ≤ f.sp ∧
        (f1.pc = f.pc ∨ f1.pc = wrapInt (f.pc + 1))) := by
  unfold Func.step
  cases hi : index f.proto.Code f.pc with
  | none =>
    have hfetch : Func.fetch f = .fault .indexOutOfRange f := by simp [Func.fetch, hi]
    unfold M.yields
    rw [M.bind_fault _ _ _ _ _ (Heap.onObj_fault h r _ f f _ hf hfetch)]
    exact ⟨f, Heap.get_set h r f f hf, rfl, rfl, rfl, by omega, le_refl _, Or.inl rfl⟩
  | some i =>
    have hf0 := Heap.get_set h r f { f with pc := wrapInt (f.pc + 1) } hf
    have he := exec_effect P ctx call _ r _ i hf0 (hnc i hi)
    unfold M.yields
    rw [M.bind_ok _ _ _ _ _ (Heap.onObj_ok h r _ f _ i hf (Func.fetch_ok f i hi))]
    unfold M.yields at he
    cases hres : Func.exec P ctx call r i (h.set r { f with pc := wrapInt (f.pc + 1) }) with
    | ok res h1 =>
      rw [hres] at he
      obtain ⟨f1, hget, hp, hok, hpc, hret⟩ := he
      exact ⟨i, f1, rfl, hget, hp, hok, hpc, hret⟩
    | fault e h1 =>
      rw [hres] at he
      obtain ⟨f1, hget, hp, hpc, hv, hl, hs1, hs2⟩ := he
      exact ⟨f1, hget, hp, hv, hl, hs1, hs2, Or.inr hpc⟩
    | timeout =>
      rw [hres] at he
      exact he

/-- A `CALL` step that returns has ended with a push on the caller, which
leaves the stack pointer invariant true. -/
theorem exec_call_spOk (P : Prims) (ctx : Ctx) (call : Ref → List Val → M Heap Val)
    (h0 h1 : Heap) (r : Ref) (i : Instr) (res : Option Val) (hop : i.Opcode = .OP_CALL)
    (hr : Func.exec P ctx call r i h0 = .ok res h1) :
    ∃ f1, h1[r]? = some f1 ∧ f1.spOk := by
  unfold Func.exec at hr
  simp only [hop] at hr
  obtain ⟨x, ha, _, hr⟩ := M.bind_inv_ok _ _ _ _ _ hr
  cases x with
  | func fn =>
    simp only [] at hr
    obtain ⟨args, hb, _, hr⟩ := M.bind_inv_ok _ _ _ _ _ hr
    obtain ⟨v, hc, _, hr⟩ := M.bind_inv_ok _ _ _ _ _ hr
    obtain ⟨u, hd, hpush, hr⟩ := M.bind_inv_ok _ _ _ _ _ hr
    cases hr
    obtain ⟨f, f1, hf, hm, _, hget⟩ := Heap.onObj_inv_ok _ _ _ _ _ hpush
    refine ⟨f1, hget, ?_⟩
    have hy := push_yields 0 f f v (Func.after_refl f)
    exact (M.yields_ok _ _ _ _ _ _ hy hm).2.2
  | nil => cases hr
  | bool b => cases hr
  | int n => cases hr
  | float b => cases hr
  | string s => cases hr

end Agora

namespace Agora

/-! ## Faults, the stack pointer and the program counter -/

/-- An index that reads a slot is below the length. -/
theorem index_lt {α : Type} (xs : List α) (i : ℤ) (a : α) (h : index xs i = some a) :
    i < (xs.length : ℤ) := by
  have h0 := index_nonneg xs i a h
  unfold index at h
  simp only [not_lt.mpr h0, if_false] at h
  by_contra hge
  rw [List.getElem?_eq_none (by omega)] at h
  cases h

/-- A `CALL` step whose top of stack is not a `Func` panics after that one
pop. -/
theorem step_call_not_func (P : Prims) (ctx : Ctx) (call : Ref → List Val → M Heap Val)
    (h : Heap) (r : Ref) (f : Func) (i : Instr) (pre post : List Val) (x : Val)
    (hf : h[r]? = some f) (hi : index f.proto.Code f.pc = some i)
    (hop : i.Opcode = .OP_CALL) (hx : ∀ c, x ≠ Val.func c)
    (hst : f.stack = pre ++ x :: post) (hsp : f.sp = (pre.length : ℤ) + 1) :
    Func.step P ctx call r h = .fault .typeAssertion
      (h.set r { f with pc := wrapInt (f.pc + 1)
                        stack := pre ++ Val.nil :: post
                        sp := f.sp - 1 }) := by
  have hsp1 : f.sp - 1 = (pre.length : ℤ) := by omega
  have hf1 := Heap.get_set h r f { f with pc := wrapInt (f.pc + 1) } hf
  have hpop := Func.pop_split { f with pc := wrapInt (f.pc + 1) } pre post x hst hsp
  unfold Func.step
  rw [M.bind_ok _ _ _ _ _ (Heap.onObj_ok h r _ f _ i hf (Func.fetch_ok f i hi))]
  unfold Func.exec
  simp only [hop]
  rw [M.bind_ok _ _ _ _ _ (Heap.onObj_ok _ r _ _ _ _ hf1 hpop), hsp1]
  cases x with
  | func c => exact absurd rfl (hx c)
  | nil => simp [M.panic]
  | bool b => simp [M.panic]
  | int n => simp [M.panic]
  | float b => simp [M.panic]
  | string s => simp [M.panic]

end Agora

namespace Agora

/-- C15. Stack pointer invariant: `0 ≤ sp ≤ len(stack)` holds for the
activation `NewFunc` builds; on a state that satisfies it `push` returns and
keeps it, and so does `pop` when `sp > 0`; hence it holds for the activation
after every interpreter step that does not fault, whatever the opcode and
whatever a callee did. -/
theorem sp_invariant :
    (∀ p : FuncProto, (Func.fresh p).spOk) ∧
    (∀ (f : Func) (v : Val), f.spOk → ∃ f1 : Func, Func.push v f = .ok () f1 ∧ f1.spOk) ∧
    (∀ f : Func, f.spOk → 0 < f.sp →
      ∃ (v : Val) (f1 : Func), Func.pop f = .ok v f1 ∧ f1.spOk) ∧
    (∀ (P : Prims) (ctx : Ctx) (call : Ref → List Val → M Heap Val) (h h1 : Heap) (r : Ref)
      (f : Func) (res : Option Val), h[r]? = some f → f.spOk →
      Func.step P ctx call r h = .ok res h1 → ∃ f1 : Func, h1[r]? = some f1 ∧ f1.spOk) := by
  refine ⟨?_, ?_, ?_, ?_⟩
  · intro p
    exact ⟨le_refl _, by simp [Func.fresh]⟩
  · intro f v hok
    have hy := push_yields 0 f f v (Func.after_refl f)
    rcases push_cases f v with ⟨_, hp⟩ | ⟨_, _, hp⟩ | ⟨hne, hout, _⟩
    · exact ⟨_, hp, (M.yields_ok _ _ _ _ _ _ hy hp).2.2⟩
    · exact ⟨_, hp, (M.yields_ok _ _ _ _ _ _ hy hp).2.2⟩
    · exact absurd hok.2 (by have := hok.1; omega)
  · intro f hok hpos
    have hy := pop_yields 0 f f (Func.after_refl f)
    rcases pop_cases f with ⟨v, _, _, _, hp⟩ | ⟨hout, _⟩
    · exact ⟨v, _, hp, (M.yields_ok _ _ _ _ _ _ hy hp).2⟩
    · exact absurd hok.2 (by omega)
  · intro P ctx call h h1 r f res hf hok hstep
    by_cases hcall : ∃ i, index f.proto.Code f.pc = some i ∧ i.Opcode = .OP_CALL
    · obtain ⟨i, hi, hop⟩ := hcall
      unfold Func.step at hstep
      rw [M.bind_ok _ _ _ _ _ (Heap.onObj_ok h r _ f _ i hf (Func.fetch_ok f i hi))] at hstep
      exact exec_call_spOk P ctx call _ h1 r i res hop hstep
    · have hnc : ∀ i, index f.proto.Code f.pc = some i → i.Opcode ≠ .OP_CALL :=
        fun i hi hop => hcall ⟨i, hi, hop⟩
      obtain ⟨_, f1, _, hget, _, hsp, _, _⟩ :=
        M.yields_ok _ _ _ _ _ _ (step_effect P ctx call h r f hf hnc) hstep
      exact ⟨f1, hget, hsp hok⟩

/-- Witness of C15: a `PUSH` step on a fresh activation. -/
theorem sp_invariant_witness :
    [pushStart][0]? = some pushStart ∧ pushStart.spOk ∧
    Func.step samplePrims emptyCtx noCall 0 [pushStart] =
      .ok none [{ pushStart with pc := 1, stack := [Val.nil], sp := 1 }] ∧
    ∃ f1 : Func, [{ pushStart with pc := 1, stack := [Val.nil], sp := 1 }][0]? = some f1 ∧
      f1.spOk :=
  ⟨rfl, by decide, by decide,
    sp_invariant.2.2.2 samplePrims emptyCtx noCall [pushStart] _ 0 pushStart none rfl
      (by decide) (by decide)⟩

/-- C16, as the code has it. With a code sequence shorter than 2^63 and
`0 ≤ pc < len(instructions)`, the activation after one non-faulting step of
an instruction other than `TEST`, `JMPB`, `JMPF` and `CALL` has `pc` one
higher, so `0 ≤ pc ≤ len(instructions)` holds again. `JMPF` and `JMPB` set
`pc` to `p + 1 + index` and `p - index` (within the range of a Go `int`), and
`TEST` sets it to `p + 1 + index` on a false value, with no check against the
length of the code; a `pc` that is not an index makes the next step fault on
its fetch. -/
theorem step_pc_effect (P : Prims) (ctx : Ctx) (call : Ref → List Val → M Heap Val)
    (h : Heap) (r : Ref) (f : Func) (hf : h[r]? = some f) :
    (∀ (i : Instr) (res : Option Val) (h1 : Heap),
      index f.proto.Code f.pc = some i → (f.proto.Code.length : ℤ) < 2 ^ 63 →
      i.Opcode ≠ .OP_TEST → i.Opcode ≠ .OP_JMPB → i.Opcode ≠ .OP_JMPF →
      i.Opcode ≠ .OP_CALL → Func.step P ctx call r h = .ok res h1 →
      ∃ f1 : Func, h1[r]? = some f1 ∧ f1.proto = f.proto ∧ f1.pc = f.pc + 1 ∧
        0 ≤ f1.pc ∧ f1.pc ≤ (f1.proto.Code.length : ℤ)) ∧
    (∀ i : Instr, index f.proto.Code f.pc = some i → i.Opcode = .OP_JMPF →
      f.pc + 1 + (i.Index : ℤ) < 2 ^ 63 →
      Func.step P ctx call r h =
        .ok none (h.set r { f with pc := f.pc + 1 + (i.Index : ℤ) })) ∧
    (∀ i : Instr, index f.proto.Code f.pc = some i → i.Opcode = .OP_JMPB →
      f.pc + 1 < 2 ^ 63 → (i.Index : ℤ) + 1 < 2 ^ 63 →
      Func.step P ctx call r h = .ok none (h.set r { f with pc := f.pc - (i.Index : ℤ) })) ∧
    (∀ (i : Instr) (pre post : List Val) (v : Val),
      index f.proto.Code f.pc = some i → i.Opcode = .OP_TEST →
      f.stack = pre ++ v :: post → f.sp = (pre.length : ℤ) + 1 →
      Val.Bool P v = .ok false → f.pc + 1 + (i.Index : ℤ) < 2 ^ 63 →
      Func.step P ctx call r h =
        .ok none (h.set r { f with pc := f.pc + 1 + (i.Index : ℤ)
                                   stack := pre ++ Val.nil :: post
                                   sp := f.sp - 1 })) ∧
    (index f.proto.Code f.pc = none →
      Func.step P ctx call r h = .fault .indexOutOfRange (h.set r f)) := by
  refine ⟨?_, ?_, ?_, ?_, ?_⟩
  · intro i res h1 hi hlen h1' h2' h3' h4' hstep
    have hnc : ∀ j, index f.proto.Code f.pc = some j → j.Opcode ≠ .OP_CALL := by
      intro j hj
      rw [hi] at hj
      cases hj
      exact h4'
    obtain ⟨j, f1, hj, hget, hp, _, hpc, _⟩ :=
      M.yields_ok _ _ _ _ _ _ (step_effect P ctx call h r f hf hnc) hstep
    rw [hi] at hj
    cases hj
    have hp0 := index_nonneg _ _ _ hi
    have hplt := index_lt _ _ _ hi
    have hw : wrapInt (f.pc + 1) = f.pc + 1 := wrapInt_of_range _ (by omega) (by omega)
    have hpc1 : f1.pc = f.pc + 1 := by rw [hpc h1' h2' h3', hw]
    exact ⟨f1, hget, hp, hpc1, by omega, by rw [hp, hpc1]; omega⟩
  · intro i hi hop hrange
    have hp0 := index_nonneg _ _ _ hi
    have hk0 : (0 : ℤ) ≤ (i.Index : ℤ) := Int.ofNat_nonneg _
    have hw1 : wrapInt (f.pc + 1) = f.pc + 1 := wrapInt_of_range _ (by omega) (by omega)
    have hwk : wrapInt (i.Index : ℤ) = (i.Index : ℤ) :=
      wrapInt_of_range _ (by omega) (by omega)
    have hw2 : wrapInt (f.pc + 1 + (i.Index : ℤ)) = f.pc + 1 + (i.Index : ℤ) :=
      wrapInt_of_range _ (by omega) (by omega)
    have hrun : Func.jmpf i.Index { f with pc := wrapInt (f.pc + 1) } =
        .ok () { f with pc := f.pc + 1 + (i.Index : ℤ) } := by
      simp only [Func.jmpf]
      rw [hw1, hwk, hw2]
    exact Func.step_local P ctx call h r f _ i _ hf hi (Or.inr (Or.inr ⟨hop, rfl⟩)) hrun
  · intro i hi hop hrange hk
    have hp0 := index_nonneg _ _ _ hi
    have hk0 : (0 : ℤ) ≤ (i.Index : ℤ) := Int.ofNat_nonneg _
    have hw1 : wrapInt (f.pc + 1) = f.pc + 1 := wrapInt_of_range _ (by omega) (by omega)
    have hwk : wrapInt (i.Index : ℤ) = (i.Index : ℤ) :=
      wrapInt_of_range _ (by omega) (by omega)
    have hwk1 : wrapInt ((i.Index : ℤ) + 1) = (i.Index : ℤ) + 1 :=
      wrapInt_of_range _ (by omega) (by omega)
    have hw2 : wrapInt (f.pc + 1 - ((i.Index : ℤ) + 1)) = f.pc - (i.Index : ℤ) := by
      rw [wrapInt_of_range _ (by omega) (by omega)]
      omega
    have hrun : Func.jmpb i.Index { f with pc := wrapInt (f.pc + 1) } =
        .ok () { f with pc := f.pc - (i.Index : ℤ) } := by
      simp only [Func.jmpb]
      rw [hw1, hwk, hwk1, hw2]
    exact Func.step_local P ctx call h r f _ i _ hf hi (Or.inr (Or.inl ⟨hop, rfl⟩)) hrun
  · intro i pre post v hi hop hst hsp hb hrange
    have hp0 := index_nonneg _ _ _ hi
    have hk0 : (0 : ℤ) ≤ (i.Index : ℤ) := Int.ofNat_nonneg _
    have hw1 : wrapInt (f.pc + 1) = f.pc + 1 := wrapInt_of_range _ (by omega) (by omega)
    have hwk : wrapInt (i.Index : ℤ) = (i.Index : ℤ) :=
      wrapInt_of_range _ (by omega) (by omega)
    have hw2 : wrapInt (f.pc + 1 + (i.Index : ℤ)) = f.pc + 1 + (i.Index : ℤ) :=
      wrapInt_of_range _ (by omega) (by omega)
    have hsp1 : f.sp - 1 = (pre.length : ℤ) := by omega
    have ht := test_body_ok P i.Index { f with pc := wrapInt (f.pc + 1) } pre post v false
      hst hsp hb
    rw [Func.step_local P ctx call h r f _ i _ hf hi (Or.inl ⟨hop, rfl⟩) ht]
    simp only [Bool.false_eq_true, if_false]
    rw [hw1, hwk, hw2, hsp1]
  · intro hi
    have hfetch : Func.fetch f = .fault .indexOutOfRange f := by simp [Func.fetch, hi]
    unfold Func.step
    rw [M.bind_fault _ _ _ _ _ (Heap.onObj_fault h r _ f f _ hf hfetch)]

/-- Witness of the amended C16: a `PUSH` at position 0 of a two-instruction
sequence leaves `pc = 1`; `JMPF 5` at position 0 of a one-instruction sequence
leaves `pc = 6`. -/
theorem step_pc_effect_witness :
    (∃ f1 : Func, [{ pushStart with pc := 1, stack := [Val.nil], sp := 1 }][0]? = some f1 ∧
      f1.proto = pushStart.proto ∧ f1.pc = pushStart.pc + 1 ∧ 0 ≤ f1.pc ∧
      f1.pc ≤ (f1.proto.Code.length : ℤ)) ∧
    Func.step samplePrims emptyCtx noCall 0 [jmpfStart] =
      .ok none [{ jmpfStart with pc := 6 }] :=
  ⟨(step_pc_effect samplePrims emptyCtx noCall [pushStart] 0 pushStart rfl).1
      (instr .OP_PUSH .FLG_N 0) none _ rfl (by decide) (by decide) (by decide) (by decide)
      (by decide) (by decide),
    (step_pc_effect samplePrims emptyCtx noCall [jmpfStart] 0 jmpfStart rfl).2.1
      (instr .OP_JMPF .FLG_N 5) rfl rfl (by decide)⟩

/-- C16 as stated fails: `JMPF 5` at position 0 of a one-instruction sequence
does not fault, and afterwards `pc` is not in `0 .. len(instructions)`. -/
theorem step_jmpf_leaves_code :
    ¬ ∃ (h1 : Heap) (f1 : Func),
      Func.step samplePrims emptyCtx noCall 0 [jmpfStart] = .ok none h1 ∧
      h1[0]? = some f1 ∧ 0 ≤ f1.pc ∧ f1.pc ≤ (f1.proto.Code.length : ℤ) := by
  rintro ⟨h1, f1, hstep, hf1, _, hpc⟩
  have hcode : Func.step samplePrims emptyCtx noCall 0 [jmpfStart] =
      .ok none [{ jmpfStart with pc := 6 }] := by decide
  rw [hcode] at hstep
  cases hstep
  simp at hf1
  subst hf1
  exact absurd hpc (by decide)

end Agora

namespace Agora

/-! ## More fuel does not change an outcome -/

theorem M.below_refl {σ α : Type} (m : M σ α) : M.below m m := fun _ => Or.inr rfl

theorem M.below_trans {σ α : Type} (m1 m2 m3 : M σ α) (h12 : M.below m1 m2)
    (h23 : M.below m2 m3) : M.below m1 m3 := by
  intro s
  rcases h12 s with h | h
  · exact Or.inl h
  · rcases h23 s with h' | h'
    · exact Or.inl (by rw [h, h'])
    · exact Or.inr (by rw [h, h'])

theorem M.below_bind {σ α β : Type} (x x1 : M σ α) (k k1 : α → M σ β)
    (hx : M.below x x1) (hk : ∀ a, M.below (k a) (k1 a)) :
    M.below (x >>= k) (x1 >>= k1) := by
  intro s
  show M.bind x k s = .timeout ∨ M.bind x k s = M.bind x1 k1 s
  unfold M.bind
  rcases hx s with h | h
  · left
    rw [h]
  · rw [← h]
    cases hxs : x s with
    | ok a s1 => exact hk a s1
    | fault e s1 => exact Or.inr rfl
    | timeout => exact Or.inl rfl

/-- A result that is not a timeout is kept by every computation above. -/
theorem M.below_ok {σ α : Type} (m1 m2 : M σ α) (s s1 : σ) (a : α) (h : M.below m1 m2)
    (hr : m1 s = .ok a s1) : m2 s = .ok a s1 := by
  rcases h s with h | h
  · rw [hr] at h; cases h
  · rw [← h, hr]

theorem exec_below (P : Prims) (ctx : Ctx) (call call1 : Ref → List Val → M Heap Val)
    (r : Ref) (i : Instr) (hc : ∀ c args, M.below (call c args) (call1 c args)) :
    M.below (Func.exec P ctx call r i) (Func.exec P ctx call1 r i) := by
  unfold Func.exec
  cases i.Opcode with
  | OP_CALL =>
    refine M.below_bind _ _ _ _ (M.below_refl _) ?_
    intro x
    cases x with
    | func fn =>
      refine M.below_bind _ _ _ _ (M.below_refl _) ?_
      intro args
      exact M.below_bind _ _ _ _ (hc fn args) (fun _ => M.below_refl _)
    | nil => exact M.below_refl _
    | bool b => exact M.below_refl _
    | int n => exact M.below_refl _
    | float b => exact M.below_refl _
    | string s => exact M.below_refl _
  | OP_RET => exact M.below_refl _
  | OP_PUSH => exact M.below_refl _
  | OP_POP => exact M.below_refl _
  | OP_ADD => exact M.below_refl _
  | OP_SUB => exact M.below_refl _
  | OP_MUL => exact M.below_refl _
  | OP_DIV => exact M.below_refl _
  | OP_MOD => exact M.below_refl _
  | OP_POW => exact M.below_refl _
  | OP_NOT => exact M.below_refl _
  | OP_UNM => exact M.below_refl _
  | OP_LT => exact M.below_refl _
  | OP_GT => exact M.below_refl _
  | OP_TEST => exact M.below_refl _
  | OP_JMPB => exact M.below_refl _
  | OP_JMPF => exact M.below_refl _
  | OP_DUMP => exact M.below_refl _
  | other n => exact M.below_refl _

theorem step_below (P : Prims) (ctx : Ctx) (call call1 : Ref → List Val → M Heap Val)
    (r : Ref) (hc : ∀ c args, M.below (call c args) (call1 c args)) :
    M.below (Func.step P ctx call r) (Func.step P ctx call1 r) := by
  unfold Func.step
  exact M.below_bind _ _ _ _ (M.below_refl _) (fun i => exec_below P ctx call call1 r i hc)

theorem Call_below (ctx : Ctx) (loop loop1 : Ref → M Heap Val) (r : Ref) (args : List Val)
    (hl : ∀ c, M.below (loop c) (loop1 c)) :
    M.below (Func.Call ctx loop r args) (Func.Call ctx loop1 r args) := by
  unfold Func.Call
  refine M.below_bind _ _ _ _ (M.below_refl _) ?_
  intro f
  by_cases hn : f.proto.IsNative = true
  · simp only [hn, if_true]
    exact M.below_refl _
  · simp only [hn, if_false]
    unfold Func.callVM
    exact M.below_bind _ _ _ _ (M.below_refl _) (fun _ => hl r)

theorem loop_below_succ (P : Prims) (ctx : Ctx) (n : Nat) :
    ∀ r, M.below (Func.loop P ctx n r) (Func.loop P ctx (n + 1) r) := by
  induction n with
  | zero =>
    intro r s
    exact Or.inl rfl
  | succ n ih =>
    intro r
    show M.below
      (Func.step P ctx (Func.Call ctx (Func.loop P ctx n)) r >>= fun res =>
        match res with
        | some v => pure v
        | none => Func.loop P ctx n r)
      (Func.step P ctx (Func.Call ctx (Func.loop P ctx (n + 1))) r >>= fun res =>
        match res with
        | some v => pure v
        | none => Func.loop P ctx (n + 1) r)
    refine M.below_bind _ _ _ _
      (step_below P ctx _ _ r (fun c args => Call_below ctx _ _ c args ih)) ?_
    intro res
    cases res with
    | some v => exact M.below_refl _
    | none => exact ih r

theorem loop_below (P : Prims) (ctx : Ctx) (n m : Nat) (hnm : n ≤ m) :
    ∀ r, M.below (Func.loop P ctx n r) (Func.loop P ctx m r) := by
  induction m with
  | zero =>
    intro r
    have : n = 0 := by omega
    subst this
    exact M.below_refl _
  | succ m ih =>
    intro r
    by_cases h : n = m + 1
    · subst h
      exact M.below_refl _
    · exact M.below_trans _ _ _ (ih (by omega) r) (loop_below_succ P ctx m r)

/-- A step that returns or goes on with the calls bounded by `n` does the same
with any larger bound. -/
theorem step_fuel_mono (P : Prims) (ctx : Ctx) (n m : Nat) (hnm : n ≤ m) (r : Ref)
    (h h1 : Heap) (res : Option Val)
    (hs : Func.step P ctx (Func.Call ctx (Func.loop P ctx n)) r h = .ok res h1) :
    Func.step P ctx (Func.Call ctx (Func.loop P ctx m)) r h = .ok res h1 :=
  M.below_ok _ _ _ _ _
    (step_below P ctx _ _ r
      (fun c args => Call_below ctx _ _ c args (loop_below P ctx n m hnm))) hs

end Agora

namespace Agora

/-! ## Returning from the loop -/

theorem pop_top (f : Func) (v : Val) (htop : index f.stack (f.sp - 1) = some v) :
    Func.pop f = .ok v
      { f with stack := f.stack.set (f.sp - 1).toNat Val.nil, sp := f.sp - 1 } := by
  simp only [Func.pop, htop]

theorem pop_ok_inv (f f1 : Func) (v : Val) (hp : Func.pop f = .ok v f1) :
    index f.stack (f.sp - 1) = some v ∧
    f1 = { f with stack := f.stack.set (f.sp - 1).toNat Val.nil, sp := f.sp - 1 } := by
  simp only [Func.pop] at hp
  cases htop : index f.stack (f.sp - 1) with
  | none => rw [htop] at hp; cases hp
  | some w =>
    rw [htop] at hp
    cases hp
    exact ⟨rfl, rfl⟩

/-- A step at a `RET` with `v` on top of the stack returns `v`. -/
theorem step_ret (P : Prims) (ctx : Ctx) (call : Ref → List Val → M Heap Val)
    (h : Heap) (r : Ref) (f : Func) (i : Instr) (v : Val)
    (hf : h[r]? = some f) (hi : index f.proto.Code f.pc = some i)
    (hop : i.Opcode = .OP_RET) (htop : index f.stack (f.sp - 1) = some v) :
    Func.step P ctx call r h = .ok (some v) (h.set r f.returned) := by
  have hf1 := Heap.get_set h r f { f with pc := wrapInt (f.pc + 1) } hf
  have hpop := pop_top { f with pc := wrapInt (f.pc + 1) } v htop
  unfold Func.step
  rw [M.bind_ok _ _ _ _ _ (Heap.onObj_ok h r _ f _ i hf (Func.fetch_ok f i hi))]
  unfold Func.exec
  simp only [hop]
  rw [M.bind_ok _ _ _ _ _ (Heap.onObj_ok _ r _ _ _ _ hf1 hpop)]
  simp [M.pure_apply, Func.returned]

/-- A `CALL` step that does not fault goes on with the loop. -/
theorem exec_call_none (P : Prims) (ctx : Ctx) (call : Ref → List Val → M Heap Val)
    (h0 h1 : Heap) (r : Ref) (i : Instr) (res : Option Val) (hop : i.Opcode = .OP_CALL)
    (hr : Func.exec P ctx call r i h0 = .ok res h1) : res = none := by
  unfold Func.exec at hr
  simp only [hop] at hr
  obtain ⟨x, ha, _, hr⟩ := M.bind_inv_ok _ _ _ _ _ hr
  cases x with
  | func fn =>
    simp only [] at hr
    obtain ⟨args, hb, _, hr⟩ := M.bind_inv_ok _ _ _ _ _ hr
    obtain ⟨v, hc, _, hr⟩ := M.bind_inv_ok _ _ _ _ _ hr
    obtain ⟨u, hd, _, hr⟩ := M.bind_inv_ok _ _ _ _ _ hr
    cases hr
    rfl
  | nil => cases hr
  | bool b => cases hr
  | int n => cases hr
  | float b => cases hr
  | string s => cases hr

/-- A step returns a value only at a `RET`, and the value is the one on top
of the stack. -/
theorem step_some_inv (P : Prims) (ctx : Ctx) (call : Ref → List Val → M Heap Val)
    (h h1 : Heap) (r : Ref) (v : Val)
    (hs : Func.step P ctx call r h = .ok (some v) h1) :
    ∃ f i, h[r]? = some f ∧ index f.proto.Code f.pc = some i ∧ i.Opcode = .OP_RET ∧
      index f.stack (f.sp - 1) = some v ∧ h1 = h.set r f.returned := by
  unfold Func.step at hs
  obtain ⟨i, h0, hfetch, hexec⟩ := M.bind_inv_ok _ _ _ _ _ hs
  obtain ⟨f, f0, hf, hfe, hh0, hf0⟩ := Heap.onObj_inv_ok _ _ _ _ _ hfetch
  have hi : index f.proto.Code f.pc = some i ∧ f0 = { f with pc := wrapInt (f.pc + 1) } := by
    simp only [Func.fetch] at hfe
    cases hidx : index f.proto.Code f.pc with
    | none => rw [hidx] at hfe; cases hfe
    | some j =>
      rw [hidx] at hfe
      cases hfe
      exact ⟨rfl, rfl⟩
  have hop : i.Opcode = .OP_RET := by
    by_cases hcall : i.Opcode = .OP_CALL
    · have := exec_call_none P ctx call h0 h1 r i _ hcall hexec
      cases this
    · obtain ⟨_, _, _, _, _, hret⟩ :=
        M.yields_ok _ _ _ _ _ _ (exec_effect P ctx call h0 r f0 i hf0 hcall) hexec
      exact hret v rfl
  unfold Func.exec at hexec
  simp only [hop] at hexec
  obtain ⟨w, h2, hpop, hpure⟩ := M.bind_inv_ok _ _ _ _ _ hexec
  cases hpure
  obtain ⟨g, g1, hg, hpg, hh2, _⟩ := Heap.onObj_inv_ok _ _ _ _ _ hpop
  rw [hf0] at hg
  cases hg
  obtain ⟨htop, hg1⟩ := pop_ok_inv _ _ _ hpg
  rw [hi.2] at htop hg1
  refine ⟨f, i, hf, hi.1, hop, htop, ?_⟩
  rw [hh2, hh0, List.set_set, hg1]
  rfl

/-- An execution that reaches a store where the instruction at `pc` is a `RET`
with `v` on top of the stack returns `v`, for every bound on the number of
iterations from some bound on. -/
theorem loop_reaches_ret (P : Prims) (ctx : Ctx) (r : Ref) (h h0 : Heap)
    (hreach : Func.Reaches P ctx r h h0) :
    ∀ (f : Func) (i : Instr) (v : Val), h0[r]? = some f →
      index f.proto.Code f.pc = some i → i.Opcode = .OP_RET →
      index f.stack (f.sp - 1) = some v →
      ∃ N, ∀ m, N ≤ m → Func.loop P ctx m r h = .ok v (h0.set r f.returned) := by
  induction hreach with
  | here h =>
    intro f i v hf hi hop htop
    refine ⟨1, fun m hm => ?_⟩
    obtain ⟨k, rfl⟩ : ∃ k, m = k + 1 := ⟨m - 1, by omega⟩
    exact Func.loop_return P ctx k r h _ v (step_ret P ctx _ h r f i v hf hi hop htop)
  | next n h h1 h2 hstep _ ih =>
    intro f i v hf hi hop htop
    obtain ⟨N, hN⟩ := ih f i v hf hi hop htop
    refine ⟨max n N + 1, fun m hm => ?_⟩
    obtain ⟨k, rfl⟩ : ∃ k, m = k + 1 := ⟨m - 1, by omega⟩
    have hkn : n ≤ k := by omega
    have hkN : N ≤ k := by omega
    rw [Func.loop_continue P ctx k r h h1 (step_fuel_mono P ctx n k hkn r h h1 none hstep)]
    exact hN k hkN

/-- A loop that returns `v` has reached a store where the instruction at `pc`
is a `RET` with `v` on top of the stack, and has returned there. -/
theorem loop_ok_inv (P : Prims) (ctx : Ctx) (r : Ref) (n : Nat) :
    ∀ (h h1 : Heap) (v : Val), Func.loop P ctx n r h = .ok v h1 →
      ∃ (h0 : Heap) (f : Func) (i : Instr), Func.Reaches P ctx r h h0 ∧ h0[r]? = some f ∧
        index f.proto.Code f.pc = some i ∧ i.Opcode = .OP_RET ∧
        index f.stack (f.sp - 1) = some v ∧ h1 = h0.set r f.returned := by
  induction n with
  | zero =>
    intro h h1 v hl
    cases hl
  | succ n ih =>
    intro h h1 v hl
    change (Func.step P ctx (Func.Call ctx (Func.loop P ctx n)) r >>= fun res =>
        match res with
        | some v => pure v
        | none => Func.loop P ctx n r) h = .ok v h1 at hl
    obtain ⟨res, h2, hstep, hrest⟩ := M.bind_inv_ok _ _ _ _ _ hl
    cases res with
    | some w =>
      cases hrest
      obtain ⟨f, i, hf, hi, hop, htop, hh1⟩ := step_some_inv P ctx _ h h1 r v hstep
      exact ⟨h, f, i, Func.Reaches.here h, hf, hi, hop, htop, hh1⟩
    | none =>
      obtain ⟨h0, f, i, hreach, hf, hi, hop, htop, hh1⟩ := ih h2 h1 v hrest
      exact ⟨h0, f, i, Func.Reaches.next n h h2 h0 hstep hreach, hf, hi, hop, htop, hh1⟩

end Agora

namespace Agora

/-- C13. `RET` is where `callVM` returns, and what it returns is the top of the
stack. (1) When the execution that `callVM` starts, after binding the
arguments, reaches without a fault a store where the instruction at `pc` is a
`RET` with `v` on top of the stack, `callVM` terminates there and yields `v`,
for every bound on the iterations from some bound on. (2) A loop that returns
`v` returns the same `v` and store under every larger bound, and it has
reached a `RET` with `v` on top of the stack. (3) A single step returns a
value only when its instruction is a `RET`. -/
theorem ret_terminates (P : Prims) (ctx : Ctx) (r : Ref) :
    (∀ (args : List Val) (h h0 : Heap) (fa fb f : Func) (i : Instr) (v : Val),
      h[r]? = some fa → Func.bindArgs args fa = .ok () fb →
      Func.Reaches P ctx r (h.set r fb) h0 → h0[r]? = some f →
      index f.proto.Code f.pc = some i → i.Opcode = .OP_RET →
      index f.stack (f.sp - 1) = some v →
      ∃ N, ∀ m, N ≤ m →
        Func.callVM (Func.loop P ctx m) r args h = .ok v (h0.set r f.returned)) ∧
    (∀ (n : Nat) (h h1 : Heap) (v : Val), Func.loop P ctx n r h = .ok v h1 →
      (∀ m, n ≤ m → Func.loop P ctx m r h = .ok v h1) ∧
      ∃ (h0 : Heap) (f : Func) (i : Instr), Func.Reaches P ctx r h h0 ∧ h0[r]? = some f ∧
        index f.proto.Code f.pc = some i ∧ i.Opcode = .OP_RET ∧
        index f.stack (f.sp - 1) = some v ∧ h1 = h0.set r f.returned) ∧
    (∀ (call : Ref → List Val → M Heap Val) (h h1 : Heap) (v : Val),
      Func.step P ctx call r h = .ok (some v) h1 →
      ∃ f i, h[r]? = some f ∧ index f.proto.Code f.pc = some i ∧ i.Opcode = .OP_RET ∧
        index f.stack (f.sp - 1) = some v ∧ h1 = h.set r f.returned) := by
  refine ⟨?_, ?_, ?_⟩
  · intro args h h0 fa fb f i v hfa hbind hreach hf hi hop htop
    obtain ⟨N, hN⟩ := loop_reaches_ret P ctx r _ h0 hreach f i v hf hi hop htop
    refine ⟨N, fun m hm => ?_⟩
    unfold Func.callVM
    rw [M.bind_ok _ _ _ _ _ (Heap.onObj_ok h r _ fa fb () hfa hbind)]
    exact hN m hm
  · intro n h h1 v hl
    exact ⟨fun m hm => M.below_ok _ _ _ _ _ (loop_below P ctx n m hm r) hl,
      loop_ok_inv P ctx r n h h1 v hl⟩
  · intro call h h1 v hs
    exact step_some_inv P ctx call h h1 r v hs

/-- Witness of C13: `callVM` on `[PUSH N, RET]` reaches the `RET` after one
step and returns `Nil`. -/
theorem ret_terminates_witness :
    ∃ N, ∀ m, N ≤ m →
      Func.callVM (Func.loop samplePrims emptyCtx m) 0 [] [pushStart] =
        .ok Val.nil ([pushedStart].set 0 pushedStart.returned) :=
  (ret_terminates samplePrims emptyCtx 0).1 [] [pushStart] [pushedStart] pushStart pushStart
    pushedStart (instr .OP_RET .FLG_N 0) Val.nil rfl (by decide)
    (Func.Reaches.next 0 _ _ _ (by decide) (Func.Reaches.here _)) rfl rfl rfl rfl

end Agora

namespace Agora

/-! ## A callee that runs its caller -/

/-- The call `g.Call(f)` made by `f` at its `CALL`, where `g` calls its
argument: the nested call of `f` runs on the object of the caller itself, from
the `pc` the caller has reached, and returns `Nil`. -/
theorem reenter_callee_returns :
    Func.Call reenterCtx (Func.loop samplePrims reenterCtx 6) 1 [Val.func 0]
        [reenterAt 3 [Val.func 0] [Val.nil, Val.nil] 0, Func.fresh applyProto] =
      .ok Val.nil
        [reenterAt 5 [Val.func 0] [Val.nil, Val.nil] 0, applyAt 3 [Val.func 0] [Val.nil] 0] := by
  have hinner : Func.Call reenterCtx (Func.loop samplePrims reenterCtx 4) 0 []
      [reenterAt 3 [Val.func 0] [Val.nil, Val.nil] 0, applyAt 2 [Val.func 0] [Val.nil] 0] =
      .ok Val.nil
        [reenterAt 5 [Val.func 0] [Val.nil, Val.nil] 0, applyAt 2 [Val.func 0] [Val.nil] 0] := by
    rw [Func.Call_vm reenterCtx _ 0 [] _ (reenterAt 3 [Val.func 0] [Val.nil, Val.nil] 0)
      (reenterAt 3 [Val.func 0] [Val.nil, Val.nil] 0) rfl rfl (by decide)]
    rw [Func.loop_continue _ _ 3 0 _
      [reenterAt 4 [Val.func 0] [Val.nil, Val.nil] 1, applyAt 2 [Val.func 0] [Val.nil] 0]
      (by decide)]
    exact Func.loop_return _ _ 2 0 _ _ _ (by decide)
  rw [Func.Call_vm reenterCtx _ 1 [Val.func 0] _ (Func.fresh applyProto)
    (applyAt 0 [Val.func 0] [] 0) rfl rfl (by decide)]
  rw [Func.loop_continue _ _ 5 1 _
    [reenterAt 3 [Val.func 0] [Val.nil, Val.nil] 0, applyAt 1 [Val.func 0] [Val.func 0] 1]
    (by decide)]
  rw [Func.loop_continue _ _ 4 1 _
    [reenterAt 5 [Val.func 0] [Val.nil, Val.nil] 0, applyAt 2 [Val.func 0] [Val.nil] 1]
    (Func.step_call_ok _ _ _
      [reenterAt 3 [Val.func 0] [Val.nil, Val.nil] 0, applyAt 1 [Val.func 0] [Val.func 0] 1]
      [reenterAt 5 [Val.func 0] [Val.nil, Val.nil] 0, applyAt 2 [Val.func 0] [Val.nil] 0]
      _ 1 (applyAt 1 [Val.func 0] [Val.func 0] 1)
      (applyAt 2 [Val.func 0] [Val.nil] 0)
      (applyAt 2 [Val.func 0] [Val.nil] 1)
      (instr .OP_CALL .FLG_N 0) 0 [] [] [] Val.nil rfl rfl rfl rfl rfl rfl hinner rfl
      (by decide) rfl)]
  exact Func.loop_return _ _ 3 1 _ _ _ (by decide)

/-- The `CALL` step of the caller `f` on the callee `g`, a different object:
the call returns `Nil`, yet the step leaves the caller at `pc = 5`. -/
theorem reenter_call_step :
    Func.step samplePrims reenterCtx
        (Func.Call reenterCtx (Func.loop samplePrims reenterCtx 6)) 0
        [reenterAt 2 [Val.func 0] [Val.func 0, Val.func 1] 2, Func.fresh applyProto] =
      .ok none
        [reenterAt 5 [Val.func 0] [Val.nil, Val.nil] 1, applyAt 3 [Val.func 0] [Val.nil] 0] :=
  Func.step_call_ok _ _ _
    [reenterAt 2 [Val.func 0] [Val.func 0, Val.func 1] 2, Func.fresh applyProto]
    [reenterAt 5 [Val.func 0] [Val.nil, Val.nil] 0, applyAt 3 [Val.func 0] [Val.nil] 0]
    _ 0 (reenterAt 2 [Val.func 0] [Val.func 0, Val.func 1] 2)
    (reenterAt 5 [Val.func 0] [Val.nil, Val.nil] 0)
    (reenterAt 5 [Val.func 0] [Val.nil, Val.nil] 1)
    (instr .OP_CALL .FLG_N 1) 1 [] [] [Val.func 0] Val.nil rfl rfl rfl rfl rfl rfl
    reenter_callee_returns rfl (by decide) rfl

/-- The host call `f.Call(f)` on a fresh `f` reaches that `CALL` step and
panics right after it, on the fetch at `pc = 5`. -/
theorem reenter_run_faults :
    Func.run samplePrims reenterCtx 9 0 [Val.func 0] [Func.fresh reenterProto] =
      .fault .indexOutOfRange
        [reenterAt 5 [Val.func 0] [Val.nil, Val.nil] 1, applyAt 3 [Val.func 0] [Val.nil] 0] := by
  rw [Func.run_vm samplePrims reenterCtx 9 0 [Val.func 0] _ (Func.fresh reenterProto)
    (reenterAt 0 [Val.func 0] [] 0) rfl rfl (by decide)]
  rw [Func.loop_continue _ _ 8 0 _ [reenterAt 1 [Val.func 0] [Val.func 0] 1] (by decide)]
  rw [Func.loop_continue _ _ 7 0 _
    [reenterAt 2 [Val.func 0] [Val.func 0, Val.func 1] 2, Func.fresh applyProto] (by decide)]
  rw [Func.loop_continue _ _ 6 0 _ _ reenter_call_step]
  exact Func.loop_fault _ _ 5 0 _ _ _ (by decide)

theorem tail_replicate_append {α : Type} (n : Nat) (a : α) (post : List α) :
    (List.replicate n a ++ a :: post).tail = List.replicate n a ++ post := by
  have : List.replicate n a ++ a :: post = a :: (List.replicate n a ++ post) := by
    rw [← List.singleton_append, ← List.append_assoc, ← List.replicate_succ',
      List.replicate_succ, List.cons_append]
  rw [this, List.tail_cons]

/-- A `CALL` step whose call returns `v` and leaves the caller's object as it
found it: the caller's variables are unchanged, `pc` is advanced by the fetch
alone, `sp` is lower by the number of arguments, the slots below the
arguments are unchanged and `v` is on top. -/
theorem step_call_isolated (P : Prims) (ctx : Ctx) (call : Ref → List Val → M Heap Val)
    (h h2 : Heap) (r : Ref) (f : Func) (i : Instr) (c : Ref)
    (pre post args : List Val) (v : Val)
    (hf : h[r]? = some f) (hi : index f.proto.Code f.pc = some i)
    (hop : i.Opcode = .OP_CALL) (hn : i.Index = args.length)
    (hst : f.stack = pre ++ args ++ Val.func c :: post)
    (hsp : f.sp = (pre.length : ℤ) + args.length + 1)
    (hcall : call c args
      (h.set r { f with pc := wrapInt (f.pc + 1)
                        stack := pre ++ List.replicate args.length Val.nil ++ Val.nil :: post
                        sp := (pre.length : ℤ) }) = .ok v h2)
    (hsame : h2[r]? = some
      { f with pc := wrapInt (f.pc + 1)
               stack := pre ++ List.replicate args.length Val.nil ++ Val.nil :: post
               sp := (pre.length : ℤ) }) :
    Func.step P ctx call r h = .ok none (h2.set r
      { f with pc := wrapInt (f.pc + 1)
               stack := pre ++ v :: (List.replicate args.length Val.nil ++ post)
               sp := f.sp - (args.length : ℤ) }) := by
  have hpush := Func.push_split
    { f with pc := wrapInt (f.pc + 1)
             stack := pre ++ List.replicate args.length Val.nil ++ Val.nil :: post
             sp := (pre.length : ℤ) }
    pre (List.replicate args.length Val.nil ++ Val.nil :: post) v (by simp) rfl
  rw [tail_replicate_append] at hpush
  have hsp1 : f.sp - (args.length : ℤ) = (pre.length : ℤ) + 1 := by omega
  rw [hsp1]
  exact Func.step_call_ok P ctx call h h2 _ r f _ _ i c pre post args v hf hi hop hn hst hsp
    hcall hsame hpush rfl

/-- C18, evaluated. The caller `f` executes `CALL 1` at position 2 on the
callee `g`, a different `Func` value, with `f` itself as the argument; `g`
calls its argument. The call returns `Nil` and the `CALL` step does not fault,
but the caller's `pc` after it is 5, not 3: the nested call ran on the
caller's own object. The state is the one the host call `f.Call(f)` reaches,
and that call then panics on the fetch at `pc = 5`. -/
theorem call_reenters_caller :
    Func.step samplePrims reenterCtx
        (Func.Call reenterCtx (Func.loop samplePrims reenterCtx 6)) 0
        [reenterAt 2 [Val.func 0] [Val.func 0, Val.func 1] 2, Func.fresh applyProto] =
      .ok none
        [reenterAt 5 [Val.func 0] [Val.nil, Val.nil] 1, applyAt 3 [Val.func 0] [Val.nil] 0] ∧
    Func.Call reenterCtx (Func.loop samplePrims reenterCtx 6) 1 [Val.func 0]
        [reenterAt 3 [Val.func 0] [Val.nil, Val.nil] 0, Func.fresh applyProto] =
      .ok Val.nil
        [reenterAt 5 [Val.func 0] [Val.nil, Val.nil] 0, applyAt 3 [Val.func 0] [Val.nil] 0] ∧
    (reenterAt 5 [Val.func 0] [Val.nil, Val.nil] 1).pc ≠
      (reenterAt 2 [Val.func 0] [Val.func 0, Val.func 1] 2).pc + 1 ∧
    Func.run samplePrims reenterCtx 9 0 [Val.func 0] [Func.fresh reenterProto] =
      .fault .indexOutOfRange
        [reenterAt 5 [Val.func 0] [Val.nil, Val.nil] 1, applyAt 3 [Val.func 0] [Val.nil] 0] :=
  ⟨reenter_call_step, reenter_callee_returns, by decide, reenter_run_faults⟩

end Agora

namespace Agora

/-! ## The exact state after a fault -/

theorem Func.popped_refl (f : Func) : Func.popped 0 f f := by
  refine ⟨rfl, rfl, rfl, by omega, rfl, fun n _ => ?_⟩
  have : ¬ (f.sp ≤ (n : ℤ) ∧ (n : ℤ) < f.sp) := by omega
  rw [if_neg this]

/-- One more pop after `k` attempted pops: when it returns, slot `sp - 1` was
a slot; when it panics, it was not. -/
theorem pop_popped (k : ℤ) (f0 s : Func) (hk : 0 ≤ k) (hs : Func.popped k f0 s) :
    M.yields Func.pop s
      (fun _ s1 => Func.popped (k + 1) f0 s1 ∧ (index s.stack (s.sp - 1)).isNone = false)
      (fun s1 => Func.popped (k + 1) f0 s1 ∧ (index s.stack (s.sp - 1)).isNone = true) := by
  obtain ⟨h1, h2, h3, h4, h5, h6⟩ := hs
  unfold M.yields
  rcases pop_cases s with ⟨v, h0, hlt, hv, hp⟩ | ⟨hout, hp⟩
  · rw [hp]
    have hidx : index s.stack (s.sp - 1) = some v := by
      simp only [index, not_lt.mpr h0, if_false, hv]
    refine ⟨⟨h1, h2, h3, ?_, by simp [h5], ?_⟩, by rw [hidx]; rfl⟩
    · show s.sp - 1 = f0.sp - (k + 1)
      omega
    · intro n hn
      show (s.stack.set (s.sp - 1).toNat Val.nil)[n]? =
        if s.sp - 1 ≤ (n : ℤ) ∧ (n : ℤ) < f0.sp then some Val.nil else f0.stack[n]?
      by_cases hn1 : (s.sp - 1).toNat = n
      · have hc : s.sp - 1 ≤ (n : ℤ) ∧ (n : ℤ) < f0.sp := by omega
        rw [hn1, List.getElem?_set_self (by omega), if_pos hc]
      · rw [List.getElem?_set_ne hn1, h6 n hn]
        by_cases hc : s.sp ≤ (n : ℤ) ∧ (n : ℤ) < f0.sp
        · have hc1 : s.sp - 1 ≤ (n : ℤ) ∧ (n : ℤ) < f0.sp := by omega
          rw [if_pos hc, if_pos hc1]
        · have hc1 : ¬ (s.sp - 1 ≤ (n : ℤ) ∧ (n : ℤ) < f0.sp) := by omega
          rw [if_neg hc, if_neg hc1]
  · rw [hp]
    have hidx : index s.stack (s.sp - 1) = none := by
      unfold index
      by_cases hneg : s.sp - 1 < 0
      · rw [if_pos hneg]
      · rw [if_neg hneg]
        exact List.getElem?_eq_none (by omega)
    refine ⟨⟨h1, h2, h3, ?_, h5, ?_⟩, by rw [hidx]; rfl⟩
    · show s.sp - 1 = f0.sp - (k + 1)
      omega
    · intro n hn
      show s.stack[n]? =
        if s.sp - 1 ≤ (n : ℤ) ∧ (n : ℤ) < f0.sp then some Val.nil else f0.stack[n]?
      rw [h6 n hn]
      by_cases hc : s.sp ≤ (n : ℤ) ∧ (n : ℤ) < f0.sp
      · have hc1 : s.sp - 1 ≤ (n : ℤ) ∧ (n : ℤ) < f0.sp := by omega
        rw [if_pos hc, if_pos hc1]
      · have hc1 : ¬ (s.sp - 1 ≤ (n : ℤ) ∧ (n : ℤ) < f0.sp) := by omega
        rw [if_neg hc, if_neg hc1]

/-- A push that panics leaves the state as it was. -/
theorem push_fault_same (v : Val) (s : Func) (Q : Func → Prop) (hq : Q s) :
    M.yields (Func.push v) s (fun _ _ => True) Q := by
  unfold M.yields
  rcases push_cases s v with ⟨_, hp⟩ | ⟨_, _, hp⟩ | ⟨_, _, hp⟩
  · rw [hp]; trivial
  · rw [hp]; trivial
  · rw [hp]; exact hq

/-- `setVal` that panics leaves the state as it was. -/
theorem setVal_fault_same (flg : Flag) (ix : Nat) (v : Val) (s : Func) (Q : Func → Prop)
    (hq : Q s) : M.yields (Func.setVal flg ix v) s (fun _ _ => True) Q := by
  unfold M.yields Func.setVal
  cases flg with
  | FLG_V =>
    by_cases hix : ix < s.vars.length
    · simp only [hix, if_true]
    · simp only [hix, if_false]
      exact hq
  | FLG_K => exact hq
  | FLG_N => exact hq
  | FLG_F => exact hq
  | other n => exact hq

/-- Two pops, then a body that changes nothing before it panics: the state at
a panic is that of one attempted pop when slot `sp - 1` is not a slot, of two
otherwise. -/
theorem two_pops_fault (f0 : Func) (k : Val → Val → M Func Unit)
    (hk : ∀ (x y : Val) (s : Func), Func.popped 2 f0 s →
      M.yields (k y x) s (fun _ _ => True) (Func.popped 2 f0)) :
    M.yields (Func.pop >>= fun y => Func.pop >>= fun x => k y x) f0 (fun _ _ => True)
      (Func.popped (if (index f0.stack (f0.sp - 1)).isNone then 1 else 2) f0) := by
  refine M.yields_bind _ _ _
    (fun _ s1 => Func.popped 1 f0 s1 ∧ (index f0.stack (f0.sp - 1)).isNone = false) _ _
    (M.yields_mono _ _ _ _ _ _ (pop_popped 0 f0 f0 (le_refl _) (Func.popped_refl f0))
      (fun _ _ hq => hq) (fun _ hq => ?_)) ?_
  · rw [hq.2]
    exact hq.1
  · intro y s1 hs1
    rw [hs1.2]
    refine M.yields_bind _ _ _ (fun _ s2 => Func.popped 2 f0 s2) _ _
      (M.yields_mono _ _ _ _ _ _ (pop_popped 1 f0 s1 (by omega) hs1.1)
        (fun _ _ hq => hq.1) (fun _ hq => hq.1)) ?_
    intro x s2 hs2
    exact hk x y s2 hs2

theorem binop_fault_state (op : Val → Val → Except Fault Val) (f0 : Func) :
    M.yields (Func.binop op) f0 (fun _ _ => True)
      (Func.popped (if (index f0.stack (f0.sp - 1)).isNone then 1 else 2) f0) := by
  unfold Func.binop
  refine two_pops_fault f0 _ ?_
  intro x y s hs
  refine M.yields_bind _ _ _ (fun _ s3 => Func.popped 2 f0 s3) _ _
    (M.yields_ofExcept _ _ _ _ (fun _ => hs) hs) ?_
  intro z s3 hs3
  exact push_fault_same z s3 _ hs3

theorem cmpop_fault_state (P : Prims) (want : ℤ) (f0 : Func) :
    M.yields (Func.cmpop P want) f0 (fun _ _ => True)
      (Func.popped (if (index f0.stack (f0.sp - 1)).isNone then 1 else 2) f0) := by
  unfold Func.cmpop
  refine two_pops_fault f0 _ ?_
  intro x y s hs
  refine M.yields_bind _ _ _ (fun _ s3 => Func.popped 2 f0 s3) _ _
    (M.yields_ofExcept _ _ _ _ (fun _ => hs) hs) ?_
  intro z s3 hs3
  exact push_fault_same _ s3 _ hs3

/-- One pop, then a body that changes nothing before it panics. -/
theorem one_pop_fault (f0 : Func) (k : Val → M Func Unit)
    (hk : ∀ (x : Val) (s : Func), Func.popped 1 f0 s →
      M.yields (k x) s (fun _ _ => True) (Func.popped 1 f0)) :
    M.yields (Func.pop >>= fun x => k x) f0 (fun _ _ => True) (Func.popped 1 f0) := by
  refine M.yields_bind _ _ _ (fun _ s1 => Func.popped 1 f0 s1) _ _
    (M.yields_mono _ _ _ _ _ _ (pop_popped 0 f0 f0 (le_refl _) (Func.popped_refl f0))
      (fun _ _ hq => hq.1) (fun _ hq => hq.1)) ?_
  intro x s1 hs1
  exact hk x s1 hs1

theorem unop_fault_state (op : Val → Except Fault Val) (f0 : Func) :
    M.yields (Func.unop op) f0 (fun _ _ => True) (Func.popped 1 f0) := by
  unfold Func.unop
  refine one_pop_fault f0 _ ?_
  intro x s hs
  refine M.yields_bind _ _ _ (fun _ s3 => Func.popped 1 f0 s3) _ _
    (M.yields_ofExcept _ _ _ _ (fun _ => hs) hs) ?_
  intro z s3 hs3
  exact push_fault_same z s3 _ hs3

theorem popset_fault_state (flg : Flag) (ix : Nat) (f0 : Func) :
    M.yields (Func.pop >>= fun v => Func.setVal flg ix v) f0 (fun _ _ => True)
      (Func.popped 1 f0) :=
  one_pop_fault f0 _ (fun x s hs => setVal_fault_same flg ix x s _ hs)

theorem test_fault_state (P : Prims) (ix : Nat) (f0 : Func) :
    M.yields (Func.test P ix) f0 (fun _ _ => True) (Func.popped 1 f0) := by
  unfold Func.test
  refine one_pop_fault f0 _ ?_
  intro x s hs
  refine M.yields_bind _ _ _ (fun _ _ => True) _ _
    (M.yields_ofExcept _ _ _ _ (fun _ => trivial) hs) ?_
  intro b s3 _
  cases b <;> trivial

theorem ret_fault_state (f0 : Func) :
    M.yields Func.pop f0 (fun _ _ => True) (Func.popped 1 f0) :=
  M.yields_mono _ _ _ _ _ _ (pop_popped 0 f0 f0 (le_refl _) (Func.popped_refl f0))
    (fun _ _ _ => trivial) (fun _ hq => hq.1)

/-- The shape shared by the opcodes that only run a body on the object, for
the state at a panic. -/
theorem local_fault (h0 : Heap) (r : Ref) (f0 : Func) (m : M Func Unit) (Q : Func → Prop)
    (hf : h0[r]? = some f0) (hm : M.yields m f0 (fun _ _ => True) Q) :
    M.yields (Heap.onObj r m >>= fun _ => (pure none : M Heap (Option Val))) h0
      (fun _ _ => True) (fun h1 => ∃ f1, h1[r]? = some f1 ∧ Q f1) := by
  refine M.yields_bind _ _ _ (fun _ _ => True) _ _
    (M.yields_mono _ _ _ _ _ _ (Heap.onObj_yields h0 r m f0 _ _ hf hm)
      (fun _ _ _ => trivial) (fun _ h => ?_)) (fun _ _ _ => trivial)
  obtain ⟨f1, _, hget, hq⟩ := h
  exact ⟨f1, hget, hq⟩

/-- The state of the activation when the `switch` of the loop panics, for
every opcode but `CALL`: it is the fetched state after the pops the
instruction has attempted. -/
theorem exec_fault_state (P : Prims) (ctx : Ctx) (call : Ref → List Val → M Heap Val)
    (h0 : Heap) (r : Ref) (f0 : Func) (i : Instr) (hf : h0[r]? = some f0)
    (hnc : i.Opcode ≠ .OP_CALL) :
    M.yields (Func.exec P ctx call r i) h0 (fun _ _ => True)
      (fun h1 => ∃ f1, h1[r]? = some f1 ∧ Func.popped (Func.popsTried i f0) f0 f1) := by
  unfold Func.exec Func.popsTried
  cases hop : i.Opcode with
  | OP_RET =>
    refine M.yields_bind _ _ _ (fun _ _ => True) _ _
      (M.yields_mono _ _ _ _ _ _ (Heap.onObj_yields h0 r _ f0 _ _ hf (ret_fault_state f0))
        (fun _ _ _ => trivial) (fun _ hq => ?_)) (fun _ _ _ => trivial)
    obtain ⟨f1, _, hget, ha⟩ := hq
    exact ⟨f1, hget, ha⟩
  | OP_PUSH =>
    refine M.yields_bind _ _ _ (fun f h1 => f = f0 ∧ h1 = h0) _ _ ?_ ?_
    · unfold M.yields
      rw [Heap.read_ok h0 r f0 hf]
      exact ⟨rfl, rfl⟩
    · rintro f h1 ⟨rfl, rfl⟩
      refine M.yields_bind _ _ _ (fun _ h2 => h2[r]? = some f) _ _
        (M.yields_mono _ _ _ _ _ _ (getVal_yields P ctx f i.Flag i.Index h1)
          (fun _ _ hk => hk r f hf)
          (fun _ hk => ⟨f, hk r f hf, Func.popped_refl f⟩)) ?_
      intro v h2 hf2
      exact local_fault h2 r f (Func.push v) _ hf2
        (push_fault_same v f _ (Func.popped_refl f))
  | OP_POP => exact local_fault h0 r f0 _ _ hf (popset_fault_state i.Flag i.Index f0)
  | OP_ADD => exact local_fault h0 r f0 _ _ hf (binop_fault_state _ f0)
  | OP_SUB => exact local_fault h0 r f0 _ _ hf (binop_fault_state _ f0)
  | OP_MUL => exact local_fault h0 r f0 _ _ hf (binop_fault_state _ f0)
  | OP_DIV => exact local_fault h0 r f0 _ _ hf (binop_fault_state _ f0)
  | OP_MOD => exact local_fault h0 r f0 _ _ hf (binop_fault_state _ f0)
  | OP_POW => exact local_fault h0 r f0 _ _ hf (binop_fault_state _ f0)
  | OP_NOT => exact local_fault h0 r f0 _ _ hf (unop_fault_state _ f0)
  | OP_UNM => exact local_fault h0 r f0 _ _ hf (unop_fault_state _ f0)
  | OP_CALL => exact absurd hop hnc
  | OP_LT => exact local_fault h0 r f0 _ _ hf (cmpop_fault_state P _ f0)
  | OP_GT => exact local_fault h0 r f0 _ _ hf (cmpop_fault_state P _ f0)
  | OP_TEST => exact local_fault h0 r f0 _ _ hf (test_fault_state P i.Index f0)
  | OP_JMPB => exact local_fault h0 r f0 (Func.jmpb i.Index) _ hf trivial
  | OP_JMPF => exact local_fault h0 r f0 (Func.jmpf i.Index) _ hf trivial
  | OP_DUMP => trivial
  | other n => exact ⟨f0, hf, Func.popped_refl f0⟩

end Agora

namespace Agora

/-- Storing the object a pointer leads to leaves the store as it is. -/
theorem Heap.set_same (h : Heap) (r : Ref) (f : Func) (hf : h[r]? = some f) :
    h.set r f = h := by
  apply List.ext_getElem?
  intro n
  by_cases hn : r = n
  · subst hn
    rw [Heap.get_set h r f f hf, hf]
  · rw [List.getElem?_set_ne hn]

/-- C14, as the code has it. Nothing is rolled back when an instruction
faults. When the fetch itself faults the store is unchanged. When an
instruction other than `CALL` faults after its fetch, `pc` stays advanced, the
local variables and the prototype are as before the instruction began, `sp`
is lower by the number of pops the instruction has attempted, and the operand
stack differs from the one before only in the slots from the new `sp` up to
the old one, which hold `Nil`. A `CALL` whose popped callee is not a `Func`
faults with that one pop made: `pc` advanced, `sp` one lower and `Nil` in the
slot. -/
theorem step_fault_effect (P : Prims) (ctx : Ctx) (call : Ref → List Val → M Heap Val)
    (h : Heap) (r : Ref) (f : Func) (hf : h[r]? = some f) :
    (index f.proto.Code f.pc = none →
      Func.step P ctx call r h = .fault .indexOutOfRange h) ∧
    (∀ (i : Instr) (e : Fault) (h1 : Heap),
      index f.proto.Code f.pc = some i → i.Opcode ≠ .OP_CALL →
      Func.step P ctx call r h = .fault e h1 →
      ∃ f1, h1[r]? = some f1 ∧ f1.vars = f.vars ∧ f1.proto = f.proto ∧
        f1.pc = wrapInt (f.pc + 1) ∧ f1.sp = f.sp - Func.popsTried i f ∧
        f1.stack.length = f.stack.length ∧
        ∀ n : Nat, n < f.stack.length →
          f1.stack[n]? =
            if f1.sp ≤ (n : ℤ) ∧ (n : ℤ) < f.sp then some Val.nil else f.stack[n]?) ∧
    (∀ (i : Instr) (pre post : List Val) (x : Val),
      index f.proto.Code f.pc = some i → i.Opcode = .OP_CALL → (∀ c, x ≠ Val.func c) →
      f.stack = pre ++ x :: post → f.sp = (pre.length : ℤ) + 1 →
      Func.step P ctx call r h = .fault .typeAssertion
        (h.set r { f with pc := wrapInt (f.pc + 1)
                          stack := pre ++ Val.nil :: post
                          sp := f.sp - 1 })) := by
  refine ⟨?_, ?_, ?_⟩
  · intro hi
    have hfetch : Func.fetch f = .fault .indexOutOfRange f := by simp [Func.fetch, hi]
    unfold Func.step
    rw [M.bind_fault _ _ _ _ _ (Heap.onObj_fault h r _ f f _ hf hfetch),
      Heap.set_same h r f hf]
  · intro i e h1 hi hnc hstep
    have hf0 := Heap.get_set h r f { f with pc := wrapInt (f.pc + 1) } hf
    unfold Func.step at hstep
    rw [M.bind_ok _ _ _ _ _ (Heap.onObj_ok h r _ f _ i hf (Func.fetch_ok f i hi))] at hstep
    obtain ⟨f1, hget, hp, hpc, hv, hsp, hlen, hslots⟩ :=
      M.yields_fault _ _ _ _ _ _ (exec_fault_state P ctx call _ r _ i hf0 hnc) hstep
    exact ⟨f1, hget, hv, hp, hpc, hsp, hlen, hslots⟩
  · intro i pre post x hi hop hx hst hsp
    exact step_call_not_func P ctx call h r f i pre post x hf hi hop hx hst hsp

/-- Witness of the amended C14: `ADD` with a single value on the stack faults
with `pc` advanced, `sp` two lower and `Nil` in the slot of the value. -/
theorem step_fault_effect_witness :
    Func.step samplePrims emptyCtx noCall 0 [addOneStart] =
      .fault .indexOutOfRange [{ addOneStart with pc := 1, stack := [Val.nil], sp := -1 }] ∧
    ∃ f1, [{ addOneStart with pc := 1, stack := [Val.nil], sp := -1 }][0]? = some f1 ∧
      f1.vars = addOneStart.vars ∧ f1.proto = addOneStart.proto ∧
      f1.pc = wrapInt (addOneStart.pc + 1) ∧
      f1.sp = addOneStart.sp - Func.popsTried (instr .OP_ADD .FLG_N 0) addOneStart ∧
      f1.stack.length = addOneStart.stack.length ∧
      ∀ n : Nat, n < addOneStart.stack.length →
        f1.stack[n]? =
          if f1.sp ≤ (n : ℤ) ∧ (n : ℤ) < addOneStart.sp then some Val.nil
          else addOneStart.stack[n]? :=
  ⟨by decide,
    (step_fault_effect samplePrims emptyCtx noCall [addOneStart] 0 addOneStart rfl).2.1
      (instr .OP_ADD .FLG_N 0) .indexOutOfRange _ rfl (by decide) (by decide)⟩

/-- C14 as stated fails: `ADD` with a single value on the stack faults, and the
activation's stack and stack pointer are not what they were before the
instruction began. -/
theorem step_fault_not_rolled_back :
    ¬ ∃ (e : Fault) (h1 : Heap) (f1 : Func),
      Func.step samplePrims emptyCtx noCall 0 [addOneStart] = .fault e h1 ∧
      h1[0]? = some f1 ∧ f1.stack = addOneStart.stack ∧ f1.sp = addOneStart.sp ∧
      f1.vars = addOneStart.vars := by
  rintro ⟨e, h1, f1, hstep, hf1, _, hsp, _⟩
  have hcode : Func.step samplePrims emptyCtx noCall 0 [addOneStart] =
      .fault .indexOutOfRange [{ addOneStart with pc := 1, stack := [Val.nil], sp := -1 }] := by
    decide
  rw [hcode] at hstep
  cases hstep
  simp at hf1
  subst hf1
  exact absurd hsp (by decide)

end Agora
